import Mathlib

/-!
# Shortest-path query of grdb: a shallow embedding of `cli_graph_shortest_path.c`

The C translation unit is embedded function by function.  Conventions:

* an `int` array reached through a pointer is a function `Nat → _` (a memory region);
  a store `a[k] = x` is `upd a k x`;
* vertex ids and heap slots are `Nat` (the driver only produces non-negative ids, and
  slots are produced by `++len` and by halving / doubling);
* priorities, weights and distances are `Int`; the one addition of the program,
  `v->dist + e->weight`, is wrapped to 32 bits by `wrap32`;
* a vertex slot `g->vertices[i]` is `none` when it is `NULL`; reading a slot at or past
  `vertices_size`, or dereferencing a `NULL` slot, is an invalid access and stops the run
  (`Option.none` / `Run.crash`);
* the heap arrays `data`, `prio`, `index` are memory regions in `push_heap`, `pop_heap` and
  `dijkstra` (arrays taken large enough to hold every id); `push_heap_chk`, `pop_heap_chk`
  and `dijkstra_chk` are the same code with every access to them checked against the number
  of cells `create_heap` allocated, an access at or past it being an invalid access;
* unbounded loops carry a fuel argument; `Run.timeout` is the answer of a run that used it up.
-/

set_option autoImplicit false

namespace Grdb

/-! ## Machine integers -/

/-- The constant `INT_MAX` of `<limits.h>` for a 32-bit `int`; the "+infinity" sentinel. -/
def INT_MAX : Int := 2147483647

/-- Two's-complement reduction of a mathematical integer to the range of a 32-bit `int`. -/
def wrap32 (z : Int) : Int := (z + 2147483648) % 4294967296 - 2147483648

/-- Store `x` at cell `k` of the memory region `f`. -/
def upd {α : Type} (f : Nat → α) (k : Nat) (x : α) : Nat → α :=
  fun j => if j = k then x else f j

/-! ## Data model (lines 20-46) -/

/-- The struct `newEdge_t`: destination vertex and weight. -/
structure newEdge_t where
  vertex : Nat
  weight : Int
deriving DecidableEq, Repr

/-- The struct `newVertex_t`.  `edges` holds the cells `edges[0 .. edges_len-1]` in order, so
`edges_len` is `edges.length`; `edges_size` is the capacity of the backing array. -/
structure newVertex_t where
  edges : List newEdge_t
  edges_size : Nat
  dist : Int
  prev : Nat
  visited : Nat
deriving DecidableEq, Repr

/-- The struct `newGraph_t`.  `vertices j` is the content of cell `j` of the backing array,
`none` standing for `NULL`; only the cells below `vertices_size` are allocated. -/
structure newGraph_t where
  vertices : Nat → Option newVertex_t
  vertices_len : Nat
  vertices_size : Nat

/-- The struct `heap_t`.  `data`, `prio` and `index` are the three arrays; the last three
fields record how many cells `create_heap` allocated for each of them. -/
structure heap_t where
  data : Nat → Nat
  prio : Nat → Int
  index : Nat → Nat
  len : Nat
  size : Nat
  data_cells : Nat
  prio_cells : Nat
  index_cells : Nat

/-- Outcome of a run of a function that may loop or touch an invalid vertex slot. -/
inductive Run (α : Type) where
  | done (a : α) : Run α
  | crash : Run α
  | timeout : Run α
deriving DecidableEq, Repr

/-- What `print_path` writes: either the line "no path" or the distance and the path. -/
inductive Output where
  | no_path : Output
  | route (dist : Int) (path : List Nat) : Output
deriving DecidableEq, Repr

/-! ## Transient graph (lines 49-76) -/

/-- The graph a `calloc(1, sizeof (newGraph_t))` yields. -/
def empty_graph : newGraph_t :=
  { vertices := fun _ => none, vertices_len := 0, vertices_size := 0 }

/-- The vertex a `calloc(1, sizeof (newVertex_t))` yields. -/
def zero_vertex : newVertex_t :=
  { edges := [], edges_size := 0, dist := 0, prev := 0, visited := 0 }

/-- Checked read of `g->vertices[i]` followed by a dereference: `none` when the cell is not
allocated or holds `NULL`. -/
def slot (g : newGraph_t) (i : Nat) : Option newVertex_t :=
  if i < g.vertices_size then g.vertices i else none

/-- Store through the pointer `g->vertices[i]`: the vertex record of slot `i` becomes `v`. -/
def setv (g : newGraph_t) (i : Nat) (v : newVertex_t) : newGraph_t :=
  { g with vertices := upd g.vertices i (some v) }

/-- The function `add_vertex` (lines 49-61). -/
def add_vertex (g : newGraph_t) (i : Nat) : newGraph_t :=
  let g1 : newGraph_t :=
    if g.vertices_size < i + 1 then
      let size := if g.vertices_size * 2 > i then g.vertices_size * 2 else i + 4
      { g with
        vertices := fun j => if g.vertices_size ≤ j ∧ j < size then none else g.vertices j,
        vertices_size := size }
    else g
  match g1.vertices i with
  | none => { g1 with vertices := upd g1.vertices i (some zero_vertex),
                      vertices_len := g1.vertices_len + 1 }
  | some _ => g1

/-- The function `add_edge` (lines 64-76); `none` when `g->vertices[a]` is not a valid slot
(which cannot happen after `add_vertex(g, a)`). -/
def add_edge (g : newGraph_t) (a b : Nat) (w : Int) : Option newGraph_t :=
  let g2 := add_vertex (add_vertex g a) b
  match slot g2 a with
  | none => none
  | some v =>
    let sz := if v.edges.length ≥ v.edges_size then
                (if v.edges_size ≠ 0 then v.edges_size * 2 else 4)
              else v.edges_size
    some (setv g2 a { v with edges_size := sz, edges := v.edges ++ [{ vertex := b, weight := w }] })

/-! ## Indexed binary heap (lines 79-134) -/

/-- The function `create_heap` (lines 79-85): all three arrays zeroed, `n + 1` cells for
`data` and `prio`, `n` cells for `index`. -/
def create_heap (n : Nat) : heap_t :=
  { data := fun _ => 0, prio := fun _ => 0, index := fun _ => 0, len := 0, size := 0,
    data_cells := n + 1, prio_cells := n + 1, index_cells := n }

/-- The three stores `h->data[i] = h->data[j]; h->prio[i] = h->prio[j];
h->index[h->data[i]] = i;` (lines 94-96, 124-126 and 129-131). -/
def move_slot (h : heap_t) (i j : Nat) : heap_t :=
  { h with data := upd h.data i (h.data j), prio := upd h.prio i (h.prio j),
           index := upd h.index (h.data j) i }

/-- The three stores `h->data[i] = v; h->prio[i] = p; h->index[v] = i;` (lines 100-102). -/
def store_slot (h : heap_t) (i v : Nat) (p : Int) : heap_t :=
  { h with data := upd h.data i v, prio := upd h.prio i p, index := upd h.index v i }

/-- The `while (i > 1)` loop of `push_heap` (lines 91-99), with `j = i / 2` at the loop head.
Returns the heap and the final `i`. -/
def sift_up (p : Int) : Nat → heap_t → Nat → heap_t × Nat
  | 0, h, i => (h, i)
  | fuel + 1, h, i =>
    if 1 < i then
      if h.prio (i / 2) < p then (h, i)
      else
        sift_up p fuel (move_slot h i (i / 2)) (i / 2)
    else (h, i)

/-- The function `push_heap` (lines 88-103).  The loop halves `i` each round, so `i` rounds of
fuel are enough (`sift_up_fuel`). -/
def push_heap (h : heap_t) (v : Nat) (p : Int) : heap_t :=
  let i := if h.index v = 0 then h.len + 1 else h.index v
  let h1 : heap_t := if h.index v = 0 then { h with len := h.len + 1 } else h
  let r := sift_up p i h1 i
  store_slot r.1 r.2 v p

/-- The function `min` (lines 107-114). -/
def min (h : heap_t) (i j k : Nat) : Nat :=
  let m := if j ≤ h.len ∧ h.prio j < h.prio i then j else i
  if k ≤ h.len ∧ h.prio k < h.prio m then k else m

/-- The `while (1)` loop of `pop_heap` (lines 120-128).  Returns the heap and the final `i`. -/
def sift_down : Nat → heap_t → Nat → heap_t × Nat
  | 0, h, i => (h, i)
  | fuel + 1, h, i =>
    let j := Grdb.min h h.len (2 * i) (2 * i + 1)
    if j = h.len then (h, i)
    else
      sift_down fuel (move_slot h i j) j

/-- The function `pop_heap` (lines 117-134): the returned vertex and the heap afterwards.  The
loop moves `i` to a strictly larger slot below `len` each round, so `len` rounds of fuel are
enough (`sift_down_fuel`).  `len` is a `Nat`: the function is only applied to a non-empty heap,
where `h->len--` does not go below zero. -/
def pop_heap (h : heap_t) : Nat × heap_t :=
  let v := h.data 1
  let r := sift_down h.len h 1
  (v, { move_slot r.1 r.2 r.1.len with len := r.1.len - 1 })

/-! ## Dijkstra (lines 137-165) -/

/-- The initialisation loop `for (i = 1; i <= g->vertices_len; i++)` (lines 139-144): the
first argument counts the rounds left, the second is `i`. -/
def init_vertices : Nat → Nat → newGraph_t → Option newGraph_t
  | 0, _, g => some g
  | n + 1, i, g =>
    match slot g i with
    | none => none
    | some v => init_vertices n (i + 1) (setv g i { v with dist := INT_MAX, prev := 0, visited := 0 })

/-- The relaxation loop `for (j = 0; j < v->edges_len; j++)` (lines 155-163) over the edges
of the popped vertex `i`; `v->dist` is read through the pointer at every round. -/
def relax (i : Nat) : List newEdge_t → newGraph_t × heap_t → Option (newGraph_t × heap_t)
  | [], s => some s
  | e :: es, s =>
    match slot s.1 i, slot s.1 e.vertex with
    | some v, some u =>
      if u.visited = 0 ∧ wrap32 (v.dist + e.weight) ≤ u.dist then
        relax i es
          (setv s.1 e.vertex { u with prev := i, dist := wrap32 (v.dist + e.weight) },
           push_heap s.2 e.vertex (wrap32 (v.dist + e.weight)))
      else relax i es s
    | _, _ => none

/-- The main loop `while (h->len)` (lines 149-164); one unit of fuel per `pop_heap`. -/
def dijkstra_loop (b : Nat) : Nat → newGraph_t × heap_t → Run (newGraph_t × heap_t)
  | 0, s => if s.2.len = 0 then Run.done s else Run.timeout
  | fuel + 1, s =>
    if s.2.len = 0 then Run.done s
    else
      let r := pop_heap s.2
      if r.1 = b then Run.done (s.1, r.2)
      else
        match slot s.1 r.1 with
        | none => Run.crash
        | some v =>
          match relax r.1 v.edges (setv s.1 r.1 { v with visited := 1 }, r.2) with
          | none => Run.crash
          | some s2 => dijkstra_loop b fuel s2

/-- The function `dijkstra` (lines 137-165), with the heap arrays taken large enough to hold
every id (accesses to them are not checked here; `dijkstra_chk` checks them).  The graph is
the in/out argument of the C function; the heap, which the C function leaves behind, is
returned with it. -/
def dijkstra (fuel : Nat) (g : newGraph_t) (a b : Nat) : Run (newGraph_t × heap_t) :=
  match init_vertices g.vertices_len 1 g with
  | none => Run.crash
  | some g1 =>
    match slot g1 a with
    | none => Run.crash
    | some v =>
      dijkstra_loop b fuel
        (setv g1 a { v with dist := 0 }, push_heap (create_heap g1.vertices_len) a 0)

/-! ## Path reconstruction (lines 167-185) -/

/-- The first loop of `print_path` (line 175): counts `n` while walking `prev` links from `u`
as long as `u->dist` is non-zero. -/
def count_hops (g : newGraph_t) : Nat → newVertex_t → Nat → Run Nat
  | 0, u, n => if u.dist = 0 then Run.done n else Run.timeout
  | fuel + 1, u, n =>
    if u.dist = 0 then Run.done n
    else
      match slot g u.prev with
      | none => Run.crash
      | some u1 => count_hops g fuel u1 (n + 1)

/-- The second loop of `print_path` (lines 178-179): stores `u->prev` at `path[n - j - 2]`. -/
def fill_path (g : newGraph_t) (n : Nat) : Nat → newVertex_t → Nat → (Nat → Nat) → Run (Nat → Nat)
  | 0, u, _, path => if u.dist = 0 then Run.done path else Run.timeout
  | fuel + 1, u, j, path =>
    if u.dist = 0 then Run.done path
    else
      match slot g u.prev with
      | none => Run.crash
      | some u1 => fill_path g n fuel u1 (j + 1) (upd path (n - j - 2) u.prev)

/-- The function `print_path` (lines 167-185): what it prints. -/
def print_path (fuel : Nat) (g : newGraph_t) (i : Nat) : Run Output :=
  match slot g i with
  | none => Run.crash
  | some v =>
    if v.dist = INT_MAX then Run.done Output.no_path
    else
      match count_hops g fuel v 1 with
      | Run.crash => Run.crash
      | Run.timeout => Run.timeout
      | Run.done n =>
        match fill_path g n fuel v 0 (upd (fun _ => 0) (n - 1) i) with
        | Run.crash => Run.crash
        | Run.timeout => Run.timeout
        | Run.done path => Run.done (Output.route v.dist ((List.range n).map path))

/-! ## Query pipeline (lines 259-264) -/

/-- A staged host edge: `node1[i]`, `node2[i]`, `weight[i]`. -/
structure host_edge where
  id1 : Nat
  id2 : Nat
  weight : Int
deriving DecidableEq, Repr

/-- The loop `for (i = 0; i <= count; i++) add_edge(g, node1[i], node2[i], weight[i])`
(lines 259-260) over the staged edges, starting from graph `g`. -/
def add_edges : List host_edge → newGraph_t → Option newGraph_t
  | [], g => some g
  | e :: es, g =>
    match add_edge g e.id1 e.id2 e.weight with
    | none => none
    | some g1 => add_edges es g1

/-- Lines 259-264 of `cli_graph_shortest_path`: build the transient graph from the staged
edges, run `dijkstra`, then `print_path`. -/
def query (fuel : Nat) (edges : List host_edge) (source target : Nat) : Run Output :=
  match add_edges edges empty_graph with
  | none => Run.crash
  | some g =>
    match dijkstra fuel g source target with
    | Run.crash => Run.crash
    | Run.timeout => Run.timeout
    | Run.done s => print_path fuel s.1 target

/-! ## Specification vocabulary -/

/-- Heap order: `prio[i / 2] ≤ prio[i]` for every slot `2 ≤ i ≤ len`. -/
def heap_order (h : heap_t) : Prop :=
  ∀ i, i ≤ h.len → 2 ≤ i → h.prio (i / 2) ≤ h.prio i

/-- Bijection between slots and index entries: `index[data[i]] = i` for `1 ≤ i ≤ len`. -/
def heap_bij (h : heap_t) : Prop :=
  ∀ i, i ≤ h.len → 1 ≤ i → h.index (h.data i) = i

/-- The multiset of `(vertex, priority)` pairs held in slots `1 .. len`. -/
def entries (h : heap_t) : Multiset (Nat × Int) :=
  (Multiset.range h.len).map (fun k => (h.data (k + 1), h.prio (k + 1)))

/-- The multiset of pairs held in slots `1 .. n` of a data array `d` and a priority array `q`. -/
def entries_of (d : Nat → Nat) (q : Nat → Int) (n : Nat) : Multiset (Nat × Int) :=
  (Multiset.range n).map (fun k => (d (k + 1), q (k + 1)))

/-- The heap states reachable from `create_heap` by `push_heap` calls and by `pop_heap` calls
on a non-empty heap. -/
inductive Reachable : heap_t → Prop where
  | create (n : Nat) : Reachable (create_heap n)
  | push (h : heap_t) (v : Nat) (p : Int) : Reachable h → Reachable (push_heap h v p)
  | pop (h : heap_t) : Reachable h → h.len ≠ 0 → Reachable (pop_heap h).2

/-- Loop invariant of the sift-up loop for heap order, with the pair `(v, p)` still to be
stored at the hole `i`: order holds away from the hole, the children of the hole are at least
`p`, and at least the parent of the hole. -/
def up_order (p : Int) (h : heap_t) (i : Nat) : Prop :=
  i ≤ h.len ∧
  (∀ k, k ≤ h.len → 2 ≤ k → k ≠ i → k / 2 ≠ i → h.prio (k / 2) ≤ h.prio k) ∧
  (∀ k, k ≤ h.len → 2 ≤ k → k / 2 = i → p ≤ h.prio k) ∧
  (∀ k, k ≤ h.len → 2 ≤ k → k / 2 = i → 2 ≤ i → h.prio (i / 2) ≤ h.prio k)

/-- Loop invariant of the sift-down loop for heap order, where `x` is the priority of the last
slot `L` (the pair still to be stored at the hole `i`) and the heap after the pop has the slots
`1 .. L - 1`: order holds away from the hole, the parent of the hole is at most `x` and at
most the children of the hole. -/
def down_order (x : Int) (L : Nat) (h : heap_t) (i : Nat) : Prop :=
  h.len = L ∧ h.prio L = x ∧
  (∀ k, k + 1 ≤ L → 2 ≤ k → k ≠ i → k / 2 ≠ i → h.prio (k / 2) ≤ h.prio k) ∧
  (2 ≤ i → h.prio (i / 2) ≤ x) ∧
  (∀ k, k + 1 ≤ L → 2 ≤ k → k / 2 = i → 2 ≤ i → h.prio (i / 2) ≤ h.prio k)

/-- The invariant of the reachable heap states: the bijection of slots and index entries, and
every index entry is `0`, `1`, or the slot (within `1 .. len`) that holds the vertex.  (An
entry `1` may be stale: `pop_heap` leaves the entry of the popped vertex at `1`.) -/
def heap_wf (h : heap_t) : Prop :=
  heap_bij h ∧ ∀ w, h.index w ≤ 1 ∨ (h.index w ≤ h.len ∧ h.data (h.index w) = w)

/-- Loop invariant of the sift-up loop for the bijection, with `v` still to be stored at the
hole `i`. -/
def up_bij (v : Nat) (h : heap_t) (i : Nat) : Prop :=
  (i ≤ h.len ∨ i ≤ 1) ∧
  (∀ k, k ≤ h.len → 1 ≤ k → k ≠ i → h.index (h.data k) = k) ∧
  (∀ k, k ≤ h.len → 1 ≤ k → k ≠ i → h.data k ≠ v) ∧
  (∀ w, w ≠ v → h.index w ≤ 1 ∨ (h.index w ≤ h.len ∧ h.index w ≠ i ∧ h.data (h.index w) = w))

/-- Loop invariant of the sift-down loop for the bijection, with the vertex of the last slot
`L` still to be stored at the hole `i`. -/
def down_bij (L : Nat) (h : heap_t) (i : Nat) : Prop :=
  h.len = L ∧ (i < L ∨ i ≤ 1) ∧
  (∀ k, k ≤ L → 1 ≤ k → k ≠ i → h.index (h.data k) = k) ∧
  (∀ w, h.index w ≤ 1 ∨ (h.index w ≤ L ∧ h.index w ≠ i ∧ h.data (h.index w) = w))

/-- A small heap used to instantiate the heap theorems: `(2, 3)` at slot 1, `(1, 5)` at slot 2. -/
def sample_heap : heap_t := push_heap (push_heap (create_heap 3) 1 5) 2 3

/-! ### Vocabulary for graphs -/

/-- The out-edge list of vertex `i` (empty when the slot is not valid). -/
def out_edges (g : newGraph_t) (i : Nat) : List newEdge_t :=
  match slot g i with
  | none => []
  | some v => v.edges

/-- The field `g->vertices[i]->dist` (`0` when the slot is not valid). -/
def dist_of (g : newGraph_t) (i : Nat) : Int :=
  match slot g i with
  | none => 0
  | some v => v.dist

/-- The field `g->vertices[i]->visited` (`0` when the slot is not valid). -/
def visited_of (g : newGraph_t) (i : Nat) : Nat :=
  match slot g i with
  | none => 0
  | some v => v.visited

/-- The field `g->vertices[i]->prev` (`0` when the slot is not valid). -/
def prev_of (g : newGraph_t) (i : Nat) : Nat :=
  match slot g i with
  | none => 0
  | some v => v.prev

/-- The vertex ids of `g` are `1 .. N`: `vertices_len` is `N`, every slot `1 .. N` holds a
vertex, and every edge leads to a vertex in `1 .. N`. -/
def graph_ok (g : newGraph_t) (N : Nat) : Prop :=
  g.vertices_len = N ∧
  ∀ i, i ≤ N → 1 ≤ i →
    (slot g i).isSome = true ∧ ∀ e ∈ out_edges g i, 1 ≤ e.vertex ∧ e.vertex ≤ N

/-- All edge weights of the vertices `1 .. N` are non-negative. -/
def weights_nonneg (g : newGraph_t) (N : Nat) : Prop :=
  ∀ i, i ≤ N → 1 ≤ i → ∀ e ∈ out_edges g i, 0 ≤ e.weight

/-- Sum of the weights of the edges leaving vertex `i`. -/
def out_weight (g : newGraph_t) (i : Nat) : Int :=
  ((out_edges g i).map newEdge_t.weight).sum

/-- Sum of all edge weights of the vertices `1 .. N`. -/
def total_weight (g : newGraph_t) (N : Nat) : Int :=
  ((List.range' 1 N).map (out_weight g)).sum

/-- A directed walk in `g` from `s` to `t` of total weight `d` (the empty walk has weight 0),
through valid slots only. -/
inductive Walk (g : newGraph_t) (s : Nat) : Nat → Int → Prop where
  | nil : Walk g s s 0
  | snoc (u : Nat) (d : Int) (e : newEdge_t) :
      Walk g s u d → e ∈ out_edges g u → Walk g s e.vertex (d + e.weight)

/-- Sum of the weights of the edges leaving the vertices of `1 .. N` that are marked visited
in `g`, the edges being those of `g0`. -/
def visited_weight (g0 : newGraph_t) (N : Nat) (g : newGraph_t) : Int :=
  ((List.range' 1 N).map (fun i => if visited_of g i = 0 then 0 else out_weight g0 i)).sum

/-- The transient graph the driver builds from the staged edges `es` (the empty graph if an
`add_edge` call fails, which does not happen). -/
def graph_of (es : List host_edge) : newGraph_t :=
  match add_edges es empty_graph with
  | none => empty_graph
  | some g => g

/-- Staged edges `1 → 1 (1)`, `1 → 2 (2)`: the self-loop scenario of the specification. -/
def loop_edges : List host_edge := [⟨1, 1, 1⟩, ⟨1, 2, 2⟩]

/-- Staged edges `1 → 2 (0)`, `2 → 3 (5)`: a chain that starts with a zero-weight edge. -/
def zero_chain : List host_edge := [⟨1, 2, 0⟩, ⟨2, 3, 5⟩]

/-- Staged edges `1 → 2 (1)`, `1 → 3 (4)`, `2 → 3 (2)`, `3 → 4 (1)`: the diamond scenario. -/
def diamond : List host_edge := [⟨1, 2, 1⟩, ⟨1, 3, 4⟩, ⟨2, 3, 2⟩, ⟨3, 4, 1⟩]

/-- Number of vertices of `1 .. N` that are not marked visited in `g`. -/
def unvisited_count (N : Nat) (g : newGraph_t) : Nat :=
  ((List.range' 1 N).map (fun i => if visited_of g i = 0 then 1 else 0)).sum

/-- The value `d` is the shortest-path answer for the query `(s, t)` on `g`: the minimum weight
of a walk from `s` to `t` when there is one, and the sentinel `INT_MAX` when there is none. -/
def shortest_or_max (g : newGraph_t) (s t : Nat) (d : Int) : Prop :=
  ((∃ w, Walk g s t w) → Walk g s t d ∧ ∀ w, Walk g s t w → d ≤ w) ∧
  ((¬ ∃ w, Walk g s t w) → d = INT_MAX)

/-- The invariant of the main loop of `dijkstra` on the graph `g0` with vertex ids `1 .. N`,
source `a` and target `b`, at the state `s` (graph and heap).  `c` is the vertex whose edges
are being relaxed (`0` at the head of the main loop). -/
structure dj_inv (g0 : newGraph_t) (N a b c : Nat) (s : newGraph_t × heap_t) : Prop where
  valid : ∀ i, 1 ≤ i → i ≤ N → ∃ v, slot s.1 i = some v ∧ v.edges = out_edges g0 i
  hwf : heap_wf s.2
  hord : heap_order s.2
  hcontent : ∀ e ∈ entries s.2, 1 ≤ e.1 ∧ e.1 ≤ N ∧ visited_of s.1 e.1 = 0 ∧
    e.2 = dist_of s.1 e.1 ∧ e.2 ≠ INT_MAX
  hfresh : ∀ y, 1 ≤ y → y ≤ N → visited_of s.1 y = 0 → dist_of s.1 y = INT_MAX →
    s.2.index y = 0
  hqueued : ∀ y, 1 ≤ y → y ≤ N → visited_of s.1 y = 0 → dist_of s.1 y ≠ INT_MAX →
    (y, dist_of s.1 y) ∈ entries s.2
  src : dist_of s.1 a = 0
  walk : ∀ u, 1 ≤ u → u ≤ N → dist_of s.1 u ≠ INT_MAX → Walk g0 a u (dist_of s.1 u)
  relaxed : ∀ x, 1 ≤ x → x ≤ N → visited_of s.1 x ≠ 0 → x ≠ c →
    ∀ e ∈ out_edges g0 x, dist_of s.1 e.vertex ≤ dist_of s.1 x + e.weight
  mono : ∀ x y, 1 ≤ x → x ≤ N → 1 ≤ y → y ≤ N → visited_of s.1 x ≠ 0 →
    visited_of s.1 y = 0 → dist_of s.1 x ≤ dist_of s.1 y
  cur : c ≠ 0 → 1 ≤ c ∧ c ≤ N ∧ visited_of s.1 c ≠ 0 ∧
    ∀ x, 1 ≤ x → x ≤ N → visited_of s.1 x ≠ 0 → dist_of s.1 x ≤ dist_of s.1 c
  bound : ∀ u, 1 ≤ u → u ≤ N → dist_of s.1 u ≠ INT_MAX →
    0 ≤ dist_of s.1 u ∧ dist_of s.1 u ≤ visited_weight g0 N s.1
  boundv : ∀ x, 1 ≤ x → x ≤ N → visited_of s.1 x ≠ 0 →
    dist_of s.1 x ≠ INT_MAX ∧ dist_of s.1 x + out_weight g0 x ≤ visited_weight g0 N s.1
  tgt : visited_of s.1 b = 0

/-! ### Vocabulary for the transient graph and the driver -/

/-- Number of cells of the backing array of `g` that hold a vertex (are not `NULL`). -/
def slot_count (g : newGraph_t) : Nat :=
  ((List.range g.vertices_size).map (fun j => if (g.vertices j).isSome then 1 else 0)).sum

/-- The graph states the driver can reach: the zeroed graph, then `add_vertex` and `add_edge`
calls. -/
inductive Built : newGraph_t → Prop where
  | empty : Built empty_graph
  | vertex (g : newGraph_t) (i : Nat) : Built g → Built (add_vertex g i)
  | edge (g g1 : newGraph_t) (a b : Nat) (w : Int) :
      Built g → add_edge g a b w = some g1 → Built g1

/-- The constant `SIZE` (line 18): the number of cells of `node1`, `node2` and `weight`. -/
def SIZE : Nat := 20

/-- The local buffers `node1`, `node2`, `weight` and the counter `count` of
`cli_graph_shortest_path` (lines 209-213). -/
structure stage_t where
  node1 : Nat → Nat
  node2 : Nat → Nat
  weight : Nat → Int
  count : Nat

/-- The stores `node1[count] = edge->id1; node2[count] = edge->id2; weight[count] =
get_weight(...)` (lines 247-249 and 254-256); `none` when `count` is not below `SIZE`, a
store past the end of the three buffers.  The host edge record carries the weight that
`get_weight` returns for its tuple.  Host ids are taken to be below `2^31`, where the
conversion of `edge->id1` and `edge->id2` to the `int` cells keeps their value. -/
def stage_store (st : stage_t) (e : host_edge) : Option stage_t :=
  if st.count < SIZE then
    some { st with node1 := upd st.node1 st.count e.id1, node2 := upd st.node2 st.count e.id2,
                   weight := upd st.weight st.count e.weight }
  else none

/-- The loop `for (edge = current->e; edge->next != NULL; edge = edge->next, ++count)`
(lines 245-251) over the host edge list, which is the linked list starting at `current->e`.
It returns the buffers and the edge at which it stops; `none` on an invalid access (the test
`edge->next` with `edge == NULL`, or a store past the buffers). -/
def stage_loop : List host_edge → stage_t → Option (stage_t × host_edge)
  | [], _ => none
  | [e], st => some (st, e)
  | e :: e2 :: es, st =>
    match stage_store st e with
    | none => none
    | some st1 => stage_loop (e2 :: es) { st1 with count := st1.count + 1 }

/-- Lines 245-260 of `cli_graph_shortest_path`: stage the host edges, stage the edge the loop
stopped at, and list the arguments of the calls `add_edge(g, node1[i], node2[i], weight[i])`
for `i = 0 .. count`. -/
def cli_stage (es : List host_edge) : Option (List host_edge) :=
  match stage_loop es { node1 := fun _ => 0, node2 := fun _ => 0, weight := fun _ => 0,
                        count := 0 } with
  | none => none
  | some r =>
    match stage_store r.1 r.2 with
    | none => none
    | some st =>
      some ((List.range (st.count + 1)).map (fun i => ⟨st.node1 i, st.node2 i, st.weight i⟩))

/-- The out-edges that a list of `add_edge` calls gives vertex `i`: the calls leaving `i`, in
order. -/
def edges_from (es : List host_edge) (i : Nat) : List newEdge_t :=
  (es.filter (fun e => e.id1 = i)).map (fun e => ⟨e.id2, e.weight⟩)

/-- The slot at which `push_heap(h, v, p)` starts its sift-up. -/
def start_slot (h : heap_t) (v : Nat) : Nat :=
  if h.index v = 0 then h.len + 1 else h.index v

/-- Staged edge `1 → 3 (1)`: a transient graph with the non-contiguous ids 1 and 3. -/
def sparse_edges : List host_edge := [⟨1, 3, 1⟩]

/-- The pairs the three buffers hold in cells `0 .. count - 1`. -/
def staged (st : stage_t) : List host_edge :=
  (List.range st.count).map (fun i => ⟨st.node1 i, st.node2 i, st.weight i⟩)

/-! ### The run of `dijkstra` with a log of its heap operations and sums -/

/-- An observation made during a run of `dijkstra`: `pop v n` when `pop_heap` returned `v`
and left the heap with `len = n`; `push v n` when `push_heap(h, v, _)` was called and left
the heap with `len = n`; `sum d w` when the relaxation test evaluated `v->dist + e->weight`
with the operands `d` and `w`. -/
inductive event where
  | pop (v : Nat) (n : Nat) : event
  | push (v : Nat) (n : Nat) : event
  | sum (d : Int) (w : Int) : event
deriving DecidableEq, Repr

/-- The function `relax` with a log (most recent observation first).  The test
`!u->visited && v->dist + e->weight <= u->dist` evaluates the sum only when `u` is not
visited. -/
def relax_log (i : Nat) : List newEdge_t → (newGraph_t × heap_t) × List event →
    Option ((newGraph_t × heap_t) × List event)
  | [], s => some s
  | e :: es, s =>
    match slot s.1.1 i, slot s.1.1 e.vertex with
    | some v, some u =>
      if u.visited = 0 then
        if wrap32 (v.dist + e.weight) ≤ u.dist then
          relax_log i es
            ((setv s.1.1 e.vertex { u with prev := i, dist := wrap32 (v.dist + e.weight) },
              push_heap s.1.2 e.vertex (wrap32 (v.dist + e.weight))),
             event.push e.vertex (push_heap s.1.2 e.vertex (wrap32 (v.dist + e.weight))).len ::
               event.sum v.dist e.weight :: s.2)
        else relax_log i es (s.1, event.sum v.dist e.weight :: s.2)
      else relax_log i es s
    | _, _ => none

/-- The function `dijkstra_loop` with a log. -/
def dijkstra_loop_log (b : Nat) : Nat → (newGraph_t × heap_t) × List event →
    Run ((newGraph_t × heap_t) × List event)
  | 0, s => if s.1.2.len = 0 then Run.done s else Run.timeout
  | fuel + 1, s =>
    if s.1.2.len = 0 then Run.done s
    else
      let r := pop_heap s.1.2
      if r.1 = b then Run.done ((s.1.1, r.2), event.pop r.1 r.2.len :: s.2)
      else
        match slot s.1.1 r.1 with
        | none => Run.crash
        | some v =>
          match relax_log r.1 v.edges
              ((setv s.1.1 r.1 { v with visited := 1 }, r.2), event.pop r.1 r.2.len :: s.2) with
          | none => Run.crash
          | some s2 => dijkstra_loop_log b fuel s2

/-- The function `dijkstra` with a log; its first entry is the push of the source.  As in
`dijkstra`, the heap arrays are taken large enough to hold every id. -/
def dijkstra_log (fuel : Nat) (g : newGraph_t) (a b : Nat) :
    Run ((newGraph_t × heap_t) × List event) :=
  match init_vertices g.vertices_len 1 g with
  | none => Run.crash
  | some g1 =>
    match slot g1 a with
    | none => Run.crash
    | some v =>
      dijkstra_loop_log b fuel
        ((setv g1 a { v with dist := 0 }, push_heap (create_heap g1.vertices_len) a 0),
         [event.push a (push_heap (create_heap g1.vertices_len) a 0).len])

/-- A run without its log. -/
def forget {α : Type} : Run (α × List event) → Run α
  | Run.done r => Run.done r.1
  | Run.crash => Run.crash
  | Run.timeout => Run.timeout

/-- The vertices `pop_heap` returned, most recent first. -/
def popped : List event → List Nat
  | [] => []
  | event.pop v _ :: tr => v :: popped tr
  | event.push _ _ :: tr => popped tr
  | event.sum _ _ :: tr => popped tr

/-- The log respects the heap discipline for `N` vertices: no vertex is popped twice, no
vertex is pushed after it was popped, and the heap never holds more than `N` entries. -/
def trace_ok (N : Nat) : List event → Prop
  | [] => True
  | event.pop v n :: tr => v ∉ popped tr ∧ n ≤ N ∧ trace_ok N tr
  | event.push v n :: tr => v ∉ popped tr ∧ n ≤ N ∧ trace_ok N tr
  | event.sum _ _ :: tr => trace_ok N tr

/-- Every sum of the log has a left operand other than the sentinel and a mathematical
value within the range of a 32-bit `int`. -/
def sums_ok (tr : List event) : Prop :=
  ∀ d w, event.sum d w ∈ tr →
    d ≠ INT_MAX ∧ -2147483648 ≤ d + w ∧ d + w ≤ INT_MAX ∧ wrap32 (d + w) = d + w

/-- The list `l` is what following `prev` links gives: each entry is the `prev` of the one
before it, and the last entry is `a`. -/
def prev_path (g : newGraph_t) (a : Nat) : List Nat → Prop
  | [] => False
  | [x] => x = a
  | x :: y :: l => prev_of g x = y ∧ prev_path g a (y :: l)

/-- The part of the invariant of `dijkstra` that holds for arbitrary edge weights: slots,
heap membership, `prev` links and the log.  `g0` is the graph at the call, with vertex ids
`1 .. N`, source `a` and target `b`; `s` is the state and `tr` the log. -/
structure dj_struct (g0 : newGraph_t) (N a b : Nat) (s : newGraph_t × heap_t)
    (tr : List event) : Prop where
  valid : ∀ i, 1 ≤ i → i ≤ N → ∃ v, slot s.1 i = some v ∧ v.edges = out_edges g0 i
  hwf : heap_wf s.2
  hin : ∀ e ∈ entries s.2, 1 ≤ e.1 ∧ e.1 ≤ N ∧ visited_of s.1 e.1 = 0
  hidx : ∀ y, 1 ≤ y → y ≤ N → visited_of s.1 y = 0 →
    s.2.index y = 0 ∨ ∃ q, (y, q) ∈ entries s.2
  hprev : ∀ e ∈ entries s.2, e.1 = a ∨
    (1 ≤ prev_of s.1 e.1 ∧ prev_of s.1 e.1 ≤ N ∧ visited_of s.1 (prev_of s.1 e.1) ≠ 0)
  touched : ∀ y, 1 ≤ y → y ≤ N → visited_of s.1 y = 0 → y ≠ a → dist_of s.1 y ≠ INT_MAX →
    1 ≤ prev_of s.1 y ∧ prev_of s.1 y ≤ N ∧ visited_of s.1 (prev_of s.1 y) ≠ 0
  chain : ∀ x, 1 ≤ x → x ≤ N → visited_of s.1 x ≠ 0 →
    ∃ l, prev_path s.1 a (x :: l) ∧ (x :: l).Nodup ∧
      (∀ z ∈ x :: l, 1 ≤ z ∧ z ≤ N ∧ visited_of s.1 z ≠ 0) ∧
      l.length + 1 + unvisited_count N s.1 ≤ N
  tgt : visited_of s.1 b = 0
  lpop : ∀ v ∈ popped tr, 1 ≤ v ∧ v ≤ N ∧ visited_of s.1 v ≠ 0
  lcount : (popped tr).length + unvisited_count N s.1 = N
  lok : trace_ok N tr

/-- Predecessor consistency: a vertex with a `prev` link has a visited predecessor and an
edge from it that accounts for its distance. -/
def dj_prev (g0 : newGraph_t) (N : Nat) (g : newGraph_t) : Prop :=
  ∀ y, 1 ≤ y → y ≤ N → prev_of g y ≠ 0 →
    1 ≤ prev_of g y ∧ prev_of g y ≤ N ∧ visited_of g (prev_of g y) ≠ 0 ∧
    ∃ e ∈ out_edges g0 (prev_of g y),
      e.vertex = y ∧ dist_of g (prev_of g y) + e.weight = dist_of g y


/-- What holds of the graph `g` and of the log `tr` when `dijkstra` returns on the graph
`g0` with vertex ids `1 .. N` and source `a`. -/
structure dj_final (g0 : newGraph_t) (N a : Nat) (g : newGraph_t) (tr : List event) :
    Prop where
  valid : ∀ i, 1 ≤ i → i ≤ N → ∃ v, slot g i = some v ∧ v.edges = out_edges g0 i
  touched : ∀ y, 1 ≤ y → y ≤ N → visited_of g y = 0 → y ≠ a → dist_of g y ≠ INT_MAX →
    1 ≤ prev_of g y ∧ prev_of g y ≤ N ∧ visited_of g (prev_of g y) ≠ 0
  chain : ∀ x, 1 ≤ x → x ≤ N → visited_of g x ≠ 0 →
    ∃ l, prev_path g a (x :: l) ∧ (x :: l).Nodup ∧
      (∀ z ∈ x :: l, 1 ≤ z ∧ z ≤ N ∧ visited_of g z ≠ 0) ∧
      l.length + 1 + unvisited_count N g ≤ N
  lok : trace_ok N tr
  lpops : (popped tr).length ≤ N
  weighted : weights_nonneg g0 N → total_weight g0 N < INT_MAX →
    dj_prev g0 N g ∧ sums_ok tr

/-! ### The heap and `dijkstra` with every heap-array access checked

`push_heap`, `pop_heap` and `dijkstra` above act on the heap arrays as memory regions, which
is the reading "arrays large enough to hold id N".  The functions below are the same code
with every read and write of `data`, `prio` and `index` checked against the number of cells
`create_heap` allocated; an access at or past that number is an invalid access. -/

/-- The cells touched by the three stores of `move_slot h i j` are allocated: `data[i]`,
`data[j]`, `prio[i]`, `prio[j]` and `index[data[j]]`. -/
def move_ok (h : heap_t) (i j : Nat) : Bool :=
  decide (i < h.data_cells) && decide (j < h.data_cells) && decide (i < h.prio_cells) &&
    decide (j < h.prio_cells) && decide (h.data j < h.index_cells)

/-- The cells touched by the three stores of `store_slot h i v p` are allocated: `data[i]`,
`prio[i]` and `index[v]`. -/
def store_ok (h : heap_t) (i v : Nat) : Bool :=
  decide (i < h.data_cells) && decide (i < h.prio_cells) && decide (v < h.index_cells)

/-- The loop of `push_heap` (lines 91-99) with checked accesses: the test reads `prio[j]`,
a round that does not break makes the three stores of `move_slot`. -/
def sift_up_chk (p : Int) : Nat → heap_t → Nat → Option (heap_t × Nat)
  | 0, h, i => some (h, i)
  | fuel + 1, h, i =>
    if 1 < i then
      if i / 2 < h.prio_cells then
        if h.prio (i / 2) < p then some (h, i)
        else
          if move_ok h i (i / 2) = true then
            sift_up_chk p fuel (move_slot h i (i / 2)) (i / 2)
          else none
      else none
    else some (h, i)

/-- The function `push_heap` (lines 88-103) with checked accesses: line 89 reads `index[v]`,
then the loop runs, then lines 100-102 store at slot `i` and at `index[v]`. -/
def push_heap_chk (h : heap_t) (v : Nat) (p : Int) : Option heap_t :=
  if v < h.index_cells then
    match sift_up_chk p (if h.index v = 0 then h.len + 1 else h.index v)
        (if h.index v = 0 then { h with len := h.len + 1 } else h)
        (if h.index v = 0 then h.len + 1 else h.index v) with
    | none => none
    | some r => if store_ok r.1 r.2 v = true then some (store_slot r.1 r.2 v p) else none
  else none

/-- The function `min` (lines 107-114) with checked accesses: the first test reads `prio[j]`
and `prio[m]` only when `j <= h->len`, the second reads `prio[k]` and `prio[m]` only when
`k <= h->len`. -/
def min_chk (h : heap_t) (i j k : Nat) : Option Nat :=
  if j ≤ h.len ∧ ¬ (j < h.prio_cells ∧ i < h.prio_cells) then none
  else
    if k ≤ h.len ∧
        ¬ (k < h.prio_cells ∧
            (if j ≤ h.len ∧ h.prio j < h.prio i then j else i) < h.prio_cells) then none
    else some (Grdb.min h i j k)

/-- The loop of `pop_heap` (lines 120-128) with checked accesses. -/
def sift_down_chk : Nat → heap_t → Nat → Option (heap_t × Nat)
  | 0, h, i => some (h, i)
  | fuel + 1, h, i =>
    match min_chk h h.len (2 * i) (2 * i + 1) with
    | none => none
    | some j =>
      if j = h.len then some (h, i)
      else
        if move_ok h i j = true then sift_down_chk fuel (move_slot h i j) j
        else none

/-- The function `pop_heap` (lines 117-134) with checked accesses: line 118 reads `data[1]`,
then the loop runs, then lines 129-131 make the three stores of `move_slot` from slot
`len`. -/
def pop_heap_chk (h : heap_t) : Option (Nat × heap_t) :=
  if 1 < h.data_cells then
    match sift_down_chk h.len h 1 with
    | none => none
    | some r =>
      if move_ok r.1 r.2 r.1.len = true then
        some (h.data 1, { move_slot r.1 r.2 r.1.len with len := r.1.len - 1 })
      else none
  else none

/-- The relaxation loop (lines 155-163) with the checked heap and the log.  The result is
the state after the loop, or `none` for an invalid access, together with the log of what
was done up to that point. -/
def relax_chk (i : Nat) : List newEdge_t → (newGraph_t × heap_t) × List event →
    Option (newGraph_t × heap_t) × List event
  | [], s => (some s.1, s.2)
  | e :: es, s =>
    match slot s.1.1 i, slot s.1.1 e.vertex with
    | some v, some u =>
      if u.visited = 0 then
        if wrap32 (v.dist + e.weight) ≤ u.dist then
          match push_heap_chk s.1.2 e.vertex (wrap32 (v.dist + e.weight)) with
          | none => (none, event.sum v.dist e.weight :: s.2)
          | some h1 =>
            relax_chk i es
              ((setv s.1.1 e.vertex { u with prev := i, dist := wrap32 (v.dist + e.weight) },
                h1),
               event.push e.vertex h1.len :: event.sum v.dist e.weight :: s.2)
        else relax_chk i es (s.1, event.sum v.dist e.weight :: s.2)
      else relax_chk i es s
    | _, _ => (none, s.2)

/-- The main loop (lines 149-164) with the checked heap and the log: the outcome, and the
log of what was done up to the end of the run, whatever the outcome. -/
def dijkstra_loop_chk (b : Nat) : Nat → (newGraph_t × heap_t) × List event →
    Run (newGraph_t × heap_t) × List event
  | 0, s => if s.1.2.len = 0 then (Run.done s.1, s.2) else (Run.timeout, s.2)
  | fuel + 1, s =>
    if s.1.2.len = 0 then (Run.done s.1, s.2)
    else
      match pop_heap_chk s.1.2 with
      | none => (Run.crash, s.2)
      | some r =>
        if r.1 = b then (Run.done (s.1.1, r.2), event.pop r.1 r.2.len :: s.2)
        else
          match slot s.1.1 r.1 with
          | none => (Run.crash, event.pop r.1 r.2.len :: s.2)
          | some v =>
            match (relax_chk r.1 v.edges
                ((setv s.1.1 r.1 { v with visited := 1 }, r.2),
                  event.pop r.1 r.2.len :: s.2)).1 with
            | none =>
              (Run.crash, (relax_chk r.1 v.edges
                ((setv s.1.1 r.1 { v with visited := 1 }, r.2),
                  event.pop r.1 r.2.len :: s.2)).2)
            | some s2 =>
              dijkstra_loop_chk b fuel (s2, (relax_chk r.1 v.edges
                ((setv s.1.1 r.1 { v with visited := 1 }, r.2),
                  event.pop r.1 r.2.len :: s.2)).2)

/-- The function `dijkstra` (lines 137-165) with the heap `create_heap(g->vertices_len)`
makes and every access to its arrays checked: the outcome of the run and its log. -/
def dijkstra_chk (fuel : Nat) (g : newGraph_t) (a b : Nat) :
    Run (newGraph_t × heap_t) × List event :=
  match init_vertices g.vertices_len 1 g with
  | none => (Run.crash, [])
  | some g1 =>
    match slot g1 a with
    | none => (Run.crash, [])
    | some v =>
      match push_heap_chk (create_heap g1.vertices_len) a 0 with
      | none => (Run.crash, [])
      | some h1 =>
        dijkstra_loop_chk b fuel ((setv g1 a { v with dist := 0 }, h1), [event.push a h1.len])

/-- The run returned normally. -/
def returned {α : Type} : Run α → Bool
  | Run.done _ => true
  | Run.crash => false
  | Run.timeout => false

/-- Staged edges `1 → 2`, `2 → 3`, `3 → 4`, `4 → 5`, `5 → 6`, all of weight 1: a chain over
the vertex ids `1 .. 6`. -/
def chain6 : List host_edge := [⟨1, 2, 1⟩, ⟨2, 3, 1⟩, ⟨3, 4, 1⟩, ⟨4, 5, 1⟩, ⟨5, 6, 1⟩]

/-- The diamond with a fifth vertex whose only edge is `5 → 1 (1)`: vertex ids `1 .. 5`, and
no edge leads to the largest id. -/
def fed_diamond : List host_edge :=
  [⟨1, 2, 1⟩, ⟨1, 3, 4⟩, ⟨2, 3, 2⟩, ⟨3, 4, 1⟩, ⟨5, 1, 1⟩]
/-! ## Lemmas on memory stores and on the two heap loops -/

@[simp] theorem upd_same {α : Type} (f : Nat → α) (k : Nat) (x : α) : upd f k x k = x := by
  simp [upd]

theorem upd_other {α : Type} (f : Nat → α) (k j : Nat) (x : α) (h : j ≠ k) :
    upd f k x j = f j := by
  simp [upd, h]

theorem upd_apply {α : Type} (f : Nat → α) (k j : Nat) (x : α) :
    upd f k x j = if j = k then x else f j := rfl

@[simp] theorem move_slot_len (h : heap_t) (i j : Nat) : (move_slot h i j).len = h.len := rfl

@[simp] theorem move_slot_data (h : heap_t) (i j : Nat) :
    (move_slot h i j).data = upd h.data i (h.data j) := rfl

@[simp] theorem move_slot_prio (h : heap_t) (i j : Nat) :
    (move_slot h i j).prio = upd h.prio i (h.prio j) := rfl

@[simp] theorem move_slot_index (h : heap_t) (i j : Nat) :
    (move_slot h i j).index = upd h.index (h.data j) i := rfl

@[simp] theorem store_slot_len (h : heap_t) (i v : Nat) (p : Int) :
    (store_slot h i v p).len = h.len := rfl

@[simp] theorem store_slot_data (h : heap_t) (i v : Nat) (p : Int) :
    (store_slot h i v p).data = upd h.data i v := rfl

@[simp] theorem store_slot_prio (h : heap_t) (i v : Nat) (p : Int) :
    (store_slot h i v p).prio = upd h.prio i p := rfl

@[simp] theorem store_slot_index (h : heap_t) (i v : Nat) (p : Int) :
    (store_slot h i v p).index = upd h.index v i := rfl

theorem sift_up_zero (p : Int) (h : heap_t) (i : Nat) : sift_up p 0 h i = (h, i) := rfl

theorem sift_up_succ (p : Int) (f : Nat) (h : heap_t) (i : Nat) :
    sift_up p (f + 1) h i =
      if 1 < i then
        if h.prio (i / 2) < p then (h, i) else sift_up p f (move_slot h i (i / 2)) (i / 2)
      else (h, i) := rfl

theorem sift_down_zero (h : heap_t) (i : Nat) : sift_down 0 h i = (h, i) := rfl

theorem sift_down_succ (f : Nat) (h : heap_t) (i : Nat) :
    sift_down (f + 1) h i =
      if Grdb.min h h.len (2 * i) (2 * i + 1) = h.len then (h, i)
      else sift_down f (move_slot h i (Grdb.min h h.len (2 * i) (2 * i + 1)))
        (Grdb.min h h.len (2 * i) (2 * i + 1)) := rfl

/-- Induction principle for the sift-up loop: a property kept by every round holds at the
exit. -/
theorem sift_up_keeps (p : Int) (P : heap_t → Nat → Prop)
    (hstep : ∀ h i, 1 < i → ¬ h.prio (i / 2) < p → P h i → P (move_slot h i (i / 2)) (i / 2)) :
    ∀ fuel h i, P h i → P (sift_up p fuel h i).1 (sift_up p fuel h i).2 := by
  intro fuel
  induction fuel with
  | zero =>
    intro h i hP
    rw [sift_up_zero]
    exact hP
  | succ f ih =>
    intro h i hP
    rw [sift_up_succ]
    by_cases h1 : 1 < i
    · by_cases h2 : h.prio (i / 2) < p
      · rw [if_pos h1, if_pos h2]
        exact hP
      · rw [if_pos h1, if_neg h2]
        exact ih _ _ (hstep h i h1 h2 hP)
    · rw [if_neg h1]
      exact hP

/-- With at least `i` rounds of fuel the sift-up loop ends by its own tests: at the exit the
loop condition `i > 1` is false or the `break` test holds. -/
theorem sift_up_exit (p : Int) : ∀ fuel h i, i ≤ fuel →
    (sift_up p fuel h i).2 ≤ 1 ∨
      (sift_up p fuel h i).1.prio ((sift_up p fuel h i).2 / 2) < p := by
  intro fuel
  induction fuel with
  | zero =>
    intro h i hi
    rw [sift_up_zero]
    exact Or.inl (by simp only; omega)
  | succ f ih =>
    intro h i hi
    rw [sift_up_succ]
    by_cases h1 : 1 < i
    · by_cases h2 : h.prio (i / 2) < p
      · rw [if_pos h1, if_pos h2]
        exact Or.inr h2
      · rw [if_pos h1, if_neg h2]
        exact ih _ _ (by omega)
    · rw [if_neg h1]
      exact Or.inl (by simp only; omega)

/-- The sift-up loop needs no more than `i` rounds: any two fuels of at least `i` give the
same result. -/
theorem sift_up_fuel (p : Int) : ∀ f1 f2 h i, i ≤ f1 → i ≤ f2 →
    sift_up p f1 h i = sift_up p f2 h i := by
  intro f1
  induction f1 with
  | zero =>
    intro f2 h i h1 h2
    have : i = 0 := by omega
    subst this
    cases f2 with
    | zero => rfl
    | succ g => rw [sift_up_succ, sift_up_zero, if_neg (by omega)]
  | succ f ih =>
    intro f2 h i h1 h2
    cases f2 with
    | zero =>
      have : i = 0 := by omega
      subst this
      rw [sift_up_succ, sift_up_zero, if_neg (by omega)]
    | succ g =>
      rw [sift_up_succ, sift_up_succ]
      by_cases c1 : 1 < i
      · by_cases c2 : h.prio (i / 2) < p
        · rw [if_pos c1, if_pos c2, if_pos c1, if_pos c2]
        · rw [if_pos c1, if_neg c2, if_pos c1, if_neg c2]
          exact ih g _ _ (by omega) (by omega)
      · rw [if_neg c1, if_neg c1]

/-- What the function `min` returns for the last slot and the two children of slot `i`:
either the last slot, which is then no larger than both children, or a child below the last
slot that is smaller than the last slot and no larger than its sibling. -/
theorem min_children (h : heap_t) (i : Nat) :
    (Grdb.min h h.len (2 * i) (2 * i + 1) = h.len ∧
      (2 * i ≤ h.len → h.prio h.len ≤ h.prio (2 * i)) ∧
      (2 * i + 1 ≤ h.len → h.prio h.len ≤ h.prio (2 * i + 1))) ∨
    (Grdb.min h h.len (2 * i) (2 * i + 1) < h.len ∧
      (Grdb.min h h.len (2 * i) (2 * i + 1) = 2 * i ∨
        Grdb.min h h.len (2 * i) (2 * i + 1) = 2 * i + 1) ∧
      h.prio (Grdb.min h h.len (2 * i) (2 * i + 1)) < h.prio h.len ∧
      (2 * i ≤ h.len → h.prio (Grdb.min h h.len (2 * i) (2 * i + 1)) ≤ h.prio (2 * i)) ∧
      (2 * i + 1 ≤ h.len →
        h.prio (Grdb.min h h.len (2 * i) (2 * i + 1)) ≤ h.prio (2 * i + 1))) := by
  by_cases c1 : 2 * i ≤ h.len ∧ h.prio (2 * i) < h.prio h.len
  · have e1 : 2 * i ≠ h.len := by
      intro e
      rw [e] at c1
      exact lt_irrefl _ c1.2
    by_cases c2 : 2 * i + 1 ≤ h.len ∧ h.prio (2 * i + 1) < h.prio (2 * i)
    · have e2 : 2 * i + 1 ≠ h.len := by
        intro e
        rw [e] at c2
        exact lt_irrefl _ (lt_trans c2.2 c1.2)
      have hm : Grdb.min h h.len (2 * i) (2 * i + 1) = 2 * i + 1 := by
        unfold Grdb.min
        rw [if_pos c1, if_pos c2]
      rw [hm]
      right
      exact ⟨by omega, Or.inr rfl, lt_trans c2.2 c1.2, fun _ => le_of_lt c2.2, fun _ => le_refl _⟩
    · have hm : Grdb.min h h.len (2 * i) (2 * i + 1) = 2 * i := by
        unfold Grdb.min
        rw [if_pos c1, if_neg c2]
      rw [hm]
      right
      exact ⟨by omega, Or.inl rfl, c1.2, fun _ => le_refl _,
        fun hk => not_lt.mp (fun hlt => c2 ⟨hk, hlt⟩)⟩
  · by_cases c2 : 2 * i + 1 ≤ h.len ∧ h.prio (2 * i + 1) < h.prio h.len
    · have e2 : 2 * i + 1 ≠ h.len := by
        intro e
        rw [e] at c2
        exact lt_irrefl _ c2.2
      have hm : Grdb.min h h.len (2 * i) (2 * i + 1) = 2 * i + 1 := by
        unfold Grdb.min
        rw [if_neg c1, if_pos c2]
      rw [hm]
      right
      refine ⟨by omega, Or.inr rfl, c2.2, fun hk => ?_, fun _ => le_refl _⟩
      have : h.prio h.len ≤ h.prio (2 * i) := not_lt.mp (fun hlt => c1 ⟨hk, hlt⟩)
      exact le_trans (le_of_lt c2.2) this
    · have hm : Grdb.min h h.len (2 * i) (2 * i + 1) = h.len := by
        unfold Grdb.min
        rw [if_neg c1, if_neg c2]
      rw [hm]
      left
      exact ⟨rfl, fun hk => not_lt.mp (fun hlt => c1 ⟨hk, hlt⟩),
        fun hk => not_lt.mp (fun hlt => c2 ⟨hk, hlt⟩)⟩

/-- Induction principle for the sift-down loop: a property kept by every round holds at the
exit. -/
theorem sift_down_keeps (P : heap_t → Nat → Prop)
    (hstep : ∀ h i, 1 ≤ i → Grdb.min h h.len (2 * i) (2 * i + 1) ≠ h.len → P h i →
      P (move_slot h i (Grdb.min h h.len (2 * i) (2 * i + 1)))
        (Grdb.min h h.len (2 * i) (2 * i + 1))) :
    ∀ fuel h i, 1 ≤ i → P h i →
      P (sift_down fuel h i).1 (sift_down fuel h i).2 ∧ 1 ≤ (sift_down fuel h i).2 := by
  intro fuel
  induction fuel with
  | zero =>
    intro h i hi hP
    rw [sift_down_zero]
    exact ⟨hP, hi⟩
  | succ f ih =>
    intro h i hi hP
    rw [sift_down_succ]
    by_cases hj : Grdb.min h h.len (2 * i) (2 * i + 1) = h.len
    · rw [if_pos hj]
      exact ⟨hP, hi⟩
    · rw [if_neg hj]
      rcases min_children h i with hm | hm
      · exact absurd hm.1 hj
      · exact ih _ _ (by omega) (hstep h i hi hj hP)

/-- With more than `len - i` rounds of fuel the sift-down loop ends by its own `break`: at the
exit `min` returns the last slot. -/
theorem sift_down_exit : ∀ fuel h i, 1 ≤ i → h.len < i + fuel →
    Grdb.min (sift_down fuel h i).1 (sift_down fuel h i).1.len (2 * (sift_down fuel h i).2)
      (2 * (sift_down fuel h i).2 + 1) = (sift_down fuel h i).1.len := by
  intro fuel
  induction fuel with
  | zero =>
    intro h i hi hf
    rw [sift_down_zero]
    rcases min_children h i with hm | hm
    · exact hm.1
    · exfalso
      omega
  | succ f ih =>
    intro h i hi hf
    rw [sift_down_succ]
    by_cases hj : Grdb.min h h.len (2 * i) (2 * i + 1) = h.len
    · rw [if_pos hj]
      exact hj
    · rw [if_neg hj]
      rcases min_children h i with hm | hm
      · exact absurd hm.1 hj
      · exact ih _ _ (by omega) (by simp only [move_slot_len]; omega)

/-- The sift-down loop needs no more than `len - i + 1` rounds: fuel beyond that is not used. -/
theorem sift_down_fuel : ∀ f1 f2 h i, 1 ≤ i → h.len < i + f1 → h.len < i + f2 →
    sift_down f1 h i = sift_down f2 h i := by
  intro f1
  induction f1 with
  | zero =>
    intro f2 h i hi h1 h2
    cases f2 with
    | zero => rfl
    | succ g =>
      rcases min_children h i with hm | hm
      · rw [sift_down_succ, if_pos hm.1, sift_down_zero]
      · omega
  | succ f ih =>
    intro f2 h i hi h1 h2
    cases f2 with
    | zero =>
      rcases min_children h i with hm | hm
      · rw [sift_down_succ, if_pos hm.1, sift_down_zero]
      · omega
    | succ g =>
      rw [sift_down_succ, sift_down_succ]
      by_cases hj : Grdb.min h h.len (2 * i) (2 * i + 1) = h.len
      · rw [if_pos hj, if_pos hj]
      · rw [if_neg hj, if_neg hj]
        rcases min_children h i with hm | hm
        · exact absurd hm.1 hj
        · exact ih g _ _ (by omega) (by simp only [move_slot_len]; omega)
            (by simp only [move_slot_len]; omega)

/-! ## Heap order is kept by `push_heap` and `pop_heap` -/

theorem up_order_step (p : Int) (h : heap_t) (i : Nat) (h1 : 1 < i)
    (h2 : ¬ h.prio (i / 2) < p) (hP : up_order p h i) :
    up_order p (move_slot h i (i / 2)) (i / 2) := by
  obtain ⟨hi, u1, u2, u3⟩ := hP
  have hp : p ≤ h.prio (i / 2) := not_lt.mp h2
  refine ⟨by simp only [move_slot_len]; omega, ?_, ?_, ?_⟩
  · intro k hk k2 kne kne2
    simp only [move_slot_len] at hk
    have hki : k ≠ i := by
      intro e
      exact kne2 (by rw [e])
    simp only [move_slot_prio]
    rw [upd_other _ _ k _ hki]
    by_cases c : k / 2 = i
    · rw [c, upd_same]
      exact u3 k hk k2 c (by omega)
    · rw [upd_other _ _ _ _ c]
      exact u1 k hk k2 hki c
  · intro k hk k2 kh
    simp only [move_slot_len] at hk
    simp only [move_slot_prio]
    by_cases c : k = i
    · rw [c, upd_same]
      exact hp
    · rw [upd_other _ _ k _ c]
      have := u1 k hk k2 c (by omega)
      rw [kh] at this
      exact le_trans hp this
  · intro k hk k2 kh j2
    simp only [move_slot_len] at hk
    simp only [move_slot_prio]
    have hj : h.prio (i / 2 / 2) ≤ h.prio (i / 2) :=
      u1 (i / 2) (by omega) j2 (by omega) (by omega)
    rw [upd_other _ _ (i / 2 / 2) _ (by omega)]
    by_cases c : k = i
    · rw [c, upd_same]
      exact hj
    · rw [upd_other _ _ k _ c]
      have := u1 k hk k2 c (by omega)
      rw [kh] at this
      exact le_trans hj this

theorem up_order_finish (p : Int) (h : heap_t) (i v : Nat) (hP : up_order p h i)
    (hx : i ≤ 1 ∨ h.prio (i / 2) < p) : heap_order (store_slot h i v p) := by
  obtain ⟨_, u1, u2, _⟩ := hP
  intro k hk k2
  simp only [store_slot_len] at hk
  simp only [store_slot_prio]
  by_cases c : k = i
  · rw [c, upd_same, upd_other _ _ (i / 2) _ (by omega)]
    rcases hx with hx | hx
    · omega
    · exact le_of_lt hx
  · rw [upd_other _ _ k _ c]
    by_cases c2 : k / 2 = i
    · rw [c2, upd_same]
      exact u2 k hk k2 c2
    · rw [upd_other _ _ _ _ c2]
      exact u1 k hk k2 c c2

theorem sift_up_len (p : Int) (fuel : Nat) (h : heap_t) (i : Nat) :
    (sift_up p fuel h i).1.len = h.len :=
  sift_up_keeps p (fun h1 _ => h1.len = h.len)
    (fun h1 i1 _ _ hp => by simp only [move_slot_len]; exact hp) fuel h i rfl

theorem sift_down_len (fuel : Nat) (h : heap_t) (i : Nat) (hi : 1 ≤ i) :
    (sift_down fuel h i).1.len = h.len :=
  (sift_down_keeps (fun h1 _ => h1.len = h.len)
    (fun h1 i1 _ _ hp => by simp only [move_slot_len]; exact hp) fuel h i hi rfl).1

theorem push_heap_eq (h : heap_t) (v : Nat) (p : Int) :
    push_heap h v p =
      store_slot
        (sift_up p (if h.index v = 0 then h.len + 1 else h.index v)
          (if h.index v = 0 then { h with len := h.len + 1 } else h)
          (if h.index v = 0 then h.len + 1 else h.index v)).1
        (sift_up p (if h.index v = 0 then h.len + 1 else h.index v)
          (if h.index v = 0 then { h with len := h.len + 1 } else h)
          (if h.index v = 0 then h.len + 1 else h.index v)).2 v p := rfl

theorem push_heap_absent (h : heap_t) (v : Nat) (p : Int) (ha : h.index v = 0) :
    push_heap h v p =
      store_slot (sift_up p (h.len + 1) { h with len := h.len + 1 } (h.len + 1)).1
        (sift_up p (h.len + 1) { h with len := h.len + 1 } (h.len + 1)).2 v p := by
  rw [push_heap_eq, if_pos ha, if_pos ha]

theorem push_heap_present (h : heap_t) (v : Nat) (p : Int) (ha : h.index v ≠ 0) :
    push_heap h v p =
      store_slot (sift_up p (h.index v) h (h.index v)).1
        (sift_up p (h.index v) h (h.index v)).2 v p := by
  rw [push_heap_eq, if_neg ha, if_neg ha]

theorem pop_heap_fst (h : heap_t) : (pop_heap h).1 = h.data 1 := rfl

theorem pop_heap_snd (h : heap_t) :
    (pop_heap h).2 =
      { move_slot (sift_down h.len h 1).1 (sift_down h.len h 1).2 (sift_down h.len h 1).1.len with
        len := (sift_down h.len h 1).1.len - 1 } := rfl

/-- Heap order after pushing a vertex that is absent (`index[v] = 0`). -/
theorem push_heap_order_absent (h : heap_t) (v : Nat) (p : Int) (ho : heap_order h)
    (ha : h.index v = 0) : heap_order (push_heap h v p) := by
  rw [push_heap_absent h v p ha]
  apply up_order_finish
  · apply sift_up_keeps p (up_order p) (up_order_step p)
    refine ⟨le_refl _, ?_, ?_, ?_⟩
    · intro k hk k2 kne _
      exact ho k (by simp only at hk; omega) k2
    · intro k hk k2 kh
      simp only at hk
      omega
    · intro k hk k2 kh
      simp only at hk
      omega
  · exact sift_up_exit p _ _ _ (le_refl _)

/-- Heap order after pushing a vertex that sits at slot `index[v]`, with a priority no larger
than the one stored there. -/
theorem push_heap_order_present (h : heap_t) (v : Nat) (p : Int) (ho : heap_order h)
    (ha : h.index v ≠ 0) (hl : h.index v ≤ h.len) (hp : p ≤ h.prio (h.index v)) :
    heap_order (push_heap h v p) := by
  rw [push_heap_present h v p ha]
  apply up_order_finish
  · apply sift_up_keeps p (up_order p) (up_order_step p)
    refine ⟨hl, ?_, ?_, ?_⟩
    · intro k hk k2 _ _
      exact ho k hk k2
    · intro k hk k2 kh
      have := ho k hk k2
      rw [kh] at this
      exact le_trans hp this
    · intro k hk k2 kh i2
      have h1 := ho k hk k2
      rw [kh] at h1
      exact le_trans (ho (h.index v) hl i2) h1
  · exact sift_up_exit p _ _ _ (le_refl _)

theorem down_order_step (x : Int) (L : Nat) (h : heap_t) (i : Nat) (_hi : 1 ≤ i)
    (hj : Grdb.min h h.len (2 * i) (2 * i + 1) ≠ h.len) (hP : down_order x L h i) :
    down_order x L (move_slot h i (Grdb.min h h.len (2 * i) (2 * i + 1)))
      (Grdb.min h h.len (2 * i) (2 * i + 1)) := by
  obtain ⟨hL, hx, d1, d2, d3⟩ := hP
  rcases min_children h i with hm | hm
  · exact absurd hm.1 hj
  obtain ⟨jlt, jc, jx, jl, jr⟩ := hm
  generalize Grdb.min h h.len (2 * i) (2 * i + 1) = j at *
  rw [hL] at jlt jl jr
  rw [hL, hx] at jx
  have hij : i < j := by omega
  refine ⟨hL, ?_, ?_, ?_, ?_⟩
  · simp only [move_slot_prio]
    rw [upd_other _ _ L _ (by omega)]
    exact hx
  · intro k hk k2 kne kne2
    simp only [move_slot_prio]
    by_cases c : k = i
    · have hji : j / 2 = i := by omega
      rw [c, upd_same, upd_other _ _ (i / 2) _ (by omega)]
      exact d3 j (by omega) (by omega) hji (by omega)
    · rw [upd_other _ _ k _ c]
      by_cases c2 : k / 2 = i
      · rw [c2, upd_same]
        have hk2 : k = 2 * i ∨ k = 2 * i + 1 := by omega
        rcases hk2 with e | e
        · rw [e]
          exact jl (by omega)
        · rw [e]
          exact jr (by omega)
      · rw [upd_other _ _ _ _ c2]
        exact d1 k hk k2 c c2
  · intro _
    simp only [move_slot_prio]
    have hji : j / 2 = i := by omega
    rw [hji, upd_same]
    exact le_of_lt jx
  · intro k hk k2 kh _
    simp only [move_slot_prio]
    have hji : j / 2 = i := by omega
    rw [hji, upd_same, upd_other _ _ k _ (by omega)]
    have := d1 k hk k2 (by omega) (by omega)
    rw [kh] at this
    exact this

/-- Heap order is kept by `pop_heap` on a non-empty heap. -/
theorem pop_heap_order (h : heap_t) (ho : heap_order h) :
    heap_order (pop_heap h).2 := by
  have hk := sift_down_keeps (down_order (h.prio h.len) h.len)
    (down_order_step (h.prio h.len) h.len) h.len h 1 (le_refl _)
    ⟨rfl, rfl, fun k hk k2 _ _ => ho k (by omega) k2, fun h2 => by omega,
      fun k _ _ _ h2 => by omega⟩
  have hx := sift_down_exit h.len h 1 (le_refl _) (by omega)
  rw [pop_heap_snd]
  generalize sift_down h.len h 1 = r at hk hx
  obtain ⟨⟨hL, hxx, d1, d2, d3⟩, hi⟩ := hk
  rcases min_children r.1 r.2 with hm | hm
  swap
  · omega
  obtain ⟨_, cl, cr⟩ := hm
  intro k hk k2
  simp only [move_slot_prio, move_slot_len] at hk ⊢
  rw [hL] at hk cl cr ⊢
  rw [hxx] at cl cr ⊢
  by_cases c : k = r.2
  · rw [c, upd_same, upd_other _ _ (r.2 / 2) _ (by omega)]
    exact d2 (by omega)
  · rw [upd_other _ _ k _ c]
    by_cases c2 : k / 2 = r.2
    · rw [c2, upd_same]
      have hk2 : k = 2 * r.2 ∨ k = 2 * r.2 + 1 := by omega
      rcases hk2 with e | e
      · rw [e]
        exact cl (by omega)
      · rw [e]
        exact cr (by omega)
    · rw [upd_other _ _ _ _ c2]
      exact d1 k (by omega) k2 c c2
/-! ## The multiset of entries under `push_heap` and `pop_heap` -/

theorem entries_eq (h : heap_t) : entries h = entries_of h.data h.prio h.len := rfl

theorem range_map_swap (n a b : Nat) (ha : a < n) (hb : b < n) :
    (Multiset.range n).map (Equiv.swap a b) = Multiset.range n := by
  have hs : {x | (Equiv.swap a b) x ≠ x} ⊆ ((Finset.range n : Finset Nat) : Set Nat) := by
    intro x hx
    simp only [Set.mem_setOf_eq] at hx
    have hx2 : x = a ∨ x = b := by
      by_contra hcon
      push_neg at hcon
      exact hx (Equiv.swap_apply_of_ne_of_ne hcon.1 hcon.2)
    rcases hx2 with e | e
    · simp [e, ha]
    · simp [e, hb]
  have h2 := congrArg Finset.val (Finset.map_perm hs)
  rw [Finset.map_val, Finset.range_val] at h2
  exact h2

/-- Exchanging the contents of two slots within `1 .. n` does not change the multiset. -/
theorem entries_of_swap (d d1 : Nat → Nat) (q q1 : Nat → Int) (n a b : Nat)
    (ha : 1 ≤ a) (han : a ≤ n) (hb : 1 ≤ b) (hbn : b ≤ n)
    (h1 : d1 a = d b ∧ q1 a = q b) (h2 : d1 b = d a ∧ q1 b = q a)
    (h3 : ∀ s, s ≠ a → s ≠ b → d1 s = d s ∧ q1 s = q s) :
    entries_of d1 q1 n = entries_of d q n := by
  unfold entries_of
  have hF : (fun k => (d1 (k + 1), q1 (k + 1))) =
      (fun k => (d (k + 1), q (k + 1))) ∘ (Equiv.swap (a - 1) (b - 1)) := by
    funext k
    simp only [Function.comp]
    by_cases c1 : k = a - 1
    · rw [c1, Equiv.swap_apply_left, Nat.sub_add_cancel ha, Nat.sub_add_cancel hb, h1.1, h1.2]
    · by_cases c2 : k = b - 1
      · rw [c2, Equiv.swap_apply_right, Nat.sub_add_cancel ha, Nat.sub_add_cancel hb, h2.1, h2.2]
      · rw [Equiv.swap_apply_of_ne_of_ne c1 c2]
        have := h3 (k + 1) (by omega) (by omega)
        rw [this.1, this.2]
  rw [hF, ← Multiset.map_map, range_map_swap n (a - 1) (b - 1) (by omega) (by omega)]

/-- The multiset depends only on the slots `1 .. n`. -/
theorem entries_of_congr (d d1 : Nat → Nat) (q q1 : Nat → Int) (n : Nat)
    (h : ∀ s, 1 ≤ s → s ≤ n → d1 s = d s ∧ q1 s = q s) :
    entries_of d1 q1 n = entries_of d q n := by
  unfold entries_of
  apply Multiset.map_congr rfl
  intro k hk
  have hk2 : k < n := Multiset.mem_range.mp hk
  have := h (k + 1) (by omega) (by omega)
  rw [this.1, this.2]

theorem entries_of_succ (d : Nat → Nat) (q : Nat → Int) (n : Nat) :
    entries_of d q (n + 1) = (d (n + 1), q (n + 1)) ::ₘ entries_of d q n := by
  unfold entries_of
  rw [Multiset.range_succ, Multiset.map_cons]

/-- One round of either loop, seen on the array in which the pending pair `(xd, xq)` is stored
at the hole: the hole moves from `i` to `j` and the multiset is unchanged. -/
theorem entries_of_move (d : Nat → Nat) (q : Nat → Int) (n i j xd : Nat) (xq : Int)
    (hi : 1 ≤ i) (hin : i ≤ n) (hj : 1 ≤ j) (hjn : j ≤ n) (hij : i ≠ j) :
    entries_of (upd (upd d i (d j)) j xd) (upd (upd q i (q j)) j xq) n =
      entries_of (upd d i xd) (upd q i xq) n := by
  apply entries_of_swap _ _ _ _ n i j hi hin hj hjn
  · rw [upd_other _ _ i _ hij, upd_same, upd_other _ _ i _ hij, upd_same,
      upd_other _ _ j _ (Ne.symm hij), upd_other _ _ j _ (Ne.symm hij)]
    exact ⟨rfl, rfl⟩
  · rw [upd_same, upd_same, upd_same, upd_same]
    exact ⟨rfl, rfl⟩
  · intro s s1 s2
    rw [upd_other _ _ s _ s2, upd_other _ _ s _ s1, upd_other _ _ s _ s2, upd_other _ _ s _ s1,
      upd_other _ _ s _ s1, upd_other _ _ s _ s1]
    exact ⟨rfl, rfl⟩
/-- Removing slot `i` by moving the last slot into it: the multiset loses the pair of slot `i`. -/
theorem entries_of_remove (d : Nat → Nat) (q : Nat → Int) (n i : Nat) (hi : 1 ≤ i)
    (hin : i ≤ n + 1) :
    entries_of d q (n + 1) =
      (d i, q i) ::ₘ entries_of (upd d i (d (n + 1))) (upd q i (q (n + 1))) n := by
  by_cases c : i = n + 1
  · rw [entries_of_succ, c]
    congr 1
    apply Eq.symm
    apply entries_of_congr
    intro s _ s2
    rw [upd_other _ (n + 1) s _ (by omega), upd_other _ (n + 1) s _ (by omega)]
    exact ⟨rfl, rfl⟩
  · have h1 := entries_of_move d q (n + 1) i (n + 1) (d i) (q i) hi hin (by omega) (le_refl _) c
    have h2 : entries_of (upd d i (d i)) (upd q i (q i)) (n + 1) = entries_of d q (n + 1) := by
      apply entries_of_congr
      intro s _ _
      by_cases cs : s = i
      · rw [cs, upd_same, upd_same]
        exact ⟨rfl, rfl⟩
      · rw [upd_other _ _ s _ cs, upd_other _ _ s _ cs]
        exact ⟨rfl, rfl⟩
    rw [← h2, ← h1, entries_of_succ, upd_same, upd_same]
    congr 1
    apply entries_of_congr
    intro s _ s2
    rw [upd_other _ (n + 1) s _ (by omega), upd_other _ (n + 1) s _ (by omega)]
    exact ⟨rfl, rfl⟩

/-- Overwriting slot `i` replaces its pair in the multiset. -/
theorem entries_of_upd (d : Nat → Nat) (q : Nat → Int) (n i x : Nat) (y : Int) (hi : 1 ≤ i)
    (hin : i ≤ n) :
    entries_of (upd d i x) (upd q i y) n = (x, y) ::ₘ (entries_of d q n).erase (d i, q i) := by
  cases n with
  | zero => omega
  | succ m =>
    rw [entries_of_remove d q m i hi hin, Multiset.erase_cons_head,
      entries_of_remove (upd d i x) (upd q i y) m i hi hin, upd_same, upd_same]
    congr 1
    apply entries_of_congr
    intro s _ s2
    by_cases cs : s = i
    · rw [cs, upd_same, upd_same, upd_same, upd_same, upd_other _ i (m + 1) _ (by omega),
        upd_other _ i (m + 1) _ (by omega)]
      exact ⟨rfl, rfl⟩
    · rw [upd_other _ _ s _ cs, upd_other _ _ s _ cs, upd_other _ _ s _ cs,
        upd_other _ _ s _ cs, upd_other _ _ s _ cs, upd_other _ _ s _ cs]
      exact ⟨rfl, rfl⟩

/-- The sift-up loop followed by the final stores, seen on the multiset: the result holds the
pairs of the array in which `(v, p)` is written at the starting slot. -/
theorem sift_up_entries (p : Int) (v : Nat) (fuel : Nat) (h : heap_t) (i : Nat)
    (hi : 1 ≤ i) (hin : i ≤ h.len) :
    entries (store_slot (sift_up p fuel h i).1 (sift_up p fuel h i).2 v p) =
      entries_of (upd h.data i v) (upd h.prio i p) h.len := by
  have hk := sift_up_keeps p
    (fun h1 i1 => 1 ≤ i1 ∧ i1 ≤ h1.len ∧ h1.len = h.len ∧
      entries_of (upd h1.data i1 v) (upd h1.prio i1 p) h1.len =
        entries_of (upd h.data i v) (upd h.prio i p) h.len)
    (fun h1 i1 c1 _ hP => by
      obtain ⟨a1, a2, a3, a4⟩ := hP
      refine ⟨by omega, by simp only [move_slot_len]; omega, by simp only [move_slot_len]; exact a3, ?_⟩
      simp only [move_slot_len, move_slot_data, move_slot_prio]
      rw [entries_of_move h1.data h1.prio h1.len i1 (i1 / 2) v p a1 a2 (by omega) (by omega)
        (by omega)]
      exact a4)
    fuel h i ⟨hi, hin, rfl, rfl⟩
  exact hk.2.2.2

/-- Pushing an absent vertex (`index[v] = 0`) adds one slot and the pair `(v, p)`. -/
theorem push_heap_entries_absent (h : heap_t) (v : Nat) (p : Int) (ha : h.index v = 0) :
    (push_heap h v p).len = h.len + 1 ∧ entries (push_heap h v p) = (v, p) ::ₘ entries h := by
  rw [push_heap_absent h v p ha]
  constructor
  · rw [store_slot_len, sift_up_len]
  · rw [sift_up_entries p v (h.len + 1) { h with len := h.len + 1 } (h.len + 1) (by omega)
      (le_refl _)]
    simp only
    rw [entries_of_succ, upd_same, upd_same, entries_eq]
    congr 1
    apply entries_of_congr
    intro s _ s2
    rw [upd_other _ (h.len + 1) s _ (by omega), upd_other _ (h.len + 1) s _ (by omega)]
    exact ⟨rfl, rfl⟩

/-- Pushing a vertex that sits at slot `index[v]` keeps `len` and replaces the pair of that
slot by `(v, p)`. -/
theorem push_heap_entries_present (h : heap_t) (v : Nat) (p : Int) (ha : h.index v ≠ 0)
    (hl : h.index v ≤ h.len) :
    (push_heap h v p).len = h.len ∧
    entries (push_heap h v p) =
      (v, p) ::ₘ (entries h).erase (h.data (h.index v), h.prio (h.index v)) := by
  rw [push_heap_present h v p ha]
  constructor
  · rw [store_slot_len, sift_up_len]
  · rw [sift_up_entries p v (h.index v) h (h.index v) (by omega) hl,
      entries_of_upd h.data h.prio h.len (h.index v) v p (by omega) hl, entries_eq]

/-- Entries and length after `pop_heap` on a non-empty heap: the slot-1 pair is removed. -/
theorem pop_heap_entries (h : heap_t) (hne : h.len ≠ 0) :
    (pop_heap h).2.len = h.len - 1 ∧
    entries h = (h.data 1, h.prio 1) ::ₘ entries (pop_heap h).2 := by
  have hk := sift_down_keeps
    (fun h1 i1 => h1.len = h.len ∧ h1.data h.len = h.data h.len ∧ h1.prio h.len = h.prio h.len ∧
      entries_of (upd h1.data i1 (h.data h.len)) (upd h1.prio i1 (h.prio h.len)) (h.len - 1) =
        entries_of (upd h.data 1 (h.data h.len)) (upd h.prio 1 (h.prio h.len)) (h.len - 1))
    (fun h1 i1 c1 c2 hP => by
      obtain ⟨a1, a2, a3, a4⟩ := hP
      rcases min_children h1 i1 with hm | hm
      · exact absurd hm.1 c2
      obtain ⟨jlt, jc, _⟩ := hm
      generalize Grdb.min h1 h1.len (2 * i1) (2 * i1 + 1) = j at *
      rw [a1] at jlt
      refine ⟨by simp only [move_slot_len]; exact a1, ?_, ?_, ?_⟩
      · simp only [move_slot_data]
        rw [upd_other _ i1 h.len _ (by omega)]
        exact a2
      · simp only [move_slot_prio]
        rw [upd_other _ i1 h.len _ (by omega)]
        exact a3
      · simp only [move_slot_data, move_slot_prio]
        rw [entries_of_move h1.data h1.prio (h.len - 1) i1 j _ _ c1 (by omega) (by omega)
          (by omega) (by omega)]
        exact a4)
    h.len h 1 (le_refl _) ⟨rfl, rfl, rfl, rfl⟩
  rw [pop_heap_snd]
  generalize sift_down h.len h 1 = r at hk
  obtain ⟨⟨a1, a2, a3, a4⟩, _⟩ := hk
  constructor
  · simp only
    rw [a1]
  · have e1 : entries
        { move_slot r.1 r.2 r.1.len with len := r.1.len - 1 } =
        entries_of (upd r.1.data r.2 (h.data h.len)) (upd r.1.prio r.2 (h.prio h.len))
          (h.len - 1) := by
      rw [entries_eq]
      simp only [move_slot_data, move_slot_prio]
      rw [a1, a2, a3]
    rw [e1, a4, entries_eq]
    obtain ⟨m, hm⟩ : ∃ m, h.len = m + 1 := ⟨h.len - 1, by omega⟩
    rw [hm, entries_of_remove h.data h.prio m 1 (le_refl _) (by omega)]
    rfl
/-! ## The bijection between slots and index entries -/

theorem up_bij_step (p : Int) (v : Nat) (h : heap_t) (i : Nat) (h1 : 1 < i)
    (_h2 : ¬ h.prio (i / 2) < p) (hP : up_bij v h i) :
    up_bij v (move_slot h i (i / 2)) (i / 2) := by
  obtain ⟨hi, b1, b2, b3⟩ := hP
  have hil : i ≤ h.len := by omega
  have hj1 : 1 ≤ i / 2 := by omega
  have hji : i / 2 ≠ i := by omega
  have hjl : i / 2 ≤ h.len := by omega
  refine ⟨Or.inl (by simp only [move_slot_len]; omega), ?_, ?_, ?_⟩
  · intro k hk k1 kne
    simp only [move_slot_len] at hk
    simp only [move_slot_data, move_slot_index]
    by_cases c : k = i
    · rw [c, upd_same, upd_same]
    · rw [upd_other _ i k _ c]
      have hne : h.data k ≠ h.data (i / 2) := by
        intro e
        have e1 := b1 k hk k1 c
        rw [e, b1 (i / 2) hjl hj1 hji] at e1
        exact kne e1.symm
      rw [upd_other _ _ _ _ hne]
      exact b1 k hk k1 c
  · intro k hk k1 kne
    simp only [move_slot_len] at hk
    simp only [move_slot_data]
    by_cases c : k = i
    · rw [c, upd_same]
      exact b2 (i / 2) hjl hj1 hji
    · rw [upd_other _ i k _ c]
      exact b2 k hk k1 c
  · intro w hw
    simp only [move_slot_len, move_slot_data, move_slot_index]
    by_cases c : w = h.data (i / 2)
    · right
      rw [c, upd_same, upd_same]
      exact ⟨hil, by omega, rfl⟩
    · rw [upd_other _ _ w _ c]
      rcases b3 w hw with e | ⟨e1, e2, e3⟩
      · exact Or.inl e
      · right
        refine ⟨e1, ?_, ?_⟩
        · intro e
          rw [e] at e3
          exact c e3.symm
        · rw [upd_other _ i _ _ e2]
          exact e3

theorem up_bij_finish (p : Int) (v : Nat) (h : heap_t) (i : Nat) (hP : up_bij v h i) :
    heap_wf (store_slot h i v p) := by
  obtain ⟨hi, b1, b2, b3⟩ := hP
  constructor
  · intro k hk k1
    simp only [store_slot_len] at hk
    simp only [store_slot_data, store_slot_index]
    by_cases c : k = i
    · rw [c, upd_same, upd_same]
    · rw [upd_other _ i k _ c, upd_other _ v _ _ (b2 k hk k1 c)]
      exact b1 k hk k1 c
  · intro w
    simp only [store_slot_len, store_slot_data, store_slot_index]
    by_cases c : w = v
    · rw [c, upd_same, upd_same]
      rcases hi with e | e
      · exact Or.inr ⟨e, rfl⟩
      · exact Or.inl e
    · rw [upd_other _ v w _ c]
      rcases b3 w c with e | ⟨e1, e2, e3⟩
      · exact Or.inl e
      · right
        rw [upd_other _ i _ _ e2]
        exact ⟨e1, e3⟩

/-- The invariant `heap_wf` is kept by `push_heap`, for every vertex and priority. -/
theorem push_heap_wf (h : heap_t) (v : Nat) (p : Int) (hw : heap_wf h) :
    heap_wf (push_heap h v p) := by
  obtain ⟨hb, hs⟩ := hw
  by_cases ha : h.index v = 0
  · rw [push_heap_absent h v p ha]
    apply up_bij_finish
    apply sift_up_keeps p (up_bij v) (up_bij_step p v)
    refine ⟨Or.inl (le_refl _), ?_, ?_, ?_⟩
    · intro k hk k1 kne
      simp only at hk kne ⊢
      exact hb k (by omega) k1
    · intro k hk k1 kne e
      simp only at hk kne e
      have := hb k (by omega) k1
      rw [e, ha] at this
      omega
    · intro w _
      simp only
      rcases hs w with e | ⟨e1, e2⟩
      · exact Or.inl e
      · exact Or.inr ⟨by omega, by omega, e2⟩
  · rw [push_heap_present h v p ha]
    apply up_bij_finish
    apply sift_up_keeps p (up_bij v) (up_bij_step p v)
    refine ⟨?_, ?_, ?_, ?_⟩
    · rcases hs v with e | ⟨e1, _⟩
      · exact Or.inr e
      · exact Or.inl e1
    · intro k hk k1 _
      exact hb k hk k1
    · intro k hk k1 kne e
      have := hb k hk k1
      rw [e] at this
      exact kne this.symm
    · intro w hwv
      rcases hs w with e | ⟨e1, e2⟩
      · exact Or.inl e
      · by_cases c : h.index w ≤ 1
        · exact Or.inl c
        · right
          refine ⟨e1, ?_, e2⟩
          intro e
          rcases hs v with f | ⟨_, f2⟩
          · omega
          · rw [e, f2] at e2
            exact hwv e2.symm

theorem down_bij_step (L : Nat) (h : heap_t) (i : Nat) (hi : 1 ≤ i)
    (hj : Grdb.min h h.len (2 * i) (2 * i + 1) ≠ h.len) (hP : down_bij L h i) :
    down_bij L (move_slot h i (Grdb.min h h.len (2 * i) (2 * i + 1)))
      (Grdb.min h h.len (2 * i) (2 * i + 1)) := by
  obtain ⟨hL, _, b1, b3⟩ := hP
  rcases min_children h i with hm | hm
  · exact absurd hm.1 hj
  obtain ⟨jlt, jc, _⟩ := hm
  generalize Grdb.min h h.len (2 * i) (2 * i + 1) = j at *
  rw [hL] at jlt
  have hij : j ≠ i := by omega
  have hj1 : 1 ≤ j := by omega
  refine ⟨hL, Or.inl jlt, ?_, ?_⟩
  · intro k hk k1 kne
    simp only [move_slot_data, move_slot_index]
    by_cases c : k = i
    · rw [c, upd_same, upd_same]
    · rw [upd_other _ i k _ c]
      have hne : h.data k ≠ h.data j := by
        intro e
        have e1 := b1 k hk k1 c
        rw [e, b1 j (by omega) hj1 hij] at e1
        exact kne e1.symm
      rw [upd_other _ _ _ _ hne]
      exact b1 k hk k1 c
  · intro w
    simp only [move_slot_data, move_slot_index]
    by_cases c : w = h.data j
    · right
      rw [c, upd_same, upd_same]
      exact ⟨by omega, by omega, rfl⟩
    · rw [upd_other _ _ w _ c]
      rcases b3 w with e | ⟨e1, e2, e3⟩
      · exact Or.inl e
      · right
        refine ⟨e1, ?_, ?_⟩
        · intro e
          rw [e] at e3
          exact c e3.symm
        · rw [upd_other _ i _ _ e2]
          exact e3

/-- The invariant `heap_wf` is kept by `pop_heap` on a non-empty heap. -/
theorem pop_heap_wf (h : heap_t) (hw : heap_wf h) (_hne : h.len ≠ 0) :
    heap_wf (pop_heap h).2 := by
  obtain ⟨hb, hs⟩ := hw
  have hk := sift_down_keeps (down_bij h.len) (down_bij_step h.len) h.len h 1 (le_refl _)
    ⟨rfl, Or.inr (le_refl _), fun k hk k1 _ => hb k hk k1, fun w => by
      rcases hs w with e | ⟨e1, e2⟩
      · exact Or.inl e
      · by_cases c : h.index w ≤ 1
        · exact Or.inl c
        · exact Or.inr ⟨e1, by omega, e2⟩⟩
  rw [pop_heap_snd]
  generalize sift_down h.len h 1 = r at hk
  obtain ⟨⟨hL, hi, b1, b3⟩, i1⟩ := hk
  rw [hL]
  constructor
  · intro k hk k1
    simp only [move_slot_data, move_slot_index] at hk ⊢
    by_cases c : k = r.2
    · rw [c, upd_same, upd_same]
    · rw [upd_other _ r.2 k _ c]
      have hne2 : r.1.data k ≠ r.1.data h.len := by
        intro e
        have e1 := b1 k (by omega) k1 c
        rw [e, b1 h.len (le_refl _) (by omega) (by omega)] at e1
        omega
      rw [upd_other _ _ _ _ hne2]
      exact b1 k (by omega) k1 c
  · intro w
    simp only [move_slot_data, move_slot_index]
    by_cases c : w = r.1.data h.len
    · rw [c, upd_same, upd_same]
      rcases hi with e | e
      · exact Or.inr ⟨by omega, rfl⟩
      · exact Or.inl e
    · rw [upd_other _ _ w _ c]
      rcases b3 w with e | ⟨e1, e2, e3⟩
      · exact Or.inl e
      · right
        rw [upd_other _ r.2 _ _ e2]
        refine ⟨?_, e3⟩
        have : r.1.index w ≠ h.len := by
          intro e
          rw [e] at e3
          exact c e3.symm
        omega

theorem create_heap_wf (n : Nat) : heap_wf (create_heap n) := by
  constructor
  · intro i hi i1
    simp only [create_heap] at hi
    omega
  · intro w
    left
    simp only [create_heap]
    omega

/-- Every reachable heap state satisfies `heap_wf`. -/
theorem reachable_wf (h : heap_t) (hr : Reachable h) : heap_wf h := by
  induction hr with
  | create n => exact create_heap_wf n
  | push h v p _ ih => exact push_heap_wf h v p ih
  | pop h _ hne ih => exact pop_heap_wf h ih hne
/-! ## The root of an ordered heap is a minimum; the entry of the popped vertex -/

theorem heap_order_root (h : heap_t) (ho : heap_order h) :
    ∀ k, 1 ≤ k → k ≤ h.len → h.prio 1 ≤ h.prio k := by
  intro k
  induction k using Nat.strong_induction_on with
  | _ k ih =>
    intro k1 kl
    by_cases c : k = 1
    · rw [c]
    · exact le_trans (ih (k / 2) (by omega) (by omega) (by omega)) (ho k kl (by omega))

theorem mem_entries (h : heap_t) (e : Nat × Int) :
    e ∈ entries h ↔ ∃ k, 1 ≤ k ∧ k ≤ h.len ∧ (h.data k, h.prio k) = e := by
  unfold entries
  rw [Multiset.mem_map]
  constructor
  · rintro ⟨a, ha, rfl⟩
    exact ⟨a + 1, by omega, by have := Multiset.mem_range.mp ha; omega, rfl⟩
  · rintro ⟨k, k1, kl, rfl⟩
    refine ⟨k - 1, Multiset.mem_range.mpr (by omega), ?_⟩
    rw [Nat.sub_add_cancel k1]

/-- On a heap with the bijection, `pop_heap` keeps the bijection and leaves the index entry
of the popped vertex at `1`. -/
theorem pop_heap_bij (h : heap_t) (hb : heap_bij h) (hne : h.len ≠ 0) :
    heap_bij (pop_heap h).2 ∧ (pop_heap h).2.index (pop_heap h).1 = 1 := by
  have hk := sift_down_keeps
    (fun h1 i1 => h1.len = h.len ∧ (i1 < h.len ∨ i1 ≤ 1) ∧
      (∀ k, k ≤ h.len → 1 ≤ k → k ≠ i1 → h1.index (h1.data k) = k) ∧
      h1.index (h.data 1) = 1 ∧ (∀ k, k ≤ h.len → 1 ≤ k → k ≠ i1 → h1.data k ≠ h.data 1))
    (fun h1 i1 c1 c2 hP => by
      obtain ⟨hL, _, b1, b4, b5⟩ := hP
      rcases min_children h1 i1 with hm | hm
      · exact absurd hm.1 c2
      obtain ⟨jlt, jc, _⟩ := hm
      generalize Grdb.min h1 h1.len (2 * i1) (2 * i1 + 1) = j at *
      rw [hL] at jlt
      have hij : j ≠ i1 := by omega
      have hj1 : 1 ≤ j := by omega
      refine ⟨hL, Or.inl jlt, ?_, ?_, ?_⟩
      · intro k hk k1 kne
        simp only [move_slot_data, move_slot_index]
        by_cases c : k = i1
        · rw [c, upd_same, upd_same]
        · rw [upd_other _ i1 k _ c]
          have hne2 : h1.data k ≠ h1.data j := by
            intro e
            have e1 := b1 k hk k1 c
            rw [e, b1 j (by omega) hj1 hij] at e1
            exact kne e1.symm
          rw [upd_other _ _ _ _ hne2]
          exact b1 k hk k1 c
      · simp only [move_slot_index]
        rw [upd_other _ _ _ _ (Ne.symm (b5 j (by omega) hj1 hij))]
        exact b4
      · intro k hk k1 kne
        simp only [move_slot_data]
        by_cases c : k = i1
        · rw [c, upd_same]
          exact b5 j (by omega) hj1 hij
        · rw [upd_other _ i1 k _ c]
          exact b5 k hk k1 c)
    h.len h 1 (le_refl _)
    ⟨rfl, Or.inr (le_refl _), fun k hk k1 _ => hb k hk k1, hb 1 (by omega) (le_refl _),
      fun k hk k1 kne e => by
        have e1 := hb k hk k1
        rw [e, hb 1 (by omega) (le_refl _)] at e1
        exact kne e1.symm⟩
  rw [pop_heap_snd, pop_heap_fst]
  generalize sift_down h.len h 1 = r at hk
  obtain ⟨⟨hL, hi, b1, b4, b5⟩, i1⟩ := hk
  rw [hL]
  constructor
  · intro k hk k1
    simp only [move_slot_data, move_slot_index] at hk ⊢
    by_cases c : k = r.2
    · rw [c, upd_same, upd_same]
    · rw [upd_other _ r.2 k _ c]
      have hne2 : r.1.data k ≠ r.1.data h.len := by
        intro e
        have e1 := b1 k (by omega) k1 c
        rw [e, b1 h.len (le_refl _) (by omega) (by omega)] at e1
        omega
      rw [upd_other _ _ _ _ hne2]
      exact b1 k (by omega) k1 c
  · simp only [move_slot_index]
    by_cases c : h.data 1 = r.1.data h.len
    · rw [c, upd_same]
      by_cases c2 : r.2 = h.len
      · omega
      · exact absurd c.symm (b5 h.len (le_refl _) (by omega) (Ne.symm c2))
    · rw [upd_other _ _ _ _ c]
      exact b4

/-- Claim C5.  On a non-empty heap with heap order and the bijection, `pop_heap` returns a
vertex `v` whose pair `(v, prio)` is in the heap and whose priority is at most the priority of
every entry; `len` drops by exactly one; and the multiset of pairs afterwards is the multiset
before with that pair removed once. -/
theorem pop_heap_min_and_entries (h : heap_t) (hne : 1 ≤ h.len) (ho : heap_order h)
    (hb : heap_bij h) :
    ((pop_heap h).1, h.prio (h.index (pop_heap h).1)) ∈ entries h ∧
    (∀ e ∈ entries h, h.prio (h.index (pop_heap h).1) ≤ e.2) ∧
    (pop_heap h).2.len + 1 = h.len ∧
    entries (pop_heap h).2 =
      (entries h).erase ((pop_heap h).1, h.prio (h.index (pop_heap h).1)) := by
  have hp := pop_heap_entries h (by omega)
  rw [pop_heap_fst, hb 1 hne (le_refl _)]
  refine ⟨?_, ?_, by omega, ?_⟩
  · exact (mem_entries h _).mpr ⟨1, le_refl _, hne, rfl⟩
  · intro e he
    obtain ⟨k, k1, kl, rfl⟩ := (mem_entries h e).mp he
    exact heap_order_root h ho k k1 kl
  · rw [hp.2, Multiset.erase_cons_head]

/-- Witness for C5 on the heap holding `(2, 3)` and `(1, 5)`. -/
theorem pop_heap_min_and_entries_witness :
    1 ≤ sample_heap.len ∧ heap_order sample_heap ∧ heap_bij sample_heap ∧
    (((pop_heap sample_heap).1, sample_heap.prio (sample_heap.index (pop_heap sample_heap).1)) ∈
        entries sample_heap ∧
      (∀ e ∈ entries sample_heap,
        sample_heap.prio (sample_heap.index (pop_heap sample_heap).1) ≤ e.2) ∧
      (pop_heap sample_heap).2.len + 1 = sample_heap.len ∧
      entries (pop_heap sample_heap).2 =
        (entries sample_heap).erase
          ((pop_heap sample_heap).1,
            sample_heap.prio (sample_heap.index (pop_heap sample_heap).1))) :=
  ⟨by decide, by unfold heap_order; decide, by unfold heap_bij; decide,
    pop_heap_min_and_entries sample_heap (by decide) (by unfold heap_order; decide)
      (by unfold heap_bij; decide)⟩

/-- Claim C6.  On a heap with the bijection: pushing a vertex with `index[v] = 0` makes `len`
grow by one and adds the pair `(v, p)` to the multiset of pairs; pushing a vertex that is
present at slot `i` leaves `len` unchanged and replaces the pair of `v` by `(v, p)`.  (Heap
order is not needed for this.) -/
theorem push_heap_len_and_entries (h : heap_t) (v : Nat) (p : Int) (hb : heap_bij h) :
    (h.index v = 0 →
      (push_heap h v p).len = h.len + 1 ∧ entries (push_heap h v p) = (v, p) ::ₘ entries h) ∧
    (∀ i, 1 ≤ i → i ≤ h.len → h.data i = v →
      (push_heap h v p).len = h.len ∧
      entries (push_heap h v p) = (v, p) ::ₘ (entries h).erase (v, h.prio i)) := by
  constructor
  · exact push_heap_entries_absent h v p
  · intro i i1 il hd
    have hi : h.index v = i := by
      rw [← hd]
      exact hb i il i1
    have := push_heap_entries_present h v p (by omega) (by omega)
    rw [hi, hd] at this
    exact this

/-- Witness for C6: pushing the absent vertex 3 and the present vertex 1 on `sample_heap`. -/
theorem push_heap_len_and_entries_witness :
    heap_bij sample_heap ∧
    ((push_heap sample_heap 3 4).len = sample_heap.len + 1 ∧
      entries (push_heap sample_heap 3 4) = (3, 4) ::ₘ entries sample_heap) ∧
    ((push_heap sample_heap 1 2).len = sample_heap.len ∧
      entries (push_heap sample_heap 1 2) =
        (1, 2) ::ₘ (entries sample_heap).erase (1, sample_heap.prio 2)) :=
  ⟨by unfold heap_bij; decide,
    (push_heap_len_and_entries sample_heap 3 4 (by unfold heap_bij; decide)).1 (by decide),
    (push_heap_len_and_entries sample_heap 1 2 (by unfold heap_bij; decide)).2 2 (by decide)
      (by decide) (by decide)⟩

/-- Claim C7.  Heap order (`prio[i / 2] ≤ prio[i]` for `2 ≤ i ≤ len`) holds for the heap of
`create_heap`, is kept by `pop_heap` on a non-empty ordered heap, and is kept by
`push_heap h v p` when `v` is absent (`index[v] = 0`) and when `v` is present at slot
`index[v]` with `p` at most its current priority. -/
theorem heap_order_invariant :
    (∀ n, heap_order (create_heap n)) ∧
    (∀ h, heap_order h → h.len ≠ 0 → heap_order (pop_heap h).2) ∧
    (∀ h v p, heap_order h → h.index v = 0 → heap_order (push_heap h v p)) ∧
    (∀ h v p, heap_order h → 1 ≤ h.index v → h.index v ≤ h.len → h.data (h.index v) = v →
      p ≤ h.prio (h.index v) → heap_order (push_heap h v p)) := by
  refine ⟨?_, ?_, ?_, ?_⟩
  · intro n i hi i2
    simp only [create_heap] at hi
    omega
  · intro h ho _
    exact pop_heap_order h ho
  · intro h v p ho ha
    exact push_heap_order_absent h v p ho ha
  · intro h v p ho h1 hl _ hp
    exact push_heap_order_present h v p ho (by omega) hl hp

/-- Witness for C7 on `sample_heap`: a pop, a push of the absent vertex 3, and a decrease of
the present vertex 1. -/
theorem heap_order_invariant_witness :
    heap_order sample_heap ∧ heap_order (pop_heap sample_heap).2 ∧
    heap_order (push_heap sample_heap 3 4) ∧ heap_order (push_heap sample_heap 1 2) :=
  ⟨by unfold heap_order; decide,
    heap_order_invariant.2.1 sample_heap (by unfold heap_order; decide) (by decide),
    heap_order_invariant.2.2.1 sample_heap 3 4 (by unfold heap_order; decide) (by decide),
    heap_order_invariant.2.2.2 sample_heap 1 2 (by unfold heap_order; decide) (by decide)
      (by decide) (by decide) (by decide)⟩

/-- Claim C8.  In every heap state reachable from `create_heap` by `push_heap` calls and by
`pop_heap` calls on a non-empty heap: `index[data[i]] = i` for every slot `1 ≤ i ≤ len`, the
vertices of these slots are pairwise distinct, and a vertex with `index[v] = 0` occurs in none
of them. -/
theorem reachable_bijection (h : heap_t) (hr : Reachable h) :
    (∀ i, 1 ≤ i → i ≤ h.len → h.index (h.data i) = i) ∧
    (∀ i j, 1 ≤ i → i ≤ h.len → 1 ≤ j → j ≤ h.len → h.data i = h.data j → i = j) ∧
    (∀ v, h.index v = 0 → ∀ i, 1 ≤ i → i ≤ h.len → h.data i ≠ v) := by
  have hb := (reachable_wf h hr).1
  refine ⟨fun i i1 il => hb i il i1, ?_, ?_⟩
  · intro i j i1 il j1 jl e
    have e1 := hb i il i1
    rw [e, hb j jl j1] at e1
    exact e1.symm
  · intro v hv i i1 il e
    have e1 := hb i il i1
    rw [e, hv] at e1
    omega

/-- Witness for C8: the state after two pushes, a pop, and a push of the popped vertex. -/
theorem reachable_bijection_witness :
    Reachable (push_heap (pop_heap sample_heap).2 2 7) ∧
    (∀ i, 1 ≤ i → i ≤ (push_heap (pop_heap sample_heap).2 2 7).len →
      (push_heap (pop_heap sample_heap).2 2 7).index
        ((push_heap (pop_heap sample_heap).2 2 7).data i) = i) :=
  ⟨Reachable.push _ 2 7 (Reachable.pop _
      (Reachable.push _ 2 3 (Reachable.push _ 1 5 (Reachable.create 3))) (by decide)),
    (reachable_bijection (push_heap (pop_heap sample_heap).2 2 7)
      (Reachable.push _ 2 7 (Reachable.pop _
        (Reachable.push _ 2 3 (Reachable.push _ 1 5 (Reachable.create 3))) (by decide)))).1⟩

/-- Counterexample for C9: `sample_heap` (vertex 2 at slot 1, vertex 1 at slot 2) is
reachable, non-empty, ordered and has the bijection, but after `pop_heap` the index entry of
the popped vertex 2 is `1`, not `0`; slot 1 then holds vertex 1, so `data[index[2]] = 2` fails
although `index[2]` is not `0`. -/
theorem pop_heap_index_not_cleared :
    ¬ (∀ h : heap_t, Reachable h → h.len ≠ 0 → heap_order h → heap_bij h →
        (pop_heap h).2.index (pop_heap h).1 = 0 ∧
        ∀ u, (pop_heap h).2.index u ≠ 0 →
          (pop_heap h).2.data ((pop_heap h).2.index u) = u) := by
  intro hall
  have h1 := (hall sample_heap
    (Reachable.push _ 2 3 (Reachable.push _ 1 5 (Reachable.create 3)))
    (by decide) (by unfold heap_order; decide) (by unfold heap_bij; decide)).1
  revert h1
  decide

/-- Claim C9, amended.  On a non-empty heap with the bijection, after `v = pop_heap(h)` the
index entry of the popped vertex is `1` (the slot it was taken from; `pop_heap` does not
clear it), the bijection `index[data[i]] = i` holds for the slots `1 .. len` of the heap
afterwards, and so `data[index[u]] = u` for every vertex `u` stored in these slots. -/
theorem pop_heap_index_stale (h : heap_t) (hne : h.len ≠ 0) (hb : heap_bij h) :
    (pop_heap h).2.index (pop_heap h).1 = 1 ∧
    heap_bij (pop_heap h).2 ∧
    (∀ i, 1 ≤ i → i ≤ (pop_heap h).2.len →
      (pop_heap h).2.data ((pop_heap h).2.index ((pop_heap h).2.data i)) =
        (pop_heap h).2.data i) := by
  have hp := pop_heap_bij h hb hne
  refine ⟨hp.2, hp.1, ?_⟩
  intro i i1 il
  rw [hp.1 i il i1]

/-- Witness for the amended C9 on `sample_heap`. -/
theorem pop_heap_index_stale_witness :
    sample_heap.len ≠ 0 ∧ heap_bij sample_heap ∧
    (pop_heap sample_heap).2.index (pop_heap sample_heap).1 = 1 :=
  ⟨by decide, by unfold heap_bij; decide,
    (pop_heap_index_stale sample_heap (by decide) (by unfold heap_bij; decide)).1⟩
/-! ## Vertex slots -/

theorem slot_lt (g : newGraph_t) (i : Nat) (v : newVertex_t) (h : slot g i = some v) :
    i < g.vertices_size := by
  unfold slot at h
  by_cases c : i < g.vertices_size
  · exact c
  · rw [if_neg c] at h
    exact absurd h (by simp)

theorem slot_setv_same (g : newGraph_t) (i : Nat) (v : newVertex_t) (h : i < g.vertices_size) :
    slot (setv g i v) i = some v := by
  unfold slot setv
  simp only [upd_same]
  rw [if_pos h]

theorem slot_setv_other (g : newGraph_t) (i j : Nat) (v : newVertex_t) (h : j ≠ i) :
    slot (setv g i v) j = slot g j := by
  unfold slot setv
  simp only
  rw [upd_other _ i j _ h]

@[simp] theorem setv_size (g : newGraph_t) (i : Nat) (v : newVertex_t) :
    (setv g i v).vertices_size = g.vertices_size := rfl

@[simp] theorem setv_len (g : newGraph_t) (i : Nat) (v : newVertex_t) :
    (setv g i v).vertices_len = g.vertices_len := rfl

theorem slot_of_ok (g : newGraph_t) (N i : Nat) (hg : graph_ok g N) (h1 : 1 ≤ i) (hN : i ≤ N) :
    ∃ v, slot g i = some v ∧ v.edges = out_edges g i := by
  have := (hg.2 i hN h1).1
  cases hs : slot g i with
  | none => rw [hs] at this; exact absurd this (by simp)
  | some v => exact ⟨v, rfl, by unfold out_edges; rw [hs]⟩

/-- The initialisation loop on valid slots `i .. i + n - 1`: it returns a graph in which
exactly these slots are reset, edges kept. -/
theorem init_vertices_spec : ∀ n i g,
    (∀ k, i ≤ k → k < i + n → (slot g k).isSome = true) →
    ∃ g1, init_vertices n i g = some g1 ∧ g1.vertices_size = g.vertices_size ∧
      g1.vertices_len = g.vertices_len ∧
      (∀ k, ¬ (i ≤ k ∧ k < i + n) → slot g1 k = slot g k) ∧
      (∀ k, i ≤ k → k < i + n → ∃ v, slot g k = some v ∧
        slot g1 k = some { v with dist := INT_MAX, prev := 0, visited := 0 }) := by
  intro n
  induction n with
  | zero =>
    intro i g _
    exact ⟨g, rfl, rfl, rfl, fun _ _ => rfl, fun k h1 h2 => by omega⟩
  | succ m ih =>
    intro i g hv
    have hi := hv i (le_refl _) (by omega)
    cases hs : slot g i with
    | none => rw [hs] at hi; exact absurd hi (by simp)
    | some v =>
      have hlt := slot_lt g i v hs
      obtain ⟨g1, e1, e2, e3, e4, e5⟩ := ih (i + 1)
        (setv g i { v with dist := INT_MAX, prev := 0, visited := 0 })
        (fun k k1 k2 => by
          rw [slot_setv_other _ _ _ _ (by omega)]
          exact hv k (by omega) (by omega))
      refine ⟨g1, ?_, ?_, ?_, ?_, ?_⟩
      · simp only [init_vertices, hs]
        exact e1
      · rw [e2, setv_size]
      · rw [e3, setv_len]
      · intro k hk
        rw [e4 k (by omega), slot_setv_other _ _ _ _ (by omega)]
      · intro k k1 k2
        by_cases c : k = i
        · rw [c]
          refine ⟨v, hs, ?_⟩
          rw [e4 i (by omega), slot_setv_same _ _ _ hlt]
        · obtain ⟨w, w1, w2⟩ := e5 k (by omega) (by omega)
          rw [slot_setv_other _ _ _ _ c] at w1
          exact ⟨w, w1, w2⟩
/-! ## The first push and a query from a vertex to itself -/

theorem push_heap_create (n a : Nat) (p : Int) :
    (push_heap (create_heap n) a p).len = 1 ∧ (push_heap (create_heap n) a p).data 1 = a ∧
    (push_heap (create_heap n) a p).prio 1 = p ∧
    (∀ w, w ≠ a → (push_heap (create_heap n) a p).index w = 0) := by
  have e : push_heap (create_heap n) a p =
      store_slot { create_heap n with len := 1 } 1 a p := by
    rw [push_heap_absent _ _ _ rfl]
    rfl
  rw [e]
  refine ⟨rfl, ?_, ?_, ?_⟩
  · simp only [store_slot_data, upd_same]
  · simp only [store_slot_prio, upd_same]
  · intro w hw
    simp only [store_slot_index]
    rw [upd_other _ _ _ _ hw]
    rfl

/-- The state `dijkstra` hands to its main loop: every slot `1 .. N` reset, the source at
distance `0`, and the heap holding the source alone. -/
theorem dijkstra_start (fuel : Nat) (g : newGraph_t) (N a b : Nat) (hg : graph_ok g N)
    (ha1 : 1 ≤ a) (haN : a ≤ N) :
    ∃ g2, dijkstra fuel g a b =
        dijkstra_loop b fuel (g2, push_heap (create_heap N) a 0) ∧
      g2.vertices_size = g.vertices_size ∧
      (∀ k, 1 ≤ k → k ≤ N → ∃ v, slot g k = some v ∧
        slot g2 k = some { v with dist := if k = a then 0 else INT_MAX, prev := 0,
                                  visited := 0 }) := by
  obtain ⟨g1, e1, e2, e3, _, e5⟩ := init_vertices_spec N 1 g
    (fun k k1 k2 => (hg.2 k (by omega) k1).1)
  obtain ⟨va, sa, sa1⟩ := e5 a ha1 (by omega)
  have hlt : a < g1.vertices_size := slot_lt g1 a _ sa1
  refine ⟨setv g1 a { { va with dist := INT_MAX, prev := 0, visited := 0 } with dist := 0 },
    ?_, ?_, ?_⟩
  · unfold dijkstra
    rw [hg.1, e1]
    simp only [sa1]
    rw [e3, hg.1]
  · rw [setv_size, e2]
  · intro k k1 kN
    by_cases c : k = a
    · rw [c]
      refine ⟨va, sa, ?_⟩
      rw [slot_setv_same _ _ _ hlt, if_pos rfl]
    · obtain ⟨v, s1, s2⟩ := e5 k k1 (by omega)
      refine ⟨v, s1, ?_⟩
      rw [slot_setv_other _ _ _ _ c, if_neg c]
      exact s2

theorem dijkstra_loop_succ (b fuel : Nat) (s : newGraph_t × heap_t) :
    dijkstra_loop b (fuel + 1) s =
      if s.2.len = 0 then Run.done s
      else
        if (pop_heap s.2).1 = b then Run.done (s.1, (pop_heap s.2).2)
        else
          match slot s.1 (pop_heap s.2).1 with
          | none => Run.crash
          | some v =>
            match relax (pop_heap s.2).1 v.edges
                (setv s.1 (pop_heap s.2).1 { v with visited := 1 }, (pop_heap s.2).2) with
            | none => Run.crash
            | some s2 => dijkstra_loop b fuel s2 := rfl

/-- With the heap arrays taken large enough to hold id `N`: on a graph with vertex ids
`1 .. N` and for `s` in `1 .. N`, `dijkstra(g, s, s)` returns (one round of the main loop is
enough) with `g.vertices[s].dist = 0`, and `print_path` then prints distance `0` and the
one-element path `[s]`, whatever the edges are. -/
theorem dijkstra_source_is_target (fuel pfuel : Nat) (g : newGraph_t) (N s : Nat)
    (hg : graph_ok g N) (hs1 : 1 ≤ s) (hsN : s ≤ N) (hf : 1 ≤ fuel) :
    ∃ r, dijkstra fuel g s s = Run.done r ∧ dist_of r.1 s = 0 ∧
      print_path pfuel r.1 s = Run.done (Output.route 0 [s]) := by
  obtain ⟨g2, e1, _, e3⟩ := dijkstra_start fuel g N s s hg hs1 hsN
  obtain ⟨len1, data1, _, _⟩ := push_heap_create N s 0
  obtain ⟨v, _, sv⟩ := e3 s hs1 hsN
  rw [if_pos rfl] at sv
  obtain ⟨f, rfl⟩ : ∃ f, fuel = f + 1 := ⟨fuel - 1, by omega⟩
  refine ⟨(g2, (pop_heap (push_heap (create_heap N) s 0)).2), ?_, ?_, ?_⟩
  · rw [e1, dijkstra_loop_succ]
    simp only
    rw [if_neg (by rw [len1]; omega), pop_heap_fst, data1, if_pos rfl]
  · simp only [dist_of, sv]
  · unfold print_path
    simp only [sv]
    rw [if_neg (by unfold INT_MAX; omega)]
    have c1 : ∀ n, count_hops g2 pfuel
        { v with dist := 0, prev := 0, visited := 0 } n = Run.done n := by
      intro n
      cases pfuel with
      | zero => simp [count_hops]
      | succ k => simp [count_hops]
    have c2 : ∀ j path, fill_path g2 1 pfuel
        { v with dist := 0, prev := 0, visited := 0 } j path = Run.done path := by
      intro j path
      cases pfuel with
      | zero => simp [fill_path]
      | succ k => simp [fill_path]
    rw [c1]
    simp only
    rw [c2]
    rfl

/-! ## Runs on concrete inputs -/

theorem dijkstra_loop_empty (b fuel : Nat) (s : newGraph_t × heap_t) (h : s.2.len = 0) :
    dijkstra_loop b fuel s = Run.done s := by
  cases fuel with
  | zero => simp [dijkstra_loop, h]
  | succ f => rw [dijkstra_loop_succ, if_pos h]

/-- Failing input for C2: on the chain `1 → 2 (0)`, `2 → 3 (5)` (vertex ids `1 .. 3`,
non-negative weights, target 3 reachable from source 1) the query prints distance `5` and the
path `2 3`, which does not start with the source: the walk along `prev` stops at vertex 2,
whose `dist` is `0`. -/
theorem query_zero_weight_path :
    graph_ok (graph_of zero_chain) 3 ∧ weights_nonneg (graph_of zero_chain) 3 ∧
    query 3 zero_chain 1 3 = Run.done (Output.route 5 [2, 3]) := by
  refine ⟨by unfold graph_ok; decide, by unfold weights_nonneg; decide, by decide⟩

/-- Failing input for C3: host edge `1 → 2 (3)` and an isolated host vertex 5, query `(1, 5)`.
`dijkstra` returns, and `print_path` then reads `g->vertices[5]`, a cell past the five cells
of the backing array: the run is an invalid slot access, not the line "no path". -/
theorem query_isolated_target (fuel : Nat) :
    query (fuel + 2) [⟨1, 2, 3⟩] 1 5 = Run.crash := by
  cases fuel <;> rfl

/-- Failing input for C10: on the graph with the single vertex 1 (edge `1 → 1 (1)`),
`create_heap(1)` gives `index` one cell, and after `dijkstra(g, 1, 1)` the cell `index[1]`,
which lies past that one cell, holds the slot number `1`. -/
theorem dijkstra_index_out_of_range :
    graph_ok (graph_of [⟨1, 1, 1⟩]) 1 ∧
    ∃ r, dijkstra 1 (graph_of [⟨1, 1, 1⟩]) 1 1 = Run.done r ∧
      r.2.index_cells = 1 ∧ r.2.index 1 = 1 := by
  refine ⟨by unfold graph_ok; decide, _, rfl, rfl, rfl⟩
/-! ## Fields of a vertex after a store; wrap-around; sums over the vertices -/

theorem dist_of_slot (g : newGraph_t) (i : Nat) (v : newVertex_t) (h : slot g i = some v) :
    dist_of g i = v.dist := by
  unfold dist_of
  rw [h]

theorem visited_of_slot (g : newGraph_t) (i : Nat) (v : newVertex_t) (h : slot g i = some v) :
    visited_of g i = v.visited := by
  unfold visited_of
  rw [h]

theorem out_edges_slot (g : newGraph_t) (i : Nat) (v : newVertex_t) (h : slot g i = some v) :
    out_edges g i = v.edges := by
  unfold out_edges
  rw [h]

theorem dist_of_setv_other (g : newGraph_t) (i j : Nat) (v : newVertex_t) (h : j ≠ i) :
    dist_of (setv g i v) j = dist_of g j := by
  unfold dist_of
  rw [slot_setv_other g i j v h]

theorem visited_of_setv_other (g : newGraph_t) (i j : Nat) (v : newVertex_t) (h : j ≠ i) :
    visited_of (setv g i v) j = visited_of g j := by
  unfold visited_of
  rw [slot_setv_other g i j v h]

/-- A sum that stays in the range of a 32-bit `int` is not changed by the wrap-around. -/
theorem wrap32_id (z : Int) (h0 : 0 ≤ z) (h1 : z ≤ INT_MAX) : wrap32 z = z := by
  unfold wrap32
  unfold INT_MAX at h1
  omega

/-- Changing a function at one point of a duplicate-free list changes the sum by the
difference at that point. -/
theorem sum_map_change {M : Type} [AddCommMonoid M] (f f1 : Nat → M) (v : Nat) :
    ∀ l : List Nat, l.Nodup → v ∈ l → (∀ x, x ≠ v → f1 x = f x) →
      (l.map f1).sum + f v = (l.map f).sum + f1 v := by
  intro l
  induction l with
  | nil => intro _ hv; exact absurd hv (List.not_mem_nil v)
  | cons x xs ih =>
    intro hn hv hf
    rw [List.nodup_cons] at hn
    simp only [List.map_cons, List.sum_cons]
    by_cases c : x = v
    · have hx : ∀ y ∈ xs, f1 y = f y := by
        intro y hy
        apply hf
        intro e
        rw [e, ← c] at hy
        exact hn.1 hy
      have e2 : (xs.map f1) = (xs.map f) := List.map_congr_left hx
      rw [e2, c, add_comm (f1 v) ((List.map f xs).sum), add_right_comm,
        add_comm ((List.map f xs).sum) (f v)]
    · have hv2 : v ∈ xs := by
        rcases List.mem_cons.mp hv with e | e
        · exact absurd e.symm c
        · exact e
      rw [hf x c, add_assoc, ih hn.2 hv2 hf, add_assoc]

theorem sum_map_congr {M : Type} [AddCommMonoid M] (f f1 : Nat → M) (l : List Nat)
    (h : ∀ x ∈ l, f1 x = f x) : (l.map f1).sum = (l.map f).sum := by
  rw [List.map_congr_left h]

theorem mem_range1 (N i : Nat) : i ∈ List.range' 1 N ↔ 1 ≤ i ∧ i ≤ N := by
  rw [List.mem_range'_1]
  omega

theorem nodup_range1 (N : Nat) : (List.range' 1 N).Nodup := List.nodup_range' 1 N

/-- Weight of one edge against the sum of the weights leaving its vertex. -/
theorem weight_le_out_weight (g : newGraph_t) (N i : Nat) (hw : weights_nonneg g N)
    (h1 : 1 ≤ i) (hN : i ≤ N) (e : newEdge_t) (he : e ∈ out_edges g i) :
    e.weight ≤ out_weight g i := by
  unfold out_weight
  apply List.single_le_sum
  · intro x hx
    obtain ⟨e1, he1, rfl⟩ := List.mem_map.mp hx
    exact hw i hN h1 e1 he1
  · exact List.mem_map.mpr ⟨e, he, rfl⟩

theorem out_weight_nonneg (g : newGraph_t) (N i : Nat) (hw : weights_nonneg g N)
    (h1 : 1 ≤ i) (hN : i ≤ N) : 0 ≤ out_weight g i := by
  unfold out_weight
  apply List.sum_nonneg
  intro x hx
  obtain ⟨e1, he1, rfl⟩ := List.mem_map.mp hx
  exact hw i hN h1 e1 he1

theorem visited_weight_le_total (g0 : newGraph_t) (N : Nat) (g : newGraph_t)
    (hw : weights_nonneg g0 N) : visited_weight g0 N g ≤ total_weight g0 N := by
  unfold visited_weight total_weight
  apply List.sum_le_sum
  intro i hi
  have := (mem_range1 N i).mp hi
  by_cases c : visited_of g i = 0
  · rw [if_pos c]
    exact out_weight_nonneg g0 N i hw this.1 this.2
  · rw [if_neg c]

theorem visited_weight_congr (g0 : newGraph_t) (N : Nat) (g g1 : newGraph_t)
    (h : ∀ i, 1 ≤ i → i ≤ N → visited_of g1 i = visited_of g i) :
    visited_weight g0 N g1 = visited_weight g0 N g := by
  unfold visited_weight
  apply sum_map_congr
  intro i hi
  have := (mem_range1 N i).mp hi
  rw [h i this.1 this.2]

theorem unvisited_count_congr (N : Nat) (g g1 : newGraph_t)
    (h : ∀ i, 1 ≤ i → i ≤ N → visited_of g1 i = visited_of g i) :
    unvisited_count N g1 = unvisited_count N g := by
  unfold unvisited_count
  apply sum_map_congr
  intro i hi
  have := (mem_range1 N i).mp hi
  rw [h i this.1 this.2]

/-- Marking an unvisited vertex of `1 .. N` adds its out-weight to the visited weight and
takes one off the number of unvisited vertices. -/
theorem mark_visited (g0 : newGraph_t) (N : Nat) (g g1 : newGraph_t) (i : Nat)
    (h1 : 1 ≤ i) (hN : i ≤ N) (h0 : visited_of g i = 0) (h2 : visited_of g1 i ≠ 0)
    (h : ∀ j, j ≠ i → visited_of g1 j = visited_of g j) :
    visited_weight g0 N g1 = visited_weight g0 N g + out_weight g0 i ∧
    unvisited_count N g1 + 1 = unvisited_count N g := by
  constructor
  · have := sum_map_change (fun j => if visited_of g j = 0 then 0 else out_weight g0 j)
      (fun j => if visited_of g1 j = 0 then 0 else out_weight g0 j) i (List.range' 1 N)
      (nodup_range1 N) ((mem_range1 N i).mpr ⟨h1, hN⟩)
      (fun x hx => by simp only; rw [h x hx])
    simp only [h0, h2, if_true, if_false, add_zero] at this
    exact this
  · have := sum_map_change (fun j => if visited_of g j = 0 then 1 else 0)
      (fun j => if visited_of g1 j = 0 then 1 else 0) i (List.range' 1 N)
      (nodup_range1 N) ((mem_range1 N i).mpr ⟨h1, hN⟩)
      (fun x hx => by simp only; rw [h x hx])
    simp only [h0, h2, if_true, if_false, add_zero] at this
    exact this

/-- An unvisited vertex of `1 .. N` is counted. -/
theorem unvisited_count_pos (N : Nat) (g : newGraph_t) (i : Nat) (h1 : 1 ≤ i) (hN : i ≤ N)
    (h0 : visited_of g i = 0) : 1 ≤ unvisited_count N g := by
  unfold unvisited_count
  have hm : (if visited_of g i = 0 then 1 else 0) ∈
      (List.range' 1 N).map (fun j => if visited_of g j = 0 then 1 else 0) :=
    List.mem_map.mpr ⟨i, (mem_range1 N i).mpr ⟨h1, hN⟩, rfl⟩
  rw [if_pos h0] at hm
  exact List.single_le_sum (fun x _ => Nat.zero_le x) 1 hm
/-! ## Entries, slots and index entries of a heap with the bijection -/

theorem entries_slot (h : heap_t) (hb : heap_bij h) (y : Nat) (q : Int)
    (hm : (y, q) ∈ entries h) :
    1 ≤ h.index y ∧ h.index y ≤ h.len ∧ h.data (h.index y) = y ∧ h.prio (h.index y) = q := by
  obtain ⟨k, k1, kl, e⟩ := (mem_entries h (y, q)).mp hm
  have e1 : h.data k = y := congrArg Prod.fst e
  have e2 : h.prio k = q := congrArg Prod.snd e
  have e3 : h.index y = k := by
    rw [← e1]
    exact hb k kl k1
  rw [e3]
  exact ⟨k1, kl, e1, e2⟩

theorem entries_nodup (h : heap_t) (hb : heap_bij h) : (entries h).Nodup := by
  unfold entries
  apply Multiset.Nodup.map_on
  · intro x hx y hy e
    have hx2 := Multiset.mem_range.mp hx
    have hy2 := Multiset.mem_range.mp hy
    have e1 : h.data (x + 1) = h.data (y + 1) := congrArg Prod.fst e
    have e2 := hb (x + 1) (by omega) (by omega)
    rw [e1, hb (y + 1) (by omega) (by omega)] at e2
    omega
  · exact Multiset.nodup_range h.len

theorem entries_key_unique (h : heap_t) (hb : heap_bij h) (y : Nat) (q1 q2 : Int)
    (h1 : (y, q1) ∈ entries h) (h2 : (y, q2) ∈ entries h) : q1 = q2 := by
  have a := (entries_slot h hb y q1 h1).2.2.2
  have b := (entries_slot h hb y q2 h2).2.2.2
  rw [← a, ← b]

/-- The index entry of a vertex that is not in the heap and is not the pushed vertex is not
touched by `push_heap` (the pushed vertex being absent or within the heap). -/
theorem push_heap_index_frame (h : heap_t) (v : Nat) (p : Int) (w : Nat) (hwv : w ≠ v)
    (hnot : ∀ k, 1 ≤ k → k ≤ h.len → h.data k ≠ w) (hv : h.index v ≤ h.len) :
    (push_heap h v p).index w = h.index w := by
  have key : ∀ (h1 : heap_t) (i : Nat), i ≤ h1.len →
      (∀ k, 1 ≤ k → k ≤ h1.len → k ≠ i → h1.data k ≠ w) →
      (store_slot (sift_up p i h1 i).1 (sift_up p i h1 i).2 v p).index w = h1.index w := by
    intro h1 i hi hd
    have hk := sift_up_keeps p
      (fun h2 i2 => h2.len = h1.len ∧ i2 ≤ h1.len ∧
        (∀ k, 1 ≤ k → k ≤ h1.len → k ≠ i2 → h2.data k ≠ w) ∧ h2.index w = h1.index w)
      (fun h2 i2 c1 _ hP => by
        obtain ⟨a1, a2, a3, a4⟩ := hP
        have hj : h2.data (i2 / 2) ≠ w := a3 (i2 / 2) (by omega) (by omega) (by omega)
        refine ⟨by simp only [move_slot_len]; exact a1, by omega, ?_, ?_⟩
        · intro k k1 kl kne
          simp only [move_slot_data]
          by_cases c : k = i2
          · rw [c, upd_same]
            exact hj
          · rw [upd_other _ i2 k _ c]
            exact a3 k k1 kl c
        · simp only [move_slot_index]
          rw [upd_other _ _ w _ (Ne.symm hj)]
          exact a4)
      i h1 i ⟨rfl, hi, hd, rfl⟩
    simp only [store_slot_index]
    rw [upd_other _ v w _ hwv]
    exact hk.2.2.2
  by_cases ha : h.index v = 0
  · rw [push_heap_absent h v p ha]
    exact key { h with len := h.len + 1 } (h.len + 1) (le_refl _)
      (fun k k1 kl kne => hnot k k1 (by simp only at kl; omega))
  · rw [push_heap_present h v p ha]
    exact key h (h.index v) hv (fun k k1 kl _ => hnot k k1 kl)

/-- The index entry of a vertex that is not in the heap is not touched by `pop_heap`. -/
theorem pop_heap_index_frame (h : heap_t) (w : Nat) (hne : h.len ≠ 0)
    (hnot : ∀ k, 1 ≤ k → k ≤ h.len → h.data k ≠ w) :
    (pop_heap h).2.index w = h.index w := by
  have hk := sift_down_keeps
    (fun h1 _ => h1.len = h.len ∧ (∀ k, 1 ≤ k → k ≤ h.len → h1.data k ≠ w) ∧
      h1.index w = h.index w)
    (fun h1 i1 c1 c2 hP => by
      obtain ⟨a1, a2, a3⟩ := hP
      rcases min_children h1 i1 with hm | hm
      · exact absurd hm.1 c2
      obtain ⟨jlt, jc, _⟩ := hm
      generalize Grdb.min h1 h1.len (2 * i1) (2 * i1 + 1) = j at *
      rw [a1] at jlt
      have hj : h1.data j ≠ w := a2 j (by omega) (by omega)
      refine ⟨by simp only [move_slot_len]; exact a1, ?_, ?_⟩
      · intro k k1 kl
        simp only [move_slot_data]
        by_cases c : k = i1
        · rw [c, upd_same]
          exact hj
        · rw [upd_other _ i1 k _ c]
          exact a2 k k1 kl
      · simp only [move_slot_index]
        rw [upd_other _ _ w _ (Ne.symm hj)]
        exact a3)
    h.len h 1 (le_refl _) ⟨rfl, hnot, rfl⟩
  rw [pop_heap_snd]
  generalize sift_down h.len h 1 = r at hk
  obtain ⟨⟨a1, a2, a3⟩, _⟩ := hk
  simp only [move_slot_index]
  rw [a1, upd_other _ _ w _ (Ne.symm (a2 h.len (by omega) (le_refl _)))]
  exact a3
/-! ## One relaxation keeps the invariant -/

/-- The heap after `push_heap h x d`, when `x` is either fresh (`index[x] = 0`) or queued
with some priority `q ≥ d`: it is well formed and ordered, it holds `(x, d)`, every entry
is `(x, d)` or an old entry of another vertex, and the old entries of other vertices stay. -/
theorem push_heap_cases (h : heap_t) (x : Nat) (d : Int) (hwf : heap_wf h) (ho : heap_order h)
    (hc : h.index x = 0 ∨ ∃ q, (x, q) ∈ entries h ∧ d ≤ q) :
    heap_wf (push_heap h x d) ∧ heap_order (push_heap h x d) ∧
    (x, d) ∈ entries (push_heap h x d) ∧
    (∀ e ∈ entries (push_heap h x d), e = (x, d) ∨ (e ∈ entries h ∧ e.1 ≠ x)) ∧
    (∀ e ∈ entries h, e.1 ≠ x → e ∈ entries (push_heap h x d)) ∧
    h.index x ≤ h.len := by
  refine ⟨push_heap_wf h x d hwf, ?_⟩
  rcases hc with ha | ⟨q, hq, hdq⟩
  · have he := (push_heap_entries_absent h x d ha).2
    refine ⟨push_heap_order_absent h x d ho ha, ?_, ?_, ?_, by omega⟩
    · rw [he]
      exact Multiset.mem_cons_self _ _
    · intro e hm
      rw [he] at hm
      rcases Multiset.mem_cons.mp hm with e1 | e1
      · exact Or.inl e1
      · right
        refine ⟨e1, ?_⟩
        intro ex
        have : (x, e.2) ∈ entries h := by
          rw [← ex]
          exact e1
        have := (entries_slot h hwf.1 x e.2 this).1
        omega
    · intro e hm _
      rw [he]
      exact Multiset.mem_cons_of_mem hm
  · obtain ⟨s1, s2, s3, s4⟩ := entries_slot h hwf.1 x q hq
    have he := (push_heap_entries_present h x d (by omega) s2).2
    rw [s3, s4] at he
    refine ⟨push_heap_order_present h x d ho (by omega) s2 (by rw [s4]; exact hdq), ?_, ?_, ?_,
      s2⟩
    · rw [he]
      exact Multiset.mem_cons_self _ _
    · intro e hm
      rw [he] at hm
      rcases Multiset.mem_cons.mp hm with e1 | e1
      · exact Or.inl e1
      · right
        have e2 := (Multiset.Nodup.mem_erase_iff (entries_nodup h hwf.1)).mp e1
        refine ⟨e2.2, ?_⟩
        intro ex
        have hm2 : (x, e.2) ∈ entries h := by
          rw [← ex]
          exact e2.2
        have := entries_key_unique h hwf.1 x e.2 q hm2 hq
        apply e2.1
        rw [← this, ← ex]
    · intro e hm hx
      rw [he]
      apply Multiset.mem_cons_of_mem
      apply (Multiset.mem_erase_of_ne ?_).mpr hm
      intro e1
      rw [e1] at hx
      exact hx rfl
/-- No sum formed in the relaxation test leaves the range of `int`: for the current vertex
`c` and one of its edges, `dist[c] + weight` is between `0` and the visited weight. -/
theorem relax_sum_bound (g0 : newGraph_t) (N a b c : Nat) (s : newGraph_t × heap_t)
    (hw : weights_nonneg g0 N) (inv : dj_inv g0 N a b c s)
    (hc0 : c ≠ 0) (e : newEdge_t) (he : e ∈ out_edges g0 c) :
    0 ≤ e.weight ∧ 0 ≤ dist_of s.1 c ∧ 0 ≤ dist_of s.1 c + e.weight ∧
    dist_of s.1 c + e.weight ≤ visited_weight g0 N s.1 := by
  obtain ⟨c1, cN, cv, _⟩ := inv.cur hc0
  have hb := inv.boundv c c1 cN cv
  have h0 := (inv.bound c c1 cN hb.1).1
  have hwe := weight_le_out_weight g0 N c hw c1 cN e he
  have hw0 := hw c cN c1 e he
  exact ⟨hw0, h0, by omega, by omega⟩

theorem relax_step_inv (g0 : newGraph_t) (N a b c : Nat) (s : newGraph_t × heap_t)
    (hg : graph_ok g0 N) (hw : weights_nonneg g0 N) (ht : total_weight g0 N < INT_MAX)
    (inv : dj_inv g0 N a b c s) (hc0 : c ≠ 0) (e : newEdge_t) (he : e ∈ out_edges g0 c)
    (u : newVertex_t) (hu : slot s.1 e.vertex = some u) (huv : u.visited = 0)
    (hle : dist_of s.1 c + e.weight ≤ u.dist) :
    dj_inv g0 N a b c
      (setv s.1 e.vertex { u with prev := c, dist := dist_of s.1 c + e.weight },
        push_heap s.2 e.vertex (dist_of s.1 c + e.weight)) := by
  obtain ⟨c1, cN, cv, cmax⟩ := inv.cur hc0
  obtain ⟨hw0, hd0, hd1, hd2⟩ := relax_sum_bound g0 N a b c s hw inv hc0 e he
  have hx := (hg.2 c cN c1).2 e he
  have hxd : dist_of s.1 e.vertex = u.dist := dist_of_slot _ _ _ hu
  have hxv : visited_of s.1 e.vertex = 0 := by rw [visited_of_slot _ _ _ hu]; exact huv
  have hxc : e.vertex ≠ c := by
    intro e1
    rw [e1] at hxv
    exact cv hxv
  have hlt := slot_lt _ _ _ hu
  have hvw := visited_weight_le_total g0 N s.1 hw
  have hfin : dist_of s.1 c + e.weight ≠ INT_MAX := by omega
  generalize hd : dist_of s.1 c + e.weight = d at *
  generalize hxx : e.vertex = x at *
  have dnew : dist_of (setv s.1 x { u with prev := c, dist := d }) x = d := by
    rw [dist_of_slot _ _ _ (slot_setv_same _ _ _ hlt)]
  have dold : ∀ y, y ≠ x → dist_of (setv s.1 x { u with prev := c, dist := d }) y =
      dist_of s.1 y := fun y hy => dist_of_setv_other _ _ _ _ hy
  have dle : ∀ y, dist_of (setv s.1 x { u with prev := c, dist := d }) y ≤ dist_of s.1 y := by
    intro y
    by_cases cy : y = x
    · rw [cy, dnew, hxd]
      exact hle
    · rw [dold y cy]
  have vsame : ∀ y, visited_of (setv s.1 x { u with prev := c, dist := d }) y =
      visited_of s.1 y := by
    intro y
    by_cases cy : y = x
    · rw [cy, visited_of_slot _ _ _ (slot_setv_same _ _ _ hlt), hxv]
      exact huv
    · exact visited_of_setv_other _ _ _ _ cy
  have vw : visited_weight g0 N (setv s.1 x { u with prev := c, dist := d }) =
      visited_weight g0 N s.1 := visited_weight_congr g0 N _ _ (fun i _ _ => vsame i)
  have hcase : s.2.index x = 0 ∨ ∃ q, (x, q) ∈ entries s.2 ∧ d ≤ q := by
    by_cases cf : dist_of s.1 x = INT_MAX
    · exact Or.inl (inv.hfresh x hx.1 hx.2 hxv cf)
    · exact Or.inr ⟨dist_of s.1 x, inv.hqueued x hx.1 hx.2 hxv cf, by rw [hxd]; exact hle⟩
  obtain ⟨p1, p2, p3, p4, p5, p6⟩ := push_heap_cases s.2 x d inv.hwf inv.hord hcase
  constructor
  · intro i i1 iN
    by_cases ci : i = x
    · obtain ⟨v0, sv0, ev0⟩ := inv.valid x hx.1 hx.2
      rw [hu] at sv0
      rw [ci]
      refine ⟨_, slot_setv_same _ _ _ hlt, ?_⟩
      simp only
      rw [Option.some.inj sv0]
      exact ev0
    · simp only
      rw [slot_setv_other _ _ _ _ ci]
      exact inv.valid i i1 iN
  · exact p1
  · exact p2
  · intro e1 hm
    simp only at hm ⊢
    rcases p4 e1 hm with e2 | ⟨e2, e3⟩
    · rw [e2]
      simp only
      exact ⟨hx.1, hx.2, by rw [vsame]; exact hxv, dnew.symm, hfin⟩
    · obtain ⟨q1, q2, q3, q4, q5⟩ := inv.hcontent e1 e2
      exact ⟨q1, q2, by rw [vsame]; exact q3, by rw [dold _ e3]; exact q4, q5⟩
  · intro y y1 yN yv yd
    simp only at yv yd ⊢
    rw [vsame] at yv
    have hyx : y ≠ x := by
      intro e1
      rw [e1, dnew] at yd
      exact hfin yd
    rw [dold y hyx] at yd
    have h0 := inv.hfresh y y1 yN yv yd
    rw [push_heap_index_frame s.2 x d y hyx ?_ p6]
    · exact h0
    · intro k k1 kl e1
      have := inv.hwf.1 k kl k1
      rw [e1, h0] at this
      omega
  · intro y y1 yN yv yd
    simp only at yv yd ⊢
    rw [vsame] at yv
    by_cases cy : y = x
    · rw [cy, dnew]
      exact p3
    · rw [dold y cy] at yd ⊢
      exact p5 _ (inv.hqueued y y1 yN yv yd) cy
  · simp only
    by_cases ca : a = x
    · rw [ca, dnew]
      have := inv.src
      rw [ca, hxd] at this
      omega
    · rw [dold a ca]
      exact inv.src
  · intro y y1 yN yd
    simp only at yd ⊢
    by_cases cy : y = x
    · rw [cy, dnew, ← hd, ← hxx]
      exact Walk.snoc c _ e (inv.walk c c1 cN (inv.boundv c c1 cN cv).1) he
    · rw [dold y cy] at yd ⊢
      exact inv.walk y y1 yN yd
  · intro y y1 yN yv yc e1 he1
    simp only at yv ⊢
    rw [vsame] at yv
    have hyx : y ≠ x := by
      intro e2
      rw [e2] at yv
      exact yv hxv
    rw [dold y hyx]
    exact le_trans (dle _) (inv.relaxed y y1 yN yv yc e1 he1)
  · intro y z y1 yN z1 zN yv zv
    simp only at yv zv ⊢
    rw [vsame] at yv zv
    have hyx : y ≠ x := by
      intro e2
      rw [e2] at yv
      exact yv hxv
    rw [dold y hyx]
    by_cases cz : z = x
    · rw [cz, dnew]
      have := cmax y y1 yN yv
      omega
    · rw [dold z cz]
      exact inv.mono y z y1 yN z1 zN yv zv
  · intro _
    simp only
    refine ⟨c1, cN, by rw [vsame]; exact cv, ?_⟩
    intro y y1 yN yv
    rw [vsame] at yv
    have hyx : y ≠ x := by
      intro e2
      rw [e2] at yv
      exact yv hxv
    rw [dold y hyx, dold c (Ne.symm hxc)]
    exact cmax y y1 yN yv
  · intro y y1 yN yd
    simp only at yd ⊢
    rw [vw]
    by_cases cy : y = x
    · rw [cy, dnew]
      exact ⟨hd1, hd2⟩
    · rw [dold y cy] at yd ⊢
      exact inv.bound y y1 yN yd
  · intro y y1 yN yv
    simp only at yv ⊢
    rw [vsame] at yv
    have hyx : y ≠ x := by
      intro e2
      rw [e2] at yv
      exact yv hxv
    rw [vw, dold y hyx]
    exact inv.boundv y y1 yN yv
  · simp only
    rw [vsame]
    exact inv.tgt
theorem relax_nil (c : Nat) (s : newGraph_t × heap_t) : relax c [] s = some s := rfl

theorem relax_cons (c : Nat) (e : newEdge_t) (es : List newEdge_t) (s : newGraph_t × heap_t)
    (v u : newVertex_t) (hv : slot s.1 c = some v) (hu : slot s.1 e.vertex = some u) :
    relax c (e :: es) s =
      if u.visited = 0 ∧ wrap32 (v.dist + e.weight) ≤ u.dist then
        relax c es
          (setv s.1 e.vertex { u with prev := c, dist := wrap32 (v.dist + e.weight) },
           push_heap s.2 e.vertex (wrap32 (v.dist + e.weight)))
      else relax c es s := by
  simp only [relax, hv, hu]

/-- The relaxation loop over edges of the current vertex `c` returns, keeps the invariant and
the visited flags, only lowers distances, leaves `dist[c]` alone, and leaves every edge it
went over relaxed. -/
theorem relax_inv (g0 : newGraph_t) (N a b c : Nat)
    (hg : graph_ok g0 N) (hw : weights_nonneg g0 N) (ht : total_weight g0 N < INT_MAX)
    (hc0 : c ≠ 0) :
    ∀ es s, dj_inv g0 N a b c s → (∀ e ∈ es, e ∈ out_edges g0 c) →
      ∃ s1, relax c es s = some s1 ∧ dj_inv g0 N a b c s1 ∧
        (∀ y, visited_of s1.1 y = visited_of s.1 y) ∧
        (∀ y, dist_of s1.1 y ≤ dist_of s.1 y) ∧
        dist_of s1.1 c = dist_of s.1 c ∧
        (∀ e ∈ es, dist_of s1.1 e.vertex ≤ dist_of s1.1 c + e.weight) := by
  intro es
  induction es with
  | nil =>
    intro s inv _
    exact ⟨s, relax_nil c s, inv, fun _ => rfl, fun _ => le_refl _, rfl,
      fun e he => absurd he (List.not_mem_nil e)⟩
  | cons e es ih =>
    intro s inv hes
    have he : e ∈ out_edges g0 c := hes e (List.mem_cons_self e es)
    have hes2 : ∀ e1 ∈ es, e1 ∈ out_edges g0 c := fun e1 h1 => hes e1 (List.mem_cons_of_mem e h1)
    obtain ⟨c1, cN, cv, cmax⟩ := inv.cur hc0
    obtain ⟨hw0, hd0, hd1, hd2⟩ := relax_sum_bound g0 N a b c s hw inv hc0 e he
    have hvw := visited_weight_le_total g0 N s.1 hw
    have hx := (hg.2 c cN c1).2 e he
    obtain ⟨v, sv, _⟩ := inv.valid c c1 cN
    obtain ⟨u, su, _⟩ := inv.valid e.vertex hx.1 hx.2
    have hvd : v.dist = dist_of s.1 c := (dist_of_slot _ _ _ sv).symm
    have hud : u.dist = dist_of s.1 e.vertex := (dist_of_slot _ _ _ su).symm
    have huv : u.visited = visited_of s.1 e.vertex := (visited_of_slot _ _ _ su).symm
    have hwrap : wrap32 (v.dist + e.weight) = dist_of s.1 c + e.weight := by
      rw [hvd]
      exact wrap32_id _ hd1 (by omega)
    rw [relax_cons c e es s v u sv su, hwrap]
    by_cases cond : u.visited = 0 ∧ dist_of s.1 c + e.weight ≤ u.dist
    · rw [if_pos cond]
      have inv1 := relax_step_inv g0 N a b c s hg hw ht inv hc0 e he u su cond.1 cond.2
      have hlt := slot_lt _ _ _ su
      have hxc : e.vertex ≠ c := by
        intro e1
        rw [huv, e1] at cond
        exact cv cond.1
      obtain ⟨s1, r1, r2, r3, r4, r5, r6⟩ := ih _ inv1 hes2
      have dnew : dist_of (setv s.1 e.vertex
          { u with prev := c, dist := dist_of s.1 c + e.weight }) e.vertex =
          dist_of s.1 c + e.weight := by
        rw [dist_of_slot _ _ _ (slot_setv_same _ _ _ hlt)]
      refine ⟨s1, r1, r2, ?_, ?_, ?_, ?_⟩
      · intro y
        rw [r3 y]
        by_cases cy : y = e.vertex
        · rw [cy, visited_of_slot _ _ _ (slot_setv_same _ _ _ hlt), ← huv]
        · exact visited_of_setv_other _ _ _ _ cy
      · intro y
        apply le_trans (r4 y)
        by_cases cy : y = e.vertex
        · rw [cy, dnew, ← hud]
          exact cond.2
        · rw [dist_of_setv_other _ _ _ _ cy]
      · rw [r5]
        exact dist_of_setv_other _ _ _ _ (Ne.symm hxc)
      · intro e1 h1
        rcases List.mem_cons.mp h1 with e2 | e2
        · rw [e2, r5, dist_of_setv_other _ _ _ _ (Ne.symm hxc)]
          apply le_trans (r4 e.vertex)
          rw [dnew]
        · exact r6 e1 e2
    · rw [if_neg cond]
      obtain ⟨s1, r1, r2, r3, r4, r5, r6⟩ := ih s inv hes2
      refine ⟨s1, r1, r2, r3, r4, r5, ?_⟩
      intro e1 h1
      rcases List.mem_cons.mp h1 with e2 | e2
      · rw [e2, r5]
        apply le_trans (r4 e.vertex)
        by_cases cu : u.visited = 0
        · have : ¬ dist_of s.1 c + e.weight ≤ u.dist := fun h2 => cond ⟨cu, h2⟩
          rw [← hud]
          omega
        · rw [huv] at cu
          have := cmax e.vertex hx.1 hx.2 cu
          omega
      · exact r6 e1 e2
/-! ## One round of the main loop -/

/-- What `pop_heap` returns at the head of the main loop: an unvisited vertex of `1 .. N` with
a finite distance that is minimal among the unvisited vertices. -/
theorem pop_inv (g0 : newGraph_t) (N a b : Nat) (s : newGraph_t × heap_t)
    (hw : weights_nonneg g0 N) (ht : total_weight g0 N < INT_MAX)
    (inv : dj_inv g0 N a b 0 s) (hne : s.2.len ≠ 0) :
    1 ≤ (pop_heap s.2).1 ∧ (pop_heap s.2).1 ≤ N ∧ visited_of s.1 (pop_heap s.2).1 = 0 ∧
    dist_of s.1 (pop_heap s.2).1 ≠ INT_MAX ∧
    (∀ y, 1 ≤ y → y ≤ N → visited_of s.1 y = 0 →
      dist_of s.1 (pop_heap s.2).1 ≤ dist_of s.1 y) ∧
    entries s.2 = ((pop_heap s.2).1, dist_of s.1 (pop_heap s.2).1) ::ₘ entries (pop_heap s.2).2 := by
  have h1 : (s.2.data 1, s.2.prio 1) ∈ entries s.2 :=
    (mem_entries s.2 _).mpr ⟨1, le_refl _, by omega, rfl⟩
  obtain ⟨q1, q2, q3, q4, q5⟩ := inv.hcontent _ h1
  simp only at q1 q2 q3 q4 q5
  rw [pop_heap_fst]
  have hvw := visited_weight_le_total g0 N s.1 hw
  have hb := inv.bound (s.2.data 1) q1 q2 (by rw [← q4]; exact q5)
  refine ⟨q1, q2, q3, by rw [← q4]; exact q5, ?_, ?_⟩
  · intro y y1 yN yv
    by_cases cy : dist_of s.1 y = INT_MAX
    · rw [cy]
      omega
    · have hm := inv.hqueued y y1 yN yv cy
      obtain ⟨k1, k2, _, k4⟩ := entries_slot s.2 inv.hwf.1 y _ hm
      rw [← q4, ← k4]
      exact heap_order_root s.2 inv.hord _ k1 k2
  · rw [← q4]
    exact (pop_heap_entries s.2 hne).2

theorem after_pop_inv (g0 : newGraph_t) (N a b : Nat) (s : newGraph_t × heap_t)
    (hw : weights_nonneg g0 N) (ht : total_weight g0 N < INT_MAX)
    (inv : dj_inv g0 N a b 0 s) (hne : s.2.len ≠ 0) (hb : (pop_heap s.2).1 ≠ b)
    (v : newVertex_t) (hv : slot s.1 (pop_heap s.2).1 = some v) :
    dj_inv g0 N a b (pop_heap s.2).1
      (setv s.1 (pop_heap s.2).1 { v with visited := 1 }, (pop_heap s.2).2) ∧
    unvisited_count N (setv s.1 (pop_heap s.2).1 { v with visited := 1 }) + 1 =
      unvisited_count N s.1 := by
  obtain ⟨i1, iN, iv, ifin, imin, hE⟩ := pop_inv g0 N a b s hw ht inv hne
  have hwf1 := pop_heap_wf s.2 inv.hwf hne
  have hord1 := pop_heap_order s.2 inv.hord
  have hframe := pop_heap_index_frame s.2
  generalize (pop_heap s.2).1 = i at *
  generalize (pop_heap s.2).2 = h1 at *
  have hlt := slot_lt _ _ _ hv
  have dsame : ∀ y, dist_of (setv s.1 i { v with visited := 1 }) y = dist_of s.1 y := by
    intro y
    by_cases cy : y = i
    · rw [cy, dist_of_slot _ _ _ (slot_setv_same _ _ _ hlt), dist_of_slot _ _ _ hv]
    · exact dist_of_setv_other _ _ _ _ cy
  have vnew : visited_of (setv s.1 i { v with visited := 1 }) i = 1 := by
    rw [visited_of_slot _ _ _ (slot_setv_same _ _ _ hlt)]
  have vold : ∀ y, y ≠ i → visited_of (setv s.1 i { v with visited := 1 }) y =
      visited_of s.1 y := fun y hy => visited_of_setv_other _ _ _ _ hy
  have hmark := mark_visited g0 N s.1 (setv s.1 i { v with visited := 1 }) i i1 iN iv
    (by rw [vnew]; omega) vold
  have hout := out_weight_nonneg g0 N i hw i1 iN
  have hnod := entries_nodup s.2 inv.hwf.1
  rw [hE] at hnod
  have hnotin : ∀ e ∈ entries h1, e.1 ≠ i := by
    intro e he ei
    have e1 : e ∈ entries s.2 := by
      rw [hE]
      exact Multiset.mem_cons_of_mem he
    have e2 := (inv.hcontent e e1).2.2.2.1
    have e3 : e = (i, dist_of s.1 i) := by
      rw [← ei, ← e2]
    rw [e3] at he
    exact (Multiset.nodup_cons.mp hnod).1 he
  refine ⟨?_, hmark.2⟩
  constructor
  · intro k k1 kN
    by_cases ck : k = i
    · obtain ⟨v0, sv0, ev0⟩ := inv.valid i i1 iN
      rw [hv] at sv0
      rw [ck]
      refine ⟨_, slot_setv_same _ _ _ hlt, ?_⟩
      simp only
      rw [Option.some.inj sv0]
      exact ev0
    · simp only
      rw [slot_setv_other _ _ _ _ ck]
      exact inv.valid k k1 kN
  · exact hwf1
  · exact hord1
  · intro e he
    simp only
    have e1 : e ∈ entries s.2 := by
      rw [hE]
      exact Multiset.mem_cons_of_mem he
    obtain ⟨q1, q2, q3, q4, q5⟩ := inv.hcontent e e1
    exact ⟨q1, q2, by rw [vold _ (hnotin e he)]; exact q3, by rw [dsame]; exact q4, q5⟩
  · intro y y1 yN yv yd
    simp only at yv yd ⊢
    have hyi : y ≠ i := by
      intro e1
      rw [e1, vnew] at yv
      omega
    rw [vold y hyi] at yv
    rw [dsame] at yd
    have h0 := inv.hfresh y y1 yN yv yd
    rw [hframe y hne ?_]
    · exact h0
    · intro k k1 kl e1
      have := inv.hwf.1 k kl k1
      rw [e1, h0] at this
      omega
  · intro y y1 yN yv yd
    simp only at yv yd ⊢
    have hyi : y ≠ i := by
      intro e1
      rw [e1, vnew] at yv
      omega
    rw [vold y hyi] at yv
    rw [dsame] at yd ⊢
    have hm := inv.hqueued y y1 yN yv yd
    rw [hE] at hm
    rcases Multiset.mem_cons.mp hm with e1 | e1
    · exact absurd (congrArg Prod.fst e1) hyi
    · exact e1
  · simp only
    rw [dsame]
    exact inv.src
  · intro y y1 yN yd
    simp only at yd ⊢
    rw [dsame] at yd ⊢
    exact inv.walk y y1 yN yd
  · intro y y1 yN yv yc e he
    simp only at yv ⊢
    rw [vold y yc] at yv
    rw [dsame, dsame]
    exact inv.relaxed y y1 yN yv (by omega) e he
  · intro y z y1 yN z1 zN yv zv
    simp only at yv zv ⊢
    have hzi : z ≠ i := by
      intro e1
      rw [e1, vnew] at zv
      omega
    rw [vold z hzi] at zv
    rw [dsame, dsame]
    by_cases cy : y = i
    · rw [cy]
      exact imin z z1 zN zv
    · rw [vold y cy] at yv
      exact inv.mono y z y1 yN z1 zN yv zv
  · intro _
    simp only
    refine ⟨i1, iN, by rw [vnew]; omega, ?_⟩
    intro y y1 yN yv
    rw [dsame, dsame]
    by_cases cy : y = i
    · rw [cy]
    · rw [vold y cy] at yv
      exact inv.mono y i y1 yN i1 iN yv iv
  · intro y y1 yN yd
    simp only at yd ⊢
    rw [dsame] at yd ⊢
    have := inv.bound y y1 yN yd
    rw [hmark.1]
    exact ⟨this.1, by omega⟩
  · intro y y1 yN yv
    simp only at yv ⊢
    rw [dsame, hmark.1]
    by_cases cy : y = i
    · rw [cy]
      have := inv.bound i i1 iN ifin
      exact ⟨ifin, by omega⟩
    · rw [vold y cy] at yv
      have := inv.boundv y y1 yN yv
      exact ⟨this.1, by omega⟩
  · simp only
    rw [vold b (Ne.symm hb)]
    exact inv.tgt

/-- Once every edge of the current vertex is relaxed, the invariant holds at the head of the
main loop again. -/
theorem close_inv (g0 : newGraph_t) (N a b c : Nat) (s : newGraph_t × heap_t)
    (inv : dj_inv g0 N a b c s)
    (hr : ∀ e ∈ out_edges g0 c, dist_of s.1 e.vertex ≤ dist_of s.1 c + e.weight) :
    dj_inv g0 N a b 0 s := by
  constructor
  · exact inv.valid
  · exact inv.hwf
  · exact inv.hord
  · exact inv.hcontent
  · exact inv.hfresh
  · exact inv.hqueued
  · exact inv.src
  · exact inv.walk
  · intro x x1 xN xv _ e he
    by_cases cx : x = c
    · rw [cx] at he ⊢
      exact hr e he
    · exact inv.relaxed x x1 xN xv cx e he
  · exact inv.mono
  · intro h
    exact absurd rfl h
  · exact inv.bound
  · exact inv.boundv
  · exact inv.tgt
/-! ## Walks against the invariant -/

theorem walk_range (g0 : newGraph_t) (N a : Nat) (hg : graph_ok g0 N) (ha1 : 1 ≤ a)
    (haN : a ≤ N) : ∀ y d, Walk g0 a y d → 1 ≤ y ∧ y ≤ N := by
  intro y d hwalk
  induction hwalk with
  | nil => exact ⟨ha1, haN⟩
  | snoc u d e _ he ih => exact (hg.2 u ih.2 ih.1).2 e he

/-- At the head of the main loop every walk from the source ends in a visited vertex whose
distance is at most the weight of the walk, or is at least as long as the distance of some
unvisited vertex. -/
theorem walk_lower_bound (g0 : newGraph_t) (N a b : Nat) (s : newGraph_t × heap_t)
    (hg : graph_ok g0 N) (hw : weights_nonneg g0 N) (ha1 : 1 ≤ a) (haN : a ≤ N)
    (inv : dj_inv g0 N a b 0 s) :
    ∀ y d, Walk g0 a y d →
      (visited_of s.1 y ≠ 0 ∧ dist_of s.1 y ≤ d) ∨
      (∃ z, 1 ≤ z ∧ z ≤ N ∧ visited_of s.1 z = 0 ∧ dist_of s.1 z ≤ d) := by
  intro y d hwalk
  induction hwalk with
  | nil =>
    by_cases c : visited_of s.1 a = 0
    · exact Or.inr ⟨a, ha1, haN, c, le_of_eq inv.src⟩
    · exact Or.inl ⟨c, le_of_eq inv.src⟩
  | snoc u d e hu he ih =>
    have ur := walk_range g0 N a hg ha1 haN u d hu
    have er := (hg.2 u ur.2 ur.1).2 e he
    have w0 := hw u ur.2 ur.1 e he
    rcases ih with ⟨uv, ud⟩ | ⟨z, z1, zN, zv, zd⟩
    · have hr := inv.relaxed u ur.1 ur.2 uv (by omega) e he
      by_cases c : visited_of s.1 e.vertex = 0
      · exact Or.inr ⟨e.vertex, er.1, er.2, c, by omega⟩
      · exact Or.inl ⟨c, by omega⟩
    · exact Or.inr ⟨z, z1, zN, zv, by omega⟩

/-- At the head of the main loop every vertex reached by a walk from the source is visited,
or some unvisited vertex has a finite distance. -/
theorem walk_reaches (g0 : newGraph_t) (N a b : Nat) (s : newGraph_t × heap_t)
    (hg : graph_ok g0 N) (hw : weights_nonneg g0 N) (ht : total_weight g0 N < INT_MAX)
    (ha1 : 1 ≤ a) (haN : a ≤ N) (inv : dj_inv g0 N a b 0 s) :
    ∀ y d, Walk g0 a y d →
      visited_of s.1 y ≠ 0 ∨
      (∃ z, 1 ≤ z ∧ z ≤ N ∧ visited_of s.1 z = 0 ∧ dist_of s.1 z ≠ INT_MAX) := by
  intro y d hwalk
  have h0 : (0 : Int) ≠ INT_MAX := by unfold INT_MAX; omega
  induction hwalk with
  | nil =>
    by_cases c : visited_of s.1 a = 0
    · exact Or.inr ⟨a, ha1, haN, c, by rw [inv.src]; exact h0⟩
    · exact Or.inl c
  | snoc u d e hu he ih =>
    have ur := walk_range g0 N a hg ha1 haN u d hu
    have er := (hg.2 u ur.2 ur.1).2 e he
    rcases ih with uv | hz
    · have hr := inv.relaxed u ur.1 ur.2 uv (by omega) e he
      have hb := (inv.boundv u ur.1 ur.2 uv).2
      have hwe := weight_le_out_weight g0 N u hw ur.1 ur.2 e he
      have hvw := visited_weight_le_total g0 N s.1 hw
      by_cases c : visited_of s.1 e.vertex = 0
      · exact Or.inr ⟨e.vertex, er.1, er.2, c, by omega⟩
      · exact Or.inl c
    · exact Or.inr hz

theorem entries_empty (h : heap_t) (h0 : h.len = 0) (e : Nat × Int) : e ∉ entries h := by
  intro hm
  obtain ⟨k, k1, kl, _⟩ := (mem_entries h e).mp hm
  omega

/-- Exit of the main loop through `break`: the popped vertex is the target. -/
theorem final_popped (g0 : newGraph_t) (N a b : Nat) (s : newGraph_t × heap_t)
    (hg : graph_ok g0 N) (hw : weights_nonneg g0 N) (ht : total_weight g0 N < INT_MAX)
    (ha1 : 1 ≤ a) (haN : a ≤ N) (inv : dj_inv g0 N a b 0 s) (hne : s.2.len ≠ 0)
    (hb : (pop_heap s.2).1 = b) : shortest_or_max g0 a b (dist_of s.1 b) := by
  obtain ⟨i1, iN, iv, ifin, imin, _⟩ := pop_inv g0 N a b s hw ht inv hne
  rw [hb] at i1 iN iv ifin imin
  have hwalk := inv.walk b i1 iN ifin
  constructor
  · intro _
    refine ⟨hwalk, ?_⟩
    intro w hwk
    rcases walk_lower_bound g0 N a b s hg hw ha1 haN inv b w hwk with ⟨bv, _⟩ | ⟨z, z1, zN, zv, zd⟩
    · exact absurd iv bv
    · exact le_trans (imin z z1 zN zv) zd
  · intro hno
    exact absurd ⟨_, hwalk⟩ hno

/-- Exit of the main loop with an empty heap: the target was not reached. -/
theorem final_empty (g0 : newGraph_t) (N a b : Nat) (s : newGraph_t × heap_t)
    (hg : graph_ok g0 N) (hw : weights_nonneg g0 N) (ht : total_weight g0 N < INT_MAX)
    (ha1 : 1 ≤ a) (haN : a ≤ N) (hb1 : 1 ≤ b) (hbN : b ≤ N)
    (inv : dj_inv g0 N a b 0 s) (hlen : s.2.len = 0) :
    shortest_or_max g0 a b (dist_of s.1 b) := by
  have hall : ∀ z, 1 ≤ z → z ≤ N → visited_of s.1 z = 0 → dist_of s.1 z = INT_MAX := by
    intro z z1 zN zv
    by_contra hc
    exact entries_empty s.2 hlen _ (inv.hqueued z z1 zN zv hc)
  constructor
  · rintro ⟨w, hwk⟩
    rcases walk_reaches g0 N a b s hg hw ht ha1 haN inv b w hwk with bv | ⟨z, z1, zN, zv, zd⟩
    · exact absurd inv.tgt bv
    · exact absurd (hall z z1 zN zv) zd
  · intro _
    exact hall b hb1 hbN inv.tgt
/-! ## The main loop and the whole of `dijkstra` -/

theorem visited_weight_nonneg (g0 : newGraph_t) (N : Nat) (g : newGraph_t)
    (hw : weights_nonneg g0 N) : 0 ≤ visited_weight g0 N g := by
  unfold visited_weight
  apply List.sum_nonneg
  intro x hx
  obtain ⟨i, hi, rfl⟩ := List.mem_map.mp hx
  have := (mem_range1 N i).mp hi
  by_cases c : visited_of g i = 0
  · rw [if_pos c]
  · rw [if_neg c]
    exact out_weight_nonneg g0 N i hw this.1 this.2

theorem sum_le_length (f : Nat → Nat) (hf : ∀ x, f x ≤ 1) :
    ∀ l : List Nat, (l.map f).sum ≤ l.length := by
  intro l
  induction l with
  | nil => simp
  | cons x xs ih =>
    simp only [List.map_cons, List.sum_cons, List.length_cons]
    have := hf x
    omega

theorem unvisited_count_le (N : Nat) (g : newGraph_t) : unvisited_count N g ≤ N := by
  unfold unvisited_count
  have := sum_le_length (fun i => if visited_of g i = 0 then 1 else 0)
    (fun x => by by_cases c : visited_of g x = 0 <;> simp [c]) (List.range' 1 N)
  rw [List.length_range'] at this
  exact this

/-- The invariant holds for the state `dijkstra` hands to its main loop. -/
theorem start_inv (g0 : newGraph_t) (N a b : Nat) (g2 : newGraph_t)
    (hw : weights_nonneg g0 N) (ha1 : 1 ≤ a) (haN : a ≤ N) (hb1 : 1 ≤ b) (hbN : b ≤ N)
    (h2 : ∀ k, 1 ≤ k → k ≤ N → ∃ v, slot g0 k = some v ∧
      slot g2 k = some { v with dist := if k = a then 0 else INT_MAX, prev := 0,
                                visited := 0 }) :
    dj_inv g0 N a b 0 (g2, push_heap (create_heap N) a 0) := by
  have hd : ∀ k, 1 ≤ k → k ≤ N → dist_of g2 k = if k = a then 0 else INT_MAX := by
    intro k k1 kN
    obtain ⟨v, _, sv⟩ := h2 k k1 kN
    rw [dist_of_slot _ _ _ sv]
  have hv : ∀ k, 1 ≤ k → k ≤ N → visited_of g2 k = 0 := by
    intro k k1 kN
    obtain ⟨v, _, sv⟩ := h2 k k1 kN
    rw [visited_of_slot _ _ _ sv]
  have hE : entries (push_heap (create_heap N) a 0) = (a, 0) ::ₘ 0 := by
    rw [(push_heap_entries_absent (create_heap N) a 0 rfl).2]
    rfl
  have h0 : (0 : Int) ≠ INT_MAX := by unfold INT_MAX; omega
  have hmem : ∀ e ∈ entries (push_heap (create_heap N) a 0), e = (a, 0) := by
    intro e he
    rw [hE] at he
    rcases Multiset.mem_cons.mp he with e1 | e1
    · exact e1
    · exact absurd e1 (Multiset.not_mem_zero e)
  constructor
  · intro i i1 iN
    obtain ⟨v, s0, sv⟩ := h2 i i1 iN
    refine ⟨_, sv, ?_⟩
    simp only
    rw [out_edges_slot _ _ _ s0]
  · exact push_heap_wf _ _ _ (create_heap_wf N)
  · apply push_heap_order_absent _ _ _ _ rfl
    intro i hi i2
    simp only [create_heap] at hi
    omega
  · intro e he
    rw [hmem e he]
    simp only
    refine ⟨ha1, haN, hv a ha1 haN, ?_, h0⟩
    rw [hd a ha1 haN, if_pos rfl]
  · intro y y1 yN _ yd
    simp only at yd ⊢
    have hya : y ≠ a := by
      intro e1
      rw [hd y y1 yN, if_pos e1] at yd
      exact h0 yd
    exact (push_heap_create N a 0).2.2.2 y hya
  · intro y y1 yN _ yd
    simp only at yd ⊢
    have hya : y = a := by
      by_contra e1
      rw [hd y y1 yN, if_neg e1] at yd
      exact yd rfl
    rw [hE, hya, hd a ha1 haN, if_pos rfl]
    exact Multiset.mem_cons_self _ _
  · simp only
    rw [hd a ha1 haN, if_pos rfl]
  · intro y y1 yN yd
    simp only at yd ⊢
    have hya : y = a := by
      by_contra e1
      rw [hd y y1 yN, if_neg e1] at yd
      exact yd rfl
    rw [hya, hd a ha1 haN, if_pos rfl]
    exact Walk.nil
  · intro x x1 xN xv
    exact absurd (hv x x1 xN) xv
  · intro x y x1 xN _ _ xv
    exact absurd (hv x x1 xN) xv
  · intro h
    exact absurd rfl h
  · intro y y1 yN yd
    simp only at yd ⊢
    have hya : y = a := by
      by_contra e1
      rw [hd y y1 yN, if_neg e1] at yd
      exact yd rfl
    rw [hya, hd a ha1 haN, if_pos rfl]
    exact ⟨le_refl _, visited_weight_nonneg g0 N g2 hw⟩
  · intro x x1 xN xv
    exact absurd (hv x x1 xN) xv
  · exact hv b hb1 hbN

/-- The main loop, started in a state with the invariant and with at least as much fuel as
there are unvisited vertices, returns, and the target then holds the shortest-path answer. -/
theorem dijkstra_loop_correct (g0 : newGraph_t) (N a b : Nat)
    (hg : graph_ok g0 N) (hw : weights_nonneg g0 N) (ht : total_weight g0 N < INT_MAX)
    (ha1 : 1 ≤ a) (haN : a ≤ N) (hb1 : 1 ≤ b) (hbN : b ≤ N) :
    ∀ fuel s, dj_inv g0 N a b 0 s → unvisited_count N s.1 ≤ fuel →
      ∃ s1 v, dijkstra_loop b fuel s = Run.done s1 ∧ slot s1.1 b = some v ∧
        shortest_or_max g0 a b v.dist := by
  intro fuel
  induction fuel with
  | zero =>
    intro s inv hf
    have := unvisited_count_pos N s.1 b hb1 hbN inv.tgt
    omega
  | succ f ih =>
    intro s inv hf
    obtain ⟨vb, svb, _⟩ := inv.valid b hb1 hbN
    have hdb : vb.dist = dist_of s.1 b := (dist_of_slot _ _ _ svb).symm
    rw [dijkstra_loop_succ]
    by_cases hlen : s.2.len = 0
    · rw [if_pos hlen]
      refine ⟨s, vb, rfl, svb, ?_⟩
      rw [hdb]
      exact final_empty g0 N a b s hg hw ht ha1 haN hb1 hbN inv hlen
    · rw [if_neg hlen]
      by_cases hpop : (pop_heap s.2).1 = b
      · rw [if_pos hpop]
        refine ⟨(s.1, (pop_heap s.2).2), vb, rfl, svb, ?_⟩
        rw [hdb]
        exact final_popped g0 N a b s hg hw ht ha1 haN inv hlen hpop
      · rw [if_neg hpop]
        obtain ⟨i1, iN, _⟩ := pop_inv g0 N a b s hw ht inv hlen
        obtain ⟨v, sv, ev⟩ := inv.valid _ i1 iN
        obtain ⟨inv1, hcount⟩ := after_pop_inv g0 N a b s hw ht inv hlen hpop v sv
        obtain ⟨s2, r1, r2, r3, _, _, r6⟩ := relax_inv g0 N a b (pop_heap s.2).1 hg hw ht
          (by omega) v.edges _ inv1 (fun e he => by rw [← ev]; exact he)
        have inv2 := close_inv g0 N a b _ s2 r2 (fun e he => r6 e (by rw [ev]; exact he))
        have hc1 : unvisited_count N s2.1 =
            unvisited_count N (setv s.1 (pop_heap s.2).1 { v with visited := 1 }) :=
          unvisited_count_congr N (setv s.1 (pop_heap s.2).1 { v with visited := 1 }) s2.1
            (fun i _ _ => r3 i)
        have hc2 : unvisited_count N s2.1 ≤ f := by
          omega
        simp only [sv, r1]
        exact ih s2 inv2 hc2

/-- Claim C1.  On a graph with vertex ids `1 .. N`, non-negative edge weights whose sum is
below `INT_MAX`, and for source and target in `1 .. N`: `dijkstra` returns (with fuel for `N`
rounds of the main loop), and `g.vertices[target].dist` is then the minimum weight of a walk
from source to target if there is one, and `INT_MAX` if there is none.  (The heap arrays of
the model are unbounded memory regions, which is the reading "large enough to hold id N".) -/
theorem dijkstra_shortest (fuel : Nat) (g : newGraph_t) (N s t : Nat)
    (hg : graph_ok g N) (hw : weights_nonneg g N) (hsum : total_weight g N < INT_MAX)
    (hs1 : 1 ≤ s) (hsN : s ≤ N) (ht1 : 1 ≤ t) (htN : t ≤ N) (hf : N ≤ fuel) :
    ∃ r v, dijkstra fuel g s t = Run.done r ∧ slot r.1 t = some v ∧
      ((∃ w, Walk g s t w) → Walk g s t v.dist ∧ ∀ w, Walk g s t w → v.dist ≤ w) ∧
      ((¬ ∃ w, Walk g s t w) → v.dist = INT_MAX) := by
  obtain ⟨g2, e1, _, e3⟩ := dijkstra_start fuel g N s t hg hs1 hsN
  have inv := start_inv g N s t g2 hw hs1 hsN ht1 htN e3
  obtain ⟨s1, v, r1, r2, r3⟩ := dijkstra_loop_correct g N s t hg hw hsum hs1 hsN ht1 htN fuel
    (g2, push_heap (create_heap N) s 0) inv (le_trans (unvisited_count_le N g2) hf)
  exact ⟨s1, v, by rw [e1]; exact r1, r2, r3.1, r3.2⟩

/-- Witness for C1: the diamond `1 → 2 (1)`, `1 → 3 (4)`, `2 → 3 (2)`, `3 → 4 (1)`, query
`(1, 4)`. -/
theorem dijkstra_shortest_witness :
    graph_ok (graph_of diamond) 4 ∧ weights_nonneg (graph_of diamond) 4 ∧
    total_weight (graph_of diamond) 4 < INT_MAX ∧
    ∃ r v, dijkstra 4 (graph_of diamond) 1 4 = Run.done r ∧ slot r.1 4 = some v ∧
      ((∃ w, Walk (graph_of diamond) 1 4 w) →
        Walk (graph_of diamond) 1 4 v.dist ∧ ∀ w, Walk (graph_of diamond) 1 4 w → v.dist ≤ w) ∧
      ((¬ ∃ w, Walk (graph_of diamond) 1 4 w) → v.dist = INT_MAX) :=
  ⟨by unfold graph_ok; decide, by unfold weights_nonneg; decide, by decide,
    dijkstra_shortest 4 (graph_of diamond) 4 1 4 (by unfold graph_ok; decide)
      (by unfold weights_nonneg; decide) (by decide) (by decide) (by decide) (by decide)
      (by decide) (by decide)⟩
/-! ## `add_vertex` and `add_edge` -/

/-- What `add_vertex` does to the slots: slot `i` holds its old vertex, or a zeroed one if it
did not exist, and every other slot is as before. -/
theorem slot_add_vertex (g : newGraph_t) (i j : Nat) :
    slot (add_vertex g i) j =
      if j = i then some ((slot g i).getD zero_vertex) else slot g j := by
  by_cases hgrow : g.vertices_size < i + 1
  · have hsl : slot g i = none := by
      unfold slot
      rw [if_neg (by omega)]
    have hnew : (if g.vertices_size * 2 > i then g.vertices_size * 2 else i + 4) > i := by
      by_cases c : g.vertices_size * 2 > i
      · rw [if_pos c]; exact c
      · rw [if_neg c]; omega
    generalize hsz : (if g.vertices_size * 2 > i then g.vertices_size * 2 else i + 4) = size
      at hnew
    have e1 : add_vertex g i =
        { vertices := upd (fun k => if g.vertices_size ≤ k ∧ k < size then none
                                    else g.vertices k) i (some zero_vertex),
          vertices_len := g.vertices_len + 1, vertices_size := size } := by
      unfold add_vertex
      simp only [hgrow, if_true, hsz]
      have : (g.vertices_size ≤ i ∧ i < size) := ⟨by omega, hnew⟩
      simp only [this, and_self, if_true]
    rw [e1, hsl]
    unfold slot
    simp only [Option.getD_none]
    by_cases c : j = i
    · rw [if_pos c, c, upd_same, if_pos hnew]
    · rw [if_neg c, upd_other _ i j _ c]
      by_cases c2 : j < g.vertices_size
      · rw [if_pos (by omega), if_pos c2, if_neg (by omega)]
      · rw [if_neg c2]
        by_cases c3 : j < size
        · rw [if_pos c3, if_pos ⟨by omega, c3⟩]
        · rw [if_neg c3]
  · have hlt : i < g.vertices_size := by omega
    cases hv : g.vertices i with
    | none =>
      have e1 : add_vertex g i =
          { g with vertices := upd g.vertices i (some zero_vertex),
                   vertices_len := g.vertices_len + 1 } := by
        unfold add_vertex
        simp only [hgrow, if_false, hv]
      have hsl : slot g i = none := by
        unfold slot
        rw [if_pos hlt, hv]
      rw [e1, hsl]
      unfold slot
      simp only [Option.getD_none]
      by_cases c : j = i
      · rw [if_pos c, c, upd_same, if_pos hlt]
      · rw [if_neg c, upd_other _ i j _ c]
    | some v =>
      have e1 : add_vertex g i = g := by
        unfold add_vertex
        simp only [hgrow, if_false, hv]
      have hsl : slot g i = some v := by
        unfold slot
        rw [if_pos hlt, hv]
      rw [e1, hsl]
      simp only [Option.getD_some]
      by_cases c : j = i
      · rw [if_pos c, c, hsl]
      · rw [if_neg c]

/-- After `add_vertex(g, i)` the array has more than `i` cells and cell `i` holds a vertex. -/
theorem add_vertex_present (g : newGraph_t) (i : Nat) :
    i < (add_vertex g i).vertices_size ∧ ∃ v, (add_vertex g i).vertices i = some v := by
  have h := slot_add_vertex g i i
  rw [if_pos rfl] at h
  have hlt := slot_lt _ _ _ h
  refine ⟨hlt, (slot g i).getD zero_vertex, ?_⟩
  unfold slot at h
  rw [if_pos hlt] at h
  exact h

theorem add_vertex_noop (g : newGraph_t) (i : Nat) (v : newVertex_t)
    (hlt : i < g.vertices_size) (hv : g.vertices i = some v) : add_vertex g i = g := by
  unfold add_vertex
  have : ¬ g.vertices_size < i + 1 := by omega
  simp only [this, if_false, hv]

theorem add_vertex_idem (g : newGraph_t) (i : Nat) :
    add_vertex (add_vertex g i) i = add_vertex g i := by
  obtain ⟨hlt, v, hv⟩ := add_vertex_present g i
  exact add_vertex_noop _ i v hlt hv
theorem sum_range_extend (f : Nat → Nat) (n : Nat) :
    ∀ m, n ≤ m → (∀ j, n ≤ j → j < m → f j = 0) →
      ((List.range m).map f).sum = ((List.range n).map f).sum := by
  intro m
  induction m with
  | zero =>
    intro h _
    have : n = 0 := by omega
    rw [this]
  | succ k ih =>
    intro h hz
    by_cases c : n = k + 1
    · rw [c]
    · rw [List.range_succ, List.map_append, List.sum_append, ih (by omega)
        (fun j j1 j2 => hz j j1 (by omega))]
      simp only [List.map_cons, List.map_nil, List.sum_cons, List.sum_nil, add_zero]
      rw [hz k (by omega) (by omega), add_zero]

/-- Storing a vertex into a cell below `n` that held `NULL` raises the number of non-`NULL`
cells among the first `n` by one. -/
theorem count_after_store (F : Nat → Option newVertex_t) (n i : Nat) (v : newVertex_t)
    (hi : i < n) (hF : F i = none) :
    ((List.range n).map (fun j => if (upd F i (some v) j).isSome then 1 else 0)).sum =
      ((List.range n).map (fun j => if (F j).isSome then 1 else 0)).sum + 1 := by
  have h := sum_map_change (fun j => if (F j).isSome then 1 else 0)
    (fun j => if (upd F i (some v) j).isSome then 1 else 0) i (List.range n)
    (List.nodup_range n) (List.mem_range.mpr hi)
    (fun x hx => by simp only; rw [upd_other _ i x _ hx])
  simp only [hF, upd_same, Option.isSome_none, Option.isSome_some, if_true, add_zero] at h
  simpa using h

/-- The function `add_vertex` keeps `vertices_len` equal to the number of non-`NULL` cells. -/
theorem add_vertex_count (g : newGraph_t) (i : Nat) (h : g.vertices_len = slot_count g) :
    (add_vertex g i).vertices_len = slot_count (add_vertex g i) := by
  by_cases hgrow : g.vertices_size < i + 1
  · have hnew : (if g.vertices_size * 2 > i then g.vertices_size * 2 else i + 4) > i := by
      by_cases c : g.vertices_size * 2 > i
      · rw [if_pos c]; exact c
      · rw [if_neg c]; omega
    generalize hsz : (if g.vertices_size * 2 > i then g.vertices_size * 2 else i + 4) = size
      at hnew
    have e1 : add_vertex g i =
        { vertices := upd (fun k => if g.vertices_size ≤ k ∧ k < size then none
                                    else g.vertices k) i (some zero_vertex),
          vertices_len := g.vertices_len + 1, vertices_size := size } := by
      unfold add_vertex
      simp only [hgrow, if_true, hsz]
      have : (g.vertices_size ≤ i ∧ i < size) := ⟨by omega, hnew⟩
      simp only [this, and_self, if_true]
    rw [e1]
    unfold slot_count
    simp only
    rw [count_after_store _ size i zero_vertex hnew
      (by rw [if_pos ⟨by omega, hnew⟩]), h]
    unfold slot_count
    congr 1
    rw [sum_range_extend _ g.vertices_size size (by omega)
      (fun j j1 j2 => by
        have hc : g.vertices_size ≤ j ∧ j < size := ⟨j1, j2⟩
        simp only [hc, and_self, if_true, Option.isSome_none, Bool.false_eq_true, if_false])]
    apply sum_map_congr
    intro x hx
    have := List.mem_range.mp hx
    have hc : ¬ (g.vertices_size ≤ x ∧ x < size) := by omega
    simp only [hc, if_false]
  · have hlt : i < g.vertices_size := by omega
    cases hv : g.vertices i with
    | none =>
      have e1 : add_vertex g i =
          { g with vertices := upd g.vertices i (some zero_vertex),
                   vertices_len := g.vertices_len + 1 } := by
        unfold add_vertex
        simp only [hgrow, if_false, hv]
      rw [e1]
      unfold slot_count
      simp only
      rw [count_after_store _ _ i zero_vertex hlt hv, h]
      rfl
    | some v =>
      rw [add_vertex_noop g i v hlt hv]
      exact h

theorem setv_count (g : newGraph_t) (i : Nat) (v0 v : newVertex_t)
    (h0 : g.vertices i = some v0) : slot_count (setv g i v) = slot_count g := by
  unfold slot_count setv
  simp only
  apply sum_map_congr
  intro x _
  by_cases c : x = i
  · subst c
    simp only [upd_same, h0, Option.isSome_some]
  · simp only [upd_other _ i x _ c]

theorem slot_vertices (g : newGraph_t) (i : Nat) (v : newVertex_t) (h : slot g i = some v) :
    g.vertices i = some v := by
  have hlt := slot_lt g i v h
  unfold slot at h
  rw [if_pos hlt] at h
  exact h

/-- The function `add_edge` never meets an invalid slot, and its result is the store of the
vertex of slot `a`, with the edge appended, into the graph after the two `add_vertex` calls. -/
theorem add_edge_eq (g : newGraph_t) (a b : Nat) (w : Int) :
    ∃ va sz, slot (add_vertex (add_vertex g a) b) a = some va ∧
      va.edges = out_edges g a ∧
      add_edge g a b w =
        some (setv (add_vertex (add_vertex g a) b) a
          { va with edges_size := sz, edges := va.edges ++ [{ vertex := b, weight := w }] }) := by
  have h1 : slot (add_vertex g a) a = some ((slot g a).getD zero_vertex) := by
    rw [slot_add_vertex, if_pos rfl]
  have h2 : slot (add_vertex (add_vertex g a) b) a = some ((slot g a).getD zero_vertex) := by
    rw [slot_add_vertex]
    by_cases c : a = b
    · rw [if_pos c, ← c, h1]
      rfl
    · rw [if_neg c, h1]
  refine ⟨(slot g a).getD zero_vertex,
    (if ((slot g a).getD zero_vertex).edges.length ≥ ((slot g a).getD zero_vertex).edges_size then
      (if ((slot g a).getD zero_vertex).edges_size ≠ 0 then
        ((slot g a).getD zero_vertex).edges_size * 2 else 4)
     else ((slot g a).getD zero_vertex).edges_size), h2, ?_, ?_⟩
  · unfold out_edges
    cases slot g a with
    | none => rfl
    | some v => rfl
  · unfold add_edge
    simp only [h2]

/-- Every graph state the driver can reach has `vertices_len` equal to the number of
non-`NULL` cells of the backing array. -/
theorem built_count (g : newGraph_t) (hb : Built g) : g.vertices_len = slot_count g := by
  induction hb with
  | empty => rfl
  | vertex g i _ ih => exact add_vertex_count g i ih
  | edge g g1 a b w _ he ih =>
    obtain ⟨va, sz, s1, _, e1⟩ := add_edge_eq g a b w
    rw [e1] at he
    rw [← Option.some.inj he, setv_len, setv_count _ a va _ (slot_vertices _ _ _ s1)]
    exact add_vertex_count _ b (add_vertex_count g a ih)
/-- Claim C11.  The function `add_vertex` is idempotent: a second call with the same id
returns the graph of the first call, equal in every field (slots, `vertices_size`,
`vertices_len`); and in every graph state the driver can reach, `vertices_len` is the number
of cells that hold a vertex, that is the number of distinct ids with a slot. -/
theorem add_vertex_idempotent :
    (∀ g i, add_vertex (add_vertex g i) i = add_vertex g i) ∧
    (∀ g, Built g → g.vertices_len = slot_count g) :=
  ⟨add_vertex_idem, built_count⟩

/-- Witness for C11: the graph after `add_vertex(g, 3)` on the zeroed graph. -/
theorem add_vertex_idempotent_witness :
    add_vertex (add_vertex empty_graph 3) 3 = add_vertex empty_graph 3 ∧
    Built (add_vertex empty_graph 3) ∧
    (add_vertex empty_graph 3).vertices_len = slot_count (add_vertex empty_graph 3) :=
  ⟨add_vertex_idempotent.1 empty_graph 3, Built.vertex _ 3 Built.empty,
    add_vertex_idempotent.2 (add_vertex empty_graph 3) (Built.vertex _ 3 Built.empty)⟩

theorem out_edges_none (g : newGraph_t) (i : Nat) (h : slot g i = none) : out_edges g i = [] := by
  unfold out_edges
  rw [h]

/-- What one `add_edge` call does: it returns, slots `a` and `b` exist, the edge is appended
to the out-edges of `a`, and every other slot that existed is unchanged. -/
theorem add_edge_effect (g : newGraph_t) (a b : Nat) (w : Int) :
    ∃ g1, add_edge g a b w = some g1 ∧ (slot g1 a).isSome = true ∧ (slot g1 b).isSome = true ∧
      out_edges g1 a = out_edges g a ++ [{ vertex := b, weight := w }] ∧
      (∀ j v, j ≠ a → slot g j = some v → slot g1 j = some v) ∧
      (∀ j, j ≠ a → out_edges g1 j = out_edges g j) := by
  obtain ⟨va, sz, s1, ev, e1⟩ := add_edge_eq g a b w
  have hlt := slot_lt _ _ _ s1
  have hother : ∀ j, j ≠ a →
      slot (setv (add_vertex (add_vertex g a) b) a
        { va with edges_size := sz, edges := va.edges ++ [{ vertex := b, weight := w }] }) j =
      if j = b then some ((slot g b).getD zero_vertex) else slot g j := by
    intro j hj
    rw [slot_setv_other _ _ _ _ hj, slot_add_vertex]
    by_cases c : j = b
    · rw [if_pos c, if_pos c, slot_add_vertex, if_neg (by rw [← c]; exact hj)]
    · rw [if_neg c, if_neg c, slot_add_vertex, if_neg hj]
  refine ⟨_, e1, ?_, ?_, ?_, ?_, ?_⟩
  · rw [slot_setv_same _ _ _ hlt]
    rfl
  · by_cases c : b = a
    · subst c
      rw [slot_setv_same _ _ _ hlt]
      rfl
    · rw [hother b c, if_pos rfl]
      rfl
  · rw [out_edges_slot _ _ _ (slot_setv_same _ _ _ hlt)]
    simp only
    rw [ev]
  · intro j v hj hs
    rw [hother j hj]
    by_cases c : j = b
    · rw [if_pos c, ← c, hs]
      rfl
    · rw [if_neg c, hs]
  · intro j hj
    unfold out_edges
    rw [hother j hj]
    by_cases c : j = b
    · rw [if_pos c, ← c]
      cases slot g j with
      | none => rfl
      | some v => rfl
    · rw [if_neg c]

theorem edges_from_cons (e : host_edge) (es : List host_edge) (i : Nat) :
    edges_from (e :: es) i =
      (if e.id1 = i then [{ vertex := e.id2, weight := e.weight }] else []) ++
        edges_from es i := by
  unfold edges_from
  by_cases c : e.id1 = i
  · simp [List.filter_cons, c]
  · simp [List.filter_cons, c]

/-- A list of `add_edge` calls returns, and it appends to the out-edges of every vertex the
calls that leave it, in order. -/
theorem add_edges_effect : ∀ (es : List host_edge) (g0 : newGraph_t),
    ∃ g, add_edges es g0 = some g ∧ ∀ i, out_edges g i = out_edges g0 i ++ edges_from es i := by
  intro es
  induction es with
  | nil =>
    intro g0
    exact ⟨g0, rfl, fun i => by simp [edges_from]⟩
  | cons e es ih =>
    intro g0
    obtain ⟨g1, e1, _, _, h3, _, h5⟩ := add_edge_effect g0 e.id1 e.id2 e.weight
    obtain ⟨g, e2, h6⟩ := ih g1
    refine ⟨g, ?_, ?_⟩
    · simp only [add_edges, e1]
      exact e2
    · intro i
      rw [h6 i, edges_from_cons]
      by_cases c : e.id1 = i
      · rw [if_pos c, ← c, h3, List.append_assoc]
      · rw [if_neg c, h5 i (Ne.symm c), List.nil_append]

/-- Claim C12.  For every graph state and every `a`, `b`, `w`: `add_edge(g, a, b, w)` returns
a graph in which slots `a` and `b` exist, the out-edge list of `a` is its previous list with
`(b, w)` appended at the end, and every other slot that existed holds the same vertex record
(so its out-edge list is unchanged; the out-edge list of every other id is unchanged).  Hence
the graph built from the zeroed graph by a list of `add_edge` calls gives every vertex exactly
the calls that leave it, in insertion order. -/
theorem add_edge_appends :
    (∀ (g : newGraph_t) (a b : Nat) (w : Int),
      ∃ g1, add_edge g a b w = some g1 ∧ (slot g1 a).isSome = true ∧
        (slot g1 b).isSome = true ∧
        out_edges g1 a = out_edges g a ++ [{ vertex := b, weight := w }] ∧
        (∀ j v, j ≠ a → slot g j = some v → slot g1 j = some v) ∧
        (∀ j, j ≠ a → out_edges g1 j = out_edges g j)) ∧
    (∀ es : List host_edge,
      ∃ g, add_edges es empty_graph = some g ∧ ∀ i, out_edges g i = edges_from es i) := by
  refine ⟨add_edge_effect, ?_⟩
  intro es
  obtain ⟨g, e1, h⟩ := add_edges_effect es empty_graph
  refine ⟨g, e1, ?_⟩
  intro i
  rw [h i]
  rfl
/-- Witness for C12: one more edge `2 → 1 (7)` on the graph of `loop_edges`. -/
theorem add_edge_appends_witness :
    ∃ g1, add_edge (graph_of loop_edges) 2 1 7 = some g1 ∧
      out_edges g1 2 = out_edges (graph_of loop_edges) 2 ++ [{ vertex := 1, weight := 7 }] ∧
      slot g1 1 = slot (graph_of loop_edges) 1 := by
  obtain ⟨g1, h1, _, _, h4, h5, _⟩ := add_edge_appends.1 (graph_of loop_edges) 2 1 7
  refine ⟨g1, h1, h4, ?_⟩
  cases hs : slot (graph_of loop_edges) 1 with
  | none => exact absurd hs (by decide)
  | some v => exact h5 1 v (by decide) hs

/-! ## Where the sift-up loop stops -/

theorem sift_up_final (p : Int) (h0 : heap_t) (s fuel : Nat) (hf : s ≤ fuel) :
    ∃ k, (sift_up p fuel h0 s).2 = s / 2 ^ k ∧
      (∀ j, 1 ≤ j → j ≤ k → p ≤ h0.prio (s / 2 ^ j)) ∧
      ((sift_up p fuel h0 s).2 ≤ 1 ∨ h0.prio ((sift_up p fuel h0 s).2 / 2) < p) := by
  have hk := sift_up_keeps p
    (fun h1 i1 => (∃ k, i1 = s / 2 ^ k ∧ ∀ j, 1 ≤ j → j ≤ k → p ≤ h0.prio (s / 2 ^ j)) ∧
      (∀ m, m < i1 → h1.prio m = h0.prio m))
    (fun h1 i1 c1 c2 hP => by
      obtain ⟨⟨k, k1, k2⟩, hu⟩ := hP
      have e1 : i1 / 2 = s / 2 ^ (k + 1) := by
        rw [k1, Nat.pow_succ, Nat.div_div_eq_div_mul]
      refine ⟨⟨k + 1, e1, ?_⟩, ?_⟩
      · intro j j1 j2
        by_cases c : j ≤ k
        · exact k2 j j1 c
        · have : j = k + 1 := by omega
          rw [this, ← e1, ← hu (i1 / 2) (by omega)]
          exact not_lt.mp c2
      · intro m hm
        simp only [move_slot_prio]
        rw [upd_other _ i1 m _ (by omega)]
        exact hu m (by omega))
    fuel h0 s ⟨⟨0, by simp, fun j j1 j2 => by omega⟩, fun _ _ => rfl⟩
  have hx := sift_up_exit p fuel h0 s hf
  generalize sift_up p fuel h0 s = r at hk hx
  obtain ⟨⟨k, k1, k2⟩, hu⟩ := hk
  refine ⟨k, k1, k2, ?_⟩
  rcases hx with e | e
  · exact Or.inl e
  · by_cases c : r.2 ≤ 1
    · exact Or.inl c
    · right
      rw [← hu (r.2 / 2) (by omega)]
      exact e

theorem push_heap_stores (h : heap_t) (v : Nat) (p : Int) :
    (push_heap h v p).index v =
      (sift_up p (start_slot h v)
        (if h.index v = 0 then { h with len := h.len + 1 } else h) (start_slot h v)).2 ∧
    (push_heap h v p).data ((push_heap h v p).index v) = v ∧
    (push_heap h v p).prio ((push_heap h v p).index v) = p := by
  rw [push_heap_eq]
  simp only [store_slot_index, store_slot_data, store_slot_prio, upd_same]
  exact ⟨rfl, trivial, trivial⟩

/-- Counterexample for C15: on the heap holding `(1, 5)` at slot 1, `push_heap(h, 2, 5)` starts
at slot 2, whose parent has priority equal to `p = 5`, and stores `(2, 5)` at slot 1, above
that parent. -/
theorem push_heap_passes_equal_parent :
    ¬ (∀ (h : heap_t) (v : Nat) (p : Int), h.index v = 0 → 1 ≤ h.len →
        h.prio ((h.len + 1) / 2) = p → (push_heap h v p).index v = h.len + 1) := by
  intro hall
  have h1 := hall (push_heap (create_heap 3) 1 5) 2 5 (by decide) (by decide) (by decide)
  revert h1
  decide

/-- Claim C15, amended.  In `push_heap(h, v, p)` the sift-up stops at the first slot whose
parent's priority is strictly less than `p`, or at slot 1: the slot at which `(v, p)` is
finally stored is the starting slot halved `k` times, every ancestor passed on the way has a
priority greater than or equal to `p`, and the parent of the final slot (if the final slot is
not the root) has a priority strictly less than `p`.  An entry whose parent has a priority
equal to `p` is therefore moved above that parent. -/
theorem push_heap_final_slot (h : heap_t) (v : Nat) (p : Int) :
    ∃ k, (push_heap h v p).index v = start_slot h v / 2 ^ k ∧
      (∀ j, 1 ≤ j → j ≤ k → p ≤ h.prio (start_slot h v / 2 ^ j)) ∧
      ((push_heap h v p).index v ≤ 1 ∨ h.prio ((push_heap h v p).index v / 2) < p) ∧
      (push_heap h v p).data ((push_heap h v p).index v) = v ∧
      (push_heap h v p).prio ((push_heap h v p).index v) = p := by
  obtain ⟨e1, e2, e3⟩ := push_heap_stores h v p
  have hprio : (if h.index v = 0 then { h with len := h.len + 1 } else h).prio = h.prio := by
    by_cases c : h.index v = 0
    · rw [if_pos c]
    · rw [if_neg c]
  obtain ⟨k, k1, k2, k3⟩ := sift_up_final p
    (if h.index v = 0 then { h with len := h.len + 1 } else h) (start_slot h v)
    (start_slot h v) (le_refl _)
  rw [hprio] at k2 k3
  rw [← e1] at k1 k3
  exact ⟨k, k1, k2, k3, e2, e3⟩

/-- Witness for the amended C15: the push of `(2, 5)` on the heap holding `(1, 5)`; the slot
of the new entry is the root. -/
theorem push_heap_final_slot_witness :
    (push_heap (push_heap (create_heap 3) 1 5) 2 5).index 2 = 1 ∧
    ∃ k, (push_heap (push_heap (create_heap 3) 1 5) 2 5).index 2 =
        start_slot (push_heap (create_heap 3) 1 5) 2 / 2 ^ k ∧
      (∀ j, 1 ≤ j → j ≤ k →
        (5 : Int) ≤ (push_heap (create_heap 3) 1 5).prio
          (start_slot (push_heap (create_heap 3) 1 5) 2 / 2 ^ j)) :=
  ⟨by decide,
    (push_heap_final_slot (push_heap (create_heap 3) 1 5) 2 5).imp
      (fun _ hk => ⟨hk.1, hk.2.1⟩)⟩

/-! ## Non-contiguous ids and the staging buffers -/

/-- Failing input for C16: the host edge `1 → 3 (1)`.  The transient graph has the slots 1 and
3 and `vertices_len = 2`; the initialisation loop `for (i = 1; i <= g->vertices_len; i++)`
dereferences `g->vertices[2]`, which is `NULL`, so `dijkstra` stops there for every source
and target, and slot 3 is never reset. -/
theorem dijkstra_sparse_ids (fuel : Nat) :
    (slot (graph_of sparse_edges) 1).isSome = true ∧
    (slot (graph_of sparse_edges) 3).isSome = true ∧
    slot (graph_of sparse_edges) 2 = none ∧
    (graph_of sparse_edges).vertices_len = 2 ∧
    init_vertices (graph_of sparse_edges).vertices_len 1 (graph_of sparse_edges) = none ∧
    dijkstra fuel (graph_of sparse_edges) 1 3 = Run.crash := by
  refine ⟨by decide, by decide, by decide, by decide, rfl, rfl⟩

theorem stage_store_ok (st : stage_t) (e : host_edge) (h : st.count < SIZE) :
    ∃ st1, stage_store st e = some st1 ∧ st1.count = st.count ∧
      staged { st1 with count := st1.count + 1 } = staged st ++ [e] := by
  refine ⟨{ st with node1 := upd st.node1 st.count e.id1,
                    node2 := upd st.node2 st.count e.id2,
                    weight := upd st.weight st.count e.weight },
    by unfold stage_store; rw [if_pos h], rfl, ?_⟩
  unfold staged
  simp only
  rw [List.range_succ, List.map_append]
  have e1 : List.map (fun i => (⟨upd st.node1 st.count e.id1 i,
      upd st.node2 st.count e.id2 i, upd st.weight st.count e.weight i⟩ : host_edge))
        (List.range st.count) =
      List.map (fun i => (⟨st.node1 i, st.node2 i, st.weight i⟩ : host_edge))
        (List.range st.count) := by
    apply List.map_congr_left
    intro i hi
    have := List.mem_range.mp hi
    rw [upd_other _ st.count i _ (by omega), upd_other _ st.count i _ (by omega),
      upd_other _ st.count i _ (by omega)]
  rw [e1]
  simp only [List.map_cons, List.map_nil, upd_same]

/-- With at least one edge and no more than the buffers can take, the staging loop returns
with all edges but the last in the buffers, in order, and stops at the last edge. -/
theorem stage_loop_ok : ∀ (es : List host_edge) (st : stage_t), es ≠ [] →
    st.count + es.length ≤ SIZE →
    ∃ st1 e, stage_loop es st = some (st1, e) ∧ staged st1 ++ [e] = staged st ++ es ∧
      st1.count + 1 = st.count + es.length := by
  intro es
  induction es with
  | nil => intro st h; exact absurd rfl h
  | cons e es ih =>
    intro st _ hl
    cases es with
    | nil => exact ⟨st, e, rfl, rfl, rfl⟩
    | cons e2 es2 =>
      simp only [List.length_cons] at hl
      obtain ⟨st1, s1, s2, s3⟩ := stage_store_ok st e (by omega)
      obtain ⟨st2, e3, r1, r2, r3⟩ := ih { st1 with count := st1.count + 1 } (by simp)
        (by simp only [List.length_cons]; omega)
      refine ⟨st2, e3, ?_, ?_, ?_⟩
      · simp only [stage_loop, s1]
        exact r1
      · rw [r2, s3, List.append_assoc]
        rfl
      · simp only [List.length_cons] at r3 ⊢
        omega

/-- With between 1 and `SIZE` host edges, the `add_edge` calls of the driver are the host
edges, each once, in host order. -/
theorem cli_stage_ok (es : List host_edge) (h1 : 1 ≤ es.length) (h2 : es.length ≤ SIZE) :
    cli_stage es = some es := by
  have hne : es ≠ [] := by
    intro e
    rw [e] at h1
    simp at h1
  obtain ⟨st1, e, r1, r2, r3⟩ := stage_loop_ok es
    { node1 := fun _ => 0, node2 := fun _ => 0, weight := fun _ => 0, count := 0 } hne
    (by simp only; omega)
  simp only [Nat.zero_add] at r3
  obtain ⟨st2, s1, s2, s3⟩ := stage_store_ok st1 e (by omega)
  unfold cli_stage
  simp only [r1, s1]
  have : staged { st2 with count := st2.count + 1 } = es := by
    rw [s3, r2]
    rfl
  exact congrArg some this

/-- Failing inputs for C17: with 21 host edges the store `node1[20] = ...` falls past the 20
cells of the buffers, and with no host edge the loop test reads `edge->next` through the
`NULL` pointer `current->e`; in both cases the run is an invalid access before any `add_edge`
call, where the claim says the calls are exactly the host edges. -/
theorem cli_stage_invalid :
    cli_stage (List.replicate 21 ⟨1, 2, 1⟩) = none ∧ cli_stage [] = none := by
  refine ⟨by decide, by decide⟩
/-! ## The logged run and the run -/

theorem relax_log_nil (c : Nat) (s : (newGraph_t × heap_t) × List event) :
    relax_log c [] s = some s := rfl

theorem relax_log_cons (c : Nat) (e : newEdge_t) (es : List newEdge_t)
    (s : (newGraph_t × heap_t) × List event)
    (v u : newVertex_t) (hv : slot s.1.1 c = some v) (hu : slot s.1.1 e.vertex = some u) :
    relax_log c (e :: es) s =
      if u.visited = 0 then
        if wrap32 (v.dist + e.weight) ≤ u.dist then
          relax_log c es
            ((setv s.1.1 e.vertex { u with prev := c, dist := wrap32 (v.dist + e.weight) },
              push_heap s.1.2 e.vertex (wrap32 (v.dist + e.weight))),
             event.push e.vertex (push_heap s.1.2 e.vertex (wrap32 (v.dist + e.weight))).len ::
               event.sum v.dist e.weight :: s.2)
        else relax_log c es (s.1, event.sum v.dist e.weight :: s.2)
      else relax_log c es s := by
  simp only [relax_log, hv, hu]

/-- Dropping the log of `relax_log` gives `relax`. -/
theorem relax_log_forget (c : Nat) : ∀ (es : List newEdge_t)
    (s : (newGraph_t × heap_t) × List event),
    (relax_log c es s).map Prod.fst = relax c es s.1 := by
  intro es
  induction es with
  | nil => intro s; rfl
  | cons e es ih =>
    intro s
    cases hv : slot s.1.1 c with
    | none => simp only [relax_log, relax, hv, Option.map_none']
    | some v =>
      cases hu : slot s.1.1 e.vertex with
      | none => simp only [relax_log, relax, hv, hu, Option.map_none']
      | some u =>
        rw [relax_log_cons c e es s v u hv hu, relax_cons c e es s.1 v u hv hu]
        by_cases c1 : u.visited = 0
        · by_cases c2 : wrap32 (v.dist + e.weight) ≤ u.dist
          · rw [if_pos c1, if_pos c2, if_pos ⟨c1, c2⟩, ih]
          · rw [if_pos c1, if_neg c2, if_neg (fun h => c2 h.2), ih]
        · rw [if_neg c1, if_neg (fun h => c1 h.1), ih]

theorem dijkstra_loop_log_succ (b fuel : Nat) (s : (newGraph_t × heap_t) × List event) :
    dijkstra_loop_log b (fuel + 1) s =
      if s.1.2.len = 0 then Run.done s
      else
        if (pop_heap s.1.2).1 = b then
          Run.done ((s.1.1, (pop_heap s.1.2).2),
            event.pop (pop_heap s.1.2).1 (pop_heap s.1.2).2.len :: s.2)
        else
          match slot s.1.1 (pop_heap s.1.2).1 with
          | none => Run.crash
          | some v =>
            match relax_log (pop_heap s.1.2).1 v.edges
                ((setv s.1.1 (pop_heap s.1.2).1 { v with visited := 1 }, (pop_heap s.1.2).2),
                  event.pop (pop_heap s.1.2).1 (pop_heap s.1.2).2.len :: s.2) with
            | none => Run.crash
            | some s2 => dijkstra_loop_log b fuel s2 := rfl

/-- Dropping the log of `dijkstra_loop_log` gives `dijkstra_loop`. -/
theorem dijkstra_loop_log_forget (b : Nat) : ∀ (fuel : Nat)
    (s : (newGraph_t × heap_t) × List event),
    forget (dijkstra_loop_log b fuel s) = dijkstra_loop b fuel s.1 := by
  intro fuel
  induction fuel with
  | zero =>
    intro s
    by_cases c : s.1.2.len = 0
    · simp only [dijkstra_loop_log, dijkstra_loop, c, if_true, forget]
    · simp only [dijkstra_loop_log, dijkstra_loop, c, if_false, forget]
  | succ f ih =>
    intro s
    rw [dijkstra_loop_log_succ, dijkstra_loop_succ]
    by_cases c : s.1.2.len = 0
    · rw [if_pos c, if_pos c]
      rfl
    · rw [if_neg c, if_neg c]
      by_cases c2 : (pop_heap s.1.2).1 = b
      · rw [if_pos c2, if_pos c2]
        rfl
      · rw [if_neg c2, if_neg c2]
        cases hv : slot s.1.1 (pop_heap s.1.2).1 with
        | none => rfl
        | some v =>
          simp only
          have hr := relax_log_forget (pop_heap s.1.2).1 v.edges
            ((setv s.1.1 (pop_heap s.1.2).1 { v with visited := 1 }, (pop_heap s.1.2).2),
              event.pop (pop_heap s.1.2).1 (pop_heap s.1.2).2.len :: s.2)
          cases hl : relax_log (pop_heap s.1.2).1 v.edges
            ((setv s.1.1 (pop_heap s.1.2).1 { v with visited := 1 }, (pop_heap s.1.2).2),
              event.pop (pop_heap s.1.2).1 (pop_heap s.1.2).2.len :: s.2) with
          | none =>
            rw [hl] at hr
            simp only [Option.map_none'] at hr
            simp only [← hr]
            rfl
          | some s2 =>
            rw [hl] at hr
            simp only [Option.map_some'] at hr
            simp only [← hr]
            exact ih s2

/-- Dropping the log of `dijkstra_log` gives `dijkstra`. -/
theorem dijkstra_log_forget (fuel : Nat) (g : newGraph_t) (a b : Nat) :
    forget (dijkstra_log fuel g a b) = dijkstra fuel g a b := by
  unfold dijkstra_log dijkstra
  cases init_vertices g.vertices_len 1 g with
  | none => rfl
  | some g1 =>
    simp only
    cases slot g1 a with
    | none => rfl
    | some v =>
      simp only
      exact dijkstra_loop_log_forget b fuel _
/-! ## The invariant for arbitrary weights -/

/-- A heap with the bijection whose vertices lie in `1 .. N` holds at most `N` entries. -/
theorem heap_len_le (h : heap_t) (N : Nat) (hb : heap_bij h)
    (hin : ∀ e ∈ entries h, 1 ≤ e.1 ∧ e.1 ≤ N) : h.len ≤ N := by
  have hnd : ((Multiset.range h.len).map (fun k => h.data (k + 1))).Nodup := by
    apply Multiset.Nodup.map_on
    · intro x hx y hy e
      have hx2 := Multiset.mem_range.mp hx
      have hy2 := Multiset.mem_range.mp hy
      have e2 := hb (x + 1) (by omega) (by omega)
      rw [e, hb (y + 1) (by omega) (by omega)] at e2
      omega
    · exact Multiset.nodup_range h.len
  have hsub : (Multiset.range h.len).map (fun k => h.data (k + 1)) ⊆
      ((List.range' 1 N : List Nat) : Multiset Nat) := by
    intro z hz
    obtain ⟨k, hk, rfl⟩ := Multiset.mem_map.mp hz
    have hk2 := Multiset.mem_range.mp hk
    have hm : (h.data (k + 1), h.prio (k + 1)) ∈ entries h :=
      (mem_entries h _).mpr ⟨k + 1, by omega, by omega, rfl⟩
    have := hin _ hm
    exact Multiset.mem_coe.mpr ((mem_range1 N _).mpr this)
  have hle := Multiset.card_le_card ((Multiset.le_iff_subset hnd).mpr hsub)
  rw [Multiset.card_map, Multiset.card_range, Multiset.coe_card, List.length_range'] at hle
  exact hle

/-- The heap after `push_heap h x d`, when `x` is either fresh (`index[x] = 0`) or in the
heap: it is well formed, it holds `(x, d)`, every entry is `(x, d)` or an old entry of
another vertex, and the old entries of other vertices stay. -/
theorem push_heap_members (h : heap_t) (x : Nat) (d : Int) (hwf : heap_wf h)
    (hc : h.index x = 0 ∨ ∃ q, (x, q) ∈ entries h) :
    heap_wf (push_heap h x d) ∧
    (x, d) ∈ entries (push_heap h x d) ∧
    (∀ e ∈ entries (push_heap h x d), e = (x, d) ∨ (e ∈ entries h ∧ e.1 ≠ x)) ∧
    (∀ e ∈ entries h, e.1 ≠ x → e ∈ entries (push_heap h x d)) ∧
    h.index x ≤ h.len := by
  refine ⟨push_heap_wf h x d hwf, ?_⟩
  rcases hc with ha | ⟨q, hq⟩
  · have he := (push_heap_entries_absent h x d ha).2
    refine ⟨?_, ?_, ?_, by omega⟩
    · rw [he]
      exact Multiset.mem_cons_self _ _
    · intro e hm
      rw [he] at hm
      rcases Multiset.mem_cons.mp hm with e1 | e1
      · exact Or.inl e1
      · right
        refine ⟨e1, ?_⟩
        intro ex
        have : (x, e.2) ∈ entries h := by
          rw [← ex]
          exact e1
        have := (entries_slot h hwf.1 x e.2 this).1
        omega
    · intro e hm _
      rw [he]
      exact Multiset.mem_cons_of_mem hm
  · obtain ⟨s1, s2, s3, s4⟩ := entries_slot h hwf.1 x q hq
    have he := (push_heap_entries_present h x d (by omega) s2).2
    rw [s3, s4] at he
    refine ⟨?_, ?_, ?_, s2⟩
    · rw [he]
      exact Multiset.mem_cons_self _ _
    · intro e hm
      rw [he] at hm
      rcases Multiset.mem_cons.mp hm with e1 | e1
      · exact Or.inl e1
      · right
        have e2 := (Multiset.Nodup.mem_erase_iff (entries_nodup h hwf.1)).mp e1
        refine ⟨e2.2, ?_⟩
        intro ex
        have hm2 : (x, e.2) ∈ entries h := by
          rw [← ex]
          exact e2.2
        have := entries_key_unique h hwf.1 x e.2 q hm2 hq
        apply e2.1
        rw [← this, ← ex]
    · intro e hm hx
      rw [he]
      apply Multiset.mem_cons_of_mem
      apply (Multiset.mem_erase_of_ne ?_).mpr hm
      intro e1
      rw [e1] at hx
      exact hx rfl

theorem prev_of_slot (g : newGraph_t) (i : Nat) (v : newVertex_t) (h : slot g i = some v) :
    prev_of g i = v.prev := by
  unfold prev_of
  rw [h]

theorem prev_of_setv_other (g : newGraph_t) (i j : Nat) (v : newVertex_t) (h : j ≠ i) :
    prev_of (setv g i v) j = prev_of g j := by
  unfold prev_of
  rw [slot_setv_other g i j v h]

/-- A `prev` path only depends on the `prev` links of its entries. -/
theorem prev_path_congr (g g1 : newGraph_t) (a : Nat) :
    ∀ l : List Nat, (∀ z ∈ l, prev_of g1 z = prev_of g z) → prev_path g a l →
      prev_path g1 a l := by
  intro l
  induction l with
  | nil => intro _ h; exact h
  | cons x xs ih =>
    intro hz hp
    cases xs with
    | nil => exact hp
    | cons y ys =>
      refine ⟨?_, ih (fun z hz2 => hz z (List.mem_cons_of_mem x hz2)) hp.2⟩
      rw [hz x (List.mem_cons_self x _)]
      exact hp.1

theorem popped_sum (d w : Int) (tr : List event) : popped (event.sum d w :: tr) = popped tr :=
  rfl

theorem popped_push (v n : Nat) (tr : List event) : popped (event.push v n :: tr) = popped tr :=
  rfl

theorem popped_pop (v n : Nat) (tr : List event) :
    popped (event.pop v n :: tr) = v :: popped tr := rfl

/-- Logging a sum keeps the invariant. -/
theorem struct_sum_step (g0 : newGraph_t) (N a b : Nat) (s : newGraph_t × heap_t)
    (tr : List event) (d w : Int) (inv : dj_struct g0 N a b s tr) :
    dj_struct g0 N a b s (event.sum d w :: tr) :=
  { valid := inv.valid, hwf := inv.hwf, hin := inv.hin, hidx := inv.hidx, hprev := inv.hprev,
    touched := inv.touched, chain := inv.chain, tgt := inv.tgt, lpop := inv.lpop,
    lcount := inv.lcount, lok := inv.lok }
/-- A relaxation that stores `prev = c` and a new distance into the unvisited vertex `x` and
pushes `x` keeps the invariant, whatever the distance is. -/
theorem struct_relax_step (g0 : newGraph_t) (N a b : Nat) (s : newGraph_t × heap_t)
    (tr : List event) (inv : dj_struct g0 N a b s tr) (c : Nat) (c1 : 1 ≤ c) (cN : c ≤ N)
    (cv : visited_of s.1 c ≠ 0) (x : Nat) (x1 : 1 ≤ x) (xN : x ≤ N) (u : newVertex_t)
    (hu : slot s.1 x = some u) (huv : u.visited = 0) (d : Int) :
    dj_struct g0 N a b (setv s.1 x { u with prev := c, dist := d }, push_heap s.2 x d)
      (event.push x (push_heap s.2 x d).len :: tr) := by
  have hxv : visited_of s.1 x = 0 := by rw [visited_of_slot _ _ _ hu]; exact huv
  have hlt := slot_lt _ _ _ hu
  have vsame : ∀ y, visited_of (setv s.1 x { u with prev := c, dist := d }) y =
      visited_of s.1 y := by
    intro y
    by_cases cy : y = x
    · rw [cy, visited_of_slot _ _ _ (slot_setv_same _ _ _ hlt), hxv]
      exact huv
    · exact visited_of_setv_other _ _ _ _ cy
  have pnew : prev_of (setv s.1 x { u with prev := c, dist := d }) x = c := by
    rw [prev_of_slot _ _ _ (slot_setv_same _ _ _ hlt)]
  have pold : ∀ y, y ≠ x → prev_of (setv s.1 x { u with prev := c, dist := d }) y =
      prev_of s.1 y := fun y hy => prev_of_setv_other _ _ _ _ hy
  have dold : ∀ y, y ≠ x → dist_of (setv s.1 x { u with prev := c, dist := d }) y =
      dist_of s.1 y := fun y hy => dist_of_setv_other _ _ _ _ hy
  have ucount : unvisited_count N (setv s.1 x { u with prev := c, dist := d }) =
      unvisited_count N s.1 := unvisited_count_congr N _ _ (fun i _ _ => vsame i)
  have hvis_ne : ∀ y, visited_of s.1 y ≠ 0 → y ≠ x := by
    intro y hy e
    rw [e] at hy
    exact hy hxv
  obtain ⟨p1, p3, p4, p5, p6⟩ := push_heap_members s.2 x d inv.hwf (inv.hidx x x1 xN hxv)
  have hin1 : ∀ e ∈ entries (push_heap s.2 x d), 1 ≤ e.1 ∧ e.1 ≤ N ∧
      visited_of (setv s.1 x { u with prev := c, dist := d }) e.1 = 0 := by
    intro e he
    rcases p4 e he with e1 | ⟨e1, _⟩
    · rw [e1]
      exact ⟨x1, xN, by rw [vsame]; exact hxv⟩
    · obtain ⟨q1, q2, q3⟩ := inv.hin e e1
      exact ⟨q1, q2, by rw [vsame]; exact q3⟩
  constructor
  · intro i i1 iN
    by_cases ci : i = x
    · obtain ⟨v0, sv0, ev0⟩ := inv.valid x x1 xN
      rw [hu] at sv0
      rw [ci]
      refine ⟨_, slot_setv_same _ _ _ hlt, ?_⟩
      simp only
      rw [Option.some.inj sv0]
      exact ev0
    · simp only
      rw [slot_setv_other _ _ _ _ ci]
      exact inv.valid i i1 iN
  · exact p1
  · exact hin1
  · intro y y1 yN yv
    simp only at yv ⊢
    rw [vsame] at yv
    by_cases cy : y = x
    · rw [cy]
      exact Or.inr ⟨d, p3⟩
    · rcases inv.hidx y y1 yN yv with h0 | ⟨q, hq⟩
      · left
        rw [push_heap_index_frame s.2 x d y cy ?_ p6]
        · exact h0
        · intro k k1 kl e1
          have := inv.hwf.1 k kl k1
          rw [e1, h0] at this
          omega
      · exact Or.inr ⟨q, p5 _ hq cy⟩
  · intro e he
    simp only at he ⊢
    rcases p4 e he with e1 | ⟨e1, e2⟩
    · right
      rw [e1]
      simp only
      rw [pnew, vsame]
      exact ⟨c1, cN, cv⟩
    · rcases inv.hprev e e1 with h0 | ⟨h1, h2, h3⟩
      · exact Or.inl h0
      · right
        rw [pold _ e2, vsame]
        exact ⟨h1, h2, h3⟩
  · intro y y1 yN yv ya yd
    simp only at yv yd ⊢
    rw [vsame] at yv
    by_cases cy : y = x
    · rw [cy, pnew, vsame]
      exact ⟨c1, cN, cv⟩
    · rw [dold y cy] at yd
      rw [pold y cy, vsame]
      exact inv.touched y y1 yN yv ya yd
  · intro y y1 yN yv
    simp only at yv ⊢
    rw [vsame] at yv
    obtain ⟨l, l1, l2, l3, l4⟩ := inv.chain y y1 yN yv
    refine ⟨l, ?_, l2, ?_, ?_⟩
    · apply prev_path_congr s.1 _ a (y :: l) _ l1
      intro z hz
      exact pold z (hvis_ne z (l3 z hz).2.2)
    · intro z hz
      rw [vsame]
      exact l3 z hz
    · rw [ucount]
      exact l4
  · simp only
    rw [vsame]
    exact inv.tgt
  · intro v hv
    simp only
    rw [popped_push] at hv
    rw [vsame]
    exact inv.lpop v hv
  · simp only
    rw [popped_push, ucount]
    exact inv.lcount
  · refine ⟨?_, ?_, inv.lok⟩
    · intro hm
      exact hvis_ne x (inv.lpop x hm).2.2 rfl
    · exact heap_len_le _ N p1.1 (fun e he => ⟨(hin1 e he).1, (hin1 e he).2.1⟩)

/-- What `pop_heap` returns under the invariant for arbitrary weights: an unvisited vertex of
`1 .. N` that was not popped before; the log stays within the heap discipline and holds at
most `N` pops. -/
theorem struct_pop (g0 : newGraph_t) (N a b : Nat) (s : newGraph_t × heap_t)
    (tr : List event) (inv : dj_struct g0 N a b s tr) (hne : s.2.len ≠ 0) :
    1 ≤ (pop_heap s.2).1 ∧ (pop_heap s.2).1 ≤ N ∧ visited_of s.1 (pop_heap s.2).1 = 0 ∧
    trace_ok N (event.pop (pop_heap s.2).1 (pop_heap s.2).2.len :: tr) ∧
    (popped (event.pop (pop_heap s.2).1 (pop_heap s.2).2.len :: tr)).length ≤ N := by
  have h1 : (s.2.data 1, s.2.prio 1) ∈ entries s.2 :=
    (mem_entries s.2 _).mpr ⟨1, le_refl _, by omega, rfl⟩
  obtain ⟨q1, q2, q3⟩ := inv.hin _ h1
  simp only at q1 q2 q3
  have hlen := heap_len_le s.2 N inv.hwf.1 (fun e he => ⟨(inv.hin e he).1, (inv.hin e he).2.1⟩)
  have hl2 := (pop_heap_entries s.2 hne).1
  have hpos := unvisited_count_pos N s.1 _ q1 q2 q3
  have hc := inv.lcount
  rw [pop_heap_fst]
  refine ⟨q1, q2, q3, ⟨?_, by omega, inv.lok⟩, ?_⟩
  · intro hm
    exact (inv.lpop _ hm).2.2 q3
  · rw [popped_pop, List.length_cons]
    omega

theorem struct_after_pop (g0 : newGraph_t) (N a b : Nat) (s : newGraph_t × heap_t)
    (tr : List event) (inv : dj_struct g0 N a b s tr) (hne : s.2.len ≠ 0)
    (hb : (pop_heap s.2).1 ≠ b) (v : newVertex_t) (hv : slot s.1 (pop_heap s.2).1 = some v) :
    dj_struct g0 N a b
      (setv s.1 (pop_heap s.2).1 { v with visited := 1 }, (pop_heap s.2).2)
      (event.pop (pop_heap s.2).1 (pop_heap s.2).2.len :: tr) ∧
    unvisited_count N (setv s.1 (pop_heap s.2).1 { v with visited := 1 }) + 1 =
      unvisited_count N s.1 := by
  obtain ⟨i1, iN, iv, hok, _⟩ := struct_pop g0 N a b s tr inv hne
  have hwf1 := pop_heap_wf s.2 inv.hwf hne
  have hframe := pop_heap_index_frame s.2
  have hE := (pop_heap_entries s.2 hne).2
  have hroot : (pop_heap s.2).1 = s.2.data 1 := pop_heap_fst s.2
  rw [← hroot] at hE
  generalize (pop_heap s.2).1 = i at *
  generalize (pop_heap s.2).2 = h1 at *
  have hlt := slot_lt _ _ _ hv
  have dsame : ∀ y, dist_of (setv s.1 i { v with visited := 1 }) y = dist_of s.1 y := by
    intro y
    by_cases cy : y = i
    · rw [cy, dist_of_slot _ _ _ (slot_setv_same _ _ _ hlt), dist_of_slot _ _ _ hv]
    · exact dist_of_setv_other _ _ _ _ cy
  have psame : ∀ y, prev_of (setv s.1 i { v with visited := 1 }) y = prev_of s.1 y := by
    intro y
    by_cases cy : y = i
    · rw [cy, prev_of_slot _ _ _ (slot_setv_same _ _ _ hlt), prev_of_slot _ _ _ hv]
    · exact prev_of_setv_other _ _ _ _ cy
  have vnew : visited_of (setv s.1 i { v with visited := 1 }) i = 1 := by
    rw [visited_of_slot _ _ _ (slot_setv_same _ _ _ hlt)]
  have vold : ∀ y, y ≠ i → visited_of (setv s.1 i { v with visited := 1 }) y =
      visited_of s.1 y := fun y hy => visited_of_setv_other _ _ _ _ hy
  have vmono : ∀ y, visited_of s.1 y ≠ 0 →
      visited_of (setv s.1 i { v with visited := 1 }) y ≠ 0 := by
    intro y hy
    by_cases cy : y = i
    · rw [cy, vnew]
      omega
    · rw [vold y cy]
      exact hy
  have hmark := (mark_visited g0 N s.1 (setv s.1 i { v with visited := 1 }) i i1 iN iv
    (by rw [vnew]; omega) vold).2
  have hnod := entries_nodup s.2 inv.hwf.1
  rw [hE] at hnod
  have hsub : ∀ e ∈ entries h1, e ∈ entries s.2 := by
    intro e he
    rw [hE]
    exact Multiset.mem_cons_of_mem he
  have hhead : (i, s.2.prio 1) ∈ entries s.2 := by
    rw [hE]
    exact Multiset.mem_cons_self _ _
  have hnotin : ∀ e ∈ entries h1, e.1 ≠ i := by
    intro e he ei
    have e2 := entries_key_unique s.2 inv.hwf.1 i e.2 (s.2.prio 1)
      (by rw [← ei]; exact hsub e he) hhead
    have e3 : e = (i, s.2.prio 1) := by
      rw [← ei, ← e2]
    rw [e3] at he
    exact (Multiset.nodup_cons.mp hnod).1 he
  have hcl := unvisited_count_le N s.1
  refine ⟨?_, hmark⟩
  constructor
  · intro k k1 kN
    by_cases ck : k = i
    · obtain ⟨v0, sv0, ev0⟩ := inv.valid i i1 iN
      rw [hv] at sv0
      rw [ck]
      refine ⟨_, slot_setv_same _ _ _ hlt, ?_⟩
      simp only
      rw [Option.some.inj sv0]
      exact ev0
    · simp only
      rw [slot_setv_other _ _ _ _ ck]
      exact inv.valid k k1 kN
  · exact hwf1
  · intro e he
    simp only
    obtain ⟨q1, q2, q3⟩ := inv.hin e (hsub e he)
    exact ⟨q1, q2, by rw [vold _ (hnotin e he)]; exact q3⟩
  · intro y y1 yN yv
    simp only at yv ⊢
    have hyi : y ≠ i := by
      intro e1
      rw [e1, vnew] at yv
      omega
    rw [vold y hyi] at yv
    rcases inv.hidx y y1 yN yv with h0 | ⟨q, hq⟩
    · left
      rw [hframe y hne ?_]
      · exact h0
      · intro k k1 kl e1
        have := inv.hwf.1 k kl k1
        rw [e1, h0] at this
        omega
    · right
      refine ⟨q, ?_⟩
      rw [hE] at hq
      rcases Multiset.mem_cons.mp hq with e1 | e1
      · exact absurd (congrArg Prod.fst e1) hyi
      · exact e1
  · intro e he
    simp only
    rcases inv.hprev e (hsub e he) with h0 | ⟨p1, p2, p3⟩
    · exact Or.inl h0
    · right
      rw [psame]
      exact ⟨p1, p2, vmono _ p3⟩
  · intro y y1 yN yv ya yd
    simp only at yv yd ⊢
    have hyi : y ≠ i := by
      intro e1
      rw [e1, vnew] at yv
      omega
    rw [vold y hyi] at yv
    rw [dsame] at yd
    rw [psame]
    obtain ⟨p1, p2, p3⟩ := inv.touched y y1 yN yv ya yd
    exact ⟨p1, p2, vmono _ p3⟩
  · intro y y1 yN yv
    simp only at yv ⊢
    by_cases cy : y = i
    · rw [cy]
      rcases inv.hprev _ hhead with h0 | ⟨p1, p2, p3⟩
      · simp only at h0
        refine ⟨[], h0, List.nodup_singleton i, ?_, ?_⟩
        · intro z hz
          rw [List.mem_singleton.mp hz]
          exact ⟨i1, iN, by rw [vnew]; omega⟩
        · simp only [List.length_nil]
          omega
      · simp only at p1 p2 p3
        obtain ⟨l, l1, l2, l3, l4⟩ := inv.chain _ p1 p2 p3
        refine ⟨prev_of s.1 i :: l, ⟨psame i, ?_⟩, ?_, ?_, ?_⟩
        · exact prev_path_congr s.1 _ a _ (fun z _ => psame z) l1
        · refine List.nodup_cons.mpr ⟨?_, l2⟩
          intro hm
          exact (l3 i hm).2.2 iv
        · intro z hz
          rcases List.mem_cons.mp hz with e1 | e1
          · rw [e1]
            exact ⟨i1, iN, by rw [vnew]; omega⟩
          · obtain ⟨z1, z2, z3⟩ := l3 z e1
            exact ⟨z1, z2, vmono z z3⟩
        · simp only [List.length_cons]
          omega
    · rw [vold y cy] at yv
      obtain ⟨l, l1, l2, l3, l4⟩ := inv.chain y y1 yN yv
      refine ⟨l, prev_path_congr s.1 _ a _ (fun z _ => psame z) l1, l2, ?_, by omega⟩
      intro z hz
      obtain ⟨z1, z2, z3⟩ := l3 z hz
      exact ⟨z1, z2, vmono z z3⟩
  · simp only
    rw [vold b (Ne.symm hb)]
    exact inv.tgt
  · intro w hw
    simp only
    rw [popped_pop] at hw
    rcases List.mem_cons.mp hw with e1 | e1
    · rw [e1]
      exact ⟨i1, iN, by rw [vnew]; omega⟩
    · obtain ⟨z1, z2, z3⟩ := inv.lpop w e1
      exact ⟨z1, z2, vmono w z3⟩
  · simp only
    rw [popped_pop, List.length_cons]
    have := inv.lcount
    omega
  · exact hok
/-! ## Predecessor consistency and the sums of the log -/

theorem prev_relax_step (g0 : newGraph_t) (N : Nat) (g : newGraph_t) (c : Nat)
    (c1 : 1 ≤ c) (cN : c ≤ N) (cv : visited_of g c ≠ 0) (e : newEdge_t)
    (he : e ∈ out_edges g0 c) (u : newVertex_t) (hu : slot g e.vertex = some u)
    (huv : u.visited = 0) (hp : dj_prev g0 N g) :
    dj_prev g0 N (setv g e.vertex { u with prev := c, dist := dist_of g c + e.weight }) := by
  have hxv : visited_of g e.vertex = 0 := by rw [visited_of_slot _ _ _ hu]; exact huv
  have hlt := slot_lt _ _ _ hu
  have hxc : c ≠ e.vertex := by
    intro e1
    rw [e1] at cv
    exact cv hxv
  generalize hd : dist_of g c + e.weight = d
  have vsame : ∀ y, visited_of (setv g e.vertex { u with prev := c, dist := d }) y =
      visited_of g y := by
    intro y
    by_cases cy : y = e.vertex
    · rw [cy, visited_of_slot _ _ _ (slot_setv_same _ _ _ hlt), hxv]
      exact huv
    · exact visited_of_setv_other _ _ _ _ cy
  intro y y1 yN yp
  by_cases cy : y = e.vertex
  · rw [cy, prev_of_slot _ _ _ (slot_setv_same _ _ _ hlt)]
    simp only
    refine ⟨c1, cN, by rw [vsame]; exact cv, e, he, rfl, ?_⟩
    rw [dist_of_setv_other _ _ _ _ hxc, dist_of_slot _ _ _ (slot_setv_same _ _ _ hlt)]
    exact hd
  · rw [prev_of_setv_other _ _ _ _ cy] at yp ⊢
    obtain ⟨p1, p2, p3, e1, h1, h2, h3⟩ := hp y y1 yN yp
    have hpx : prev_of g y ≠ e.vertex := by
      intro e2
      rw [e2] at p3
      exact p3 hxv
    refine ⟨p1, p2, by rw [vsame]; exact p3, e1, h1, h2, ?_⟩
    rw [dist_of_setv_other _ _ _ _ hpx, dist_of_setv_other _ _ _ _ cy]
    exact h3

theorem prev_after_mark (g0 : newGraph_t) (N : Nat) (g : newGraph_t) (i : Nat)
    (v : newVertex_t) (hv : slot g i = some v) (hp : dj_prev g0 N g) :
    dj_prev g0 N (setv g i { v with visited := 1 }) := by
  have hlt := slot_lt _ _ _ hv
  have dsame : ∀ y, dist_of (setv g i { v with visited := 1 }) y = dist_of g y := by
    intro y
    by_cases cy : y = i
    · rw [cy, dist_of_slot _ _ _ (slot_setv_same _ _ _ hlt), dist_of_slot _ _ _ hv]
    · exact dist_of_setv_other _ _ _ _ cy
  have psame : ∀ y, prev_of (setv g i { v with visited := 1 }) y = prev_of g y := by
    intro y
    by_cases cy : y = i
    · rw [cy, prev_of_slot _ _ _ (slot_setv_same _ _ _ hlt), prev_of_slot _ _ _ hv]
    · exact prev_of_setv_other _ _ _ _ cy
  have vmono : ∀ y, visited_of g y ≠ 0 → visited_of (setv g i { v with visited := 1 }) y ≠ 0 := by
    intro y hy
    by_cases cy : y = i
    · rw [cy, visited_of_slot _ _ _ (slot_setv_same _ _ _ hlt)]
      simp
    · rw [visited_of_setv_other _ _ _ _ cy]
      exact hy
  intro y y1 yN yp
  rw [psame] at yp ⊢
  obtain ⟨p1, p2, p3, e1, h1, h2, h3⟩ := hp y y1 yN yp
  refine ⟨p1, p2, vmono _ p3, e1, h1, h2, ?_⟩
  rw [dsame, dsame]
  exact h3

theorem sums_ok_sum (tr : List event) (d w : Int) (h : sums_ok tr) (h1 : d ≠ INT_MAX)
    (h2 : 0 ≤ d + w) (h3 : d + w ≤ INT_MAX) : sums_ok (event.sum d w :: tr) := by
  intro d1 w1 hm
  rcases List.mem_cons.mp hm with e1 | e1
  · injection e1 with e2 e3
    rw [e2, e3]
    exact ⟨h1, by omega, h3, wrap32_id _ h2 h3⟩
  · exact h d1 w1 e1

theorem sums_ok_push (tr : List event) (v n : Nat) (h : sums_ok tr) :
    sums_ok (event.push v n :: tr) := by
  intro d1 w1 hm
  rcases List.mem_cons.mp hm with e1 | e1
  · exact absurd e1 (by simp)
  · exact h d1 w1 e1

theorem sums_ok_pop (tr : List event) (v n : Nat) (h : sums_ok tr) :
    sums_ok (event.pop v n :: tr) := by
  intro d1 w1 hm
  rcases List.mem_cons.mp hm with e1 | e1
  · exact absurd e1 (by simp)
  · exact h d1 w1 e1

/-- The logged relaxation loop over edges of the visited vertex `c` returns and keeps the
invariant for arbitrary weights and the visited flags; under the weight hypotheses it also
keeps the weighted invariant, predecessor consistency, and the bound on the logged sums. -/
theorem relax_log_inv (g0 : newGraph_t) (N a b c : Nat) (hg : graph_ok g0 N)
    (c1 : 1 ≤ c) (cN : c ≤ N) :
    ∀ (es : List newEdge_t) (s : newGraph_t × heap_t) (tr : List event),
      dj_struct g0 N a b s tr → visited_of s.1 c ≠ 0 → (∀ e ∈ es, e ∈ out_edges g0 c) →
      (weights_nonneg g0 N → total_weight g0 N < INT_MAX →
        dj_inv g0 N a b c s ∧ dj_prev g0 N s.1 ∧ sums_ok tr) →
      ∃ s1 tr1, relax_log c es (s, tr) = some (s1, tr1) ∧ dj_struct g0 N a b s1 tr1 ∧
        (∀ y, visited_of s1.1 y = visited_of s.1 y) ∧
        (weights_nonneg g0 N → total_weight g0 N < INT_MAX →
          dj_inv g0 N a b c s1 ∧ dj_prev g0 N s1.1 ∧ sums_ok tr1) := by
  intro es
  induction es with
  | nil =>
    intro s tr inv _ _ hW
    exact ⟨s, tr, rfl, inv, fun _ => rfl, hW⟩
  | cons e es ih =>
    intro s tr inv cv hes hW
    have he : e ∈ out_edges g0 c := hes e (List.mem_cons_self e es)
    have hes2 : ∀ e1 ∈ es, e1 ∈ out_edges g0 c := fun e1 h1 => hes e1 (List.mem_cons_of_mem e h1)
    have hx := (hg.2 c cN c1).2 e he
    obtain ⟨v, sv, _⟩ := inv.valid c c1 cN
    obtain ⟨u, su, _⟩ := inv.valid e.vertex hx.1 hx.2
    have hvd : v.dist = dist_of s.1 c := (dist_of_slot _ _ _ sv).symm
    have hlt := slot_lt _ _ _ su
    rw [relax_log_cons c e es (s, tr) v u sv su]
    simp only
    have hbound : weights_nonneg g0 N → total_weight g0 N < INT_MAX →
        dist_of s.1 c ≠ INT_MAX ∧ 0 ≤ dist_of s.1 c + e.weight ∧
        dist_of s.1 c + e.weight ≤ INT_MAX := by
      intro hw ht
      obtain ⟨i1, _, _⟩ := hW hw ht
      obtain ⟨_, _, hd1, hd2⟩ := relax_sum_bound g0 N a b c s hw i1 (by omega) e he
      have hvw := visited_weight_le_total g0 N s.1 hw
      exact ⟨(i1.boundv c c1 cN cv).1, hd1, by omega⟩
    by_cases k1 : u.visited = 0
    · rw [if_pos k1]
      by_cases k2 : wrap32 (v.dist + e.weight) ≤ u.dist
      · rw [if_pos k2]
        have inv1 := struct_relax_step g0 N a b s _
          (struct_sum_step g0 N a b s tr v.dist e.weight inv) c c1 cN cv e.vertex hx.1 hx.2 u su
          k1 (wrap32 (v.dist + e.weight))
        have vsame : ∀ y, visited_of (setv s.1 e.vertex
            { u with prev := c, dist := wrap32 (v.dist + e.weight) }) y = visited_of s.1 y := by
          intro y
          by_cases cy : y = e.vertex
          · rw [cy, visited_of_slot _ _ _ (slot_setv_same _ _ _ hlt), visited_of_slot _ _ _ su]
          · exact visited_of_setv_other _ _ _ _ cy
        obtain ⟨s1, tr1, r1, r2, r3, r4⟩ := ih _ _ inv1 (by rw [vsame]; exact cv) hes2
          (fun hw ht => by
            obtain ⟨i1, i2, i3⟩ := hW hw ht
            obtain ⟨b1, b2, b3⟩ := hbound hw ht
            have hwrap : wrap32 (v.dist + e.weight) = dist_of s.1 c + e.weight := by
              rw [hvd]
              exact wrap32_id _ b2 b3
            rw [hwrap] at k2 ⊢
            refine ⟨relax_step_inv g0 N a b c s hg hw ht i1 (by omega) e he u su k1 k2,
              prev_relax_step g0 N s.1 c c1 cN cv e he u su k1 i2, ?_⟩
            apply sums_ok_push
            rw [hvd]
            exact sums_ok_sum tr _ _ i3 b1 b2 b3)
        exact ⟨s1, tr1, r1, r2, fun y => by rw [r3 y, vsame], r4⟩
      · rw [if_neg k2]
        obtain ⟨s1, tr1, r1, r2, r3, r4⟩ := ih s _
          (struct_sum_step g0 N a b s tr v.dist e.weight inv) cv hes2
          (fun hw ht => by
            obtain ⟨i1, i2, i3⟩ := hW hw ht
            obtain ⟨b1, b2, b3⟩ := hbound hw ht
            refine ⟨i1, i2, ?_⟩
            rw [hvd]
            exact sums_ok_sum tr _ _ i3 b1 b2 b3)
        exact ⟨s1, tr1, r1, r2, r3, r4⟩
    · rw [if_neg k1]
      exact ih s tr inv cv hes2 hW
/-! ## The logged main loop -/

/-- The logged main loop, started in a state with the invariant and with at least as much
fuel as there are unvisited vertices, returns, and the final facts hold of its result. -/
theorem dijkstra_loop_log_inv (g0 : newGraph_t) (N a b : Nat) (hg : graph_ok g0 N)
    (hb1 : 1 ≤ b) (hbN : b ≤ N) :
    ∀ (fuel : Nat) (st : (newGraph_t × heap_t) × List event),
      dj_struct g0 N a b st.1 st.2 →
      (weights_nonneg g0 N → total_weight g0 N < INT_MAX →
        dj_inv g0 N a b 0 st.1 ∧ dj_prev g0 N st.1.1 ∧ sums_ok st.2) →
      unvisited_count N st.1.1 ≤ fuel →
      ∃ r, dijkstra_loop_log b fuel st = Run.done r ∧ dj_final g0 N a r.1.1 r.2 := by
  intro fuel
  induction fuel with
  | zero =>
    intro st inv _ hf
    have := unvisited_count_pos N st.1.1 b hb1 hbN inv.tgt
    omega
  | succ f ih =>
    intro st inv hW hf
    rw [dijkstra_loop_log_succ]
    by_cases hlen : st.1.2.len = 0
    · rw [if_pos hlen]
      have hc := inv.lcount
      exact ⟨st, rfl, ⟨inv.valid, inv.touched, inv.chain, inv.lok, by omega,
        fun hw ht => (hW hw ht).2⟩⟩
    · rw [if_neg hlen]
      obtain ⟨i1, iN, iv, hok, hcnt⟩ := struct_pop g0 N a b st.1 st.2 inv hlen
      by_cases hpop : (pop_heap st.1.2).1 = b
      · rw [if_pos hpop]
        exact ⟨_, rfl, ⟨inv.valid, inv.touched, inv.chain, hok, hcnt,
          fun hw ht => ⟨(hW hw ht).2.1, sums_ok_pop _ _ _ (hW hw ht).2.2⟩⟩⟩
      · rw [if_neg hpop]
        obtain ⟨v, sv, ev⟩ := inv.valid _ i1 iN
        have hlt := slot_lt _ _ _ sv
        obtain ⟨inv1, hcount⟩ := struct_after_pop g0 N a b st.1 st.2 inv hlen hpop v sv
        have cv : visited_of (setv st.1.1 (pop_heap st.1.2).1 { v with visited := 1 })
            (pop_heap st.1.2).1 ≠ 0 := by
          rw [visited_of_slot _ _ _ (slot_setv_same _ _ _ hlt)]
          simp
        have hedges : ∀ e ∈ v.edges, e ∈ out_edges g0 (pop_heap st.1.2).1 :=
          fun e he => by rw [← ev]; exact he
        obtain ⟨s1, tr1, r1, r2, r3, r4⟩ := relax_log_inv g0 N a b (pop_heap st.1.2).1 hg i1 iN
          v.edges (setv st.1.1 (pop_heap st.1.2).1 { v with visited := 1 }, (pop_heap st.1.2).2)
          (event.pop (pop_heap st.1.2).1 (pop_heap st.1.2).2.len :: st.2) inv1 cv hedges
          (fun hw ht =>
            ⟨(after_pop_inv g0 N a b st.1 hw ht (hW hw ht).1 hlen hpop v sv).1,
              prev_after_mark g0 N st.1.1 _ v sv (hW hw ht).2.1,
              sums_ok_pop _ _ _ (hW hw ht).2.2⟩)
        simp only [sv, r1]
        apply ih (s1, tr1) r2
        · intro hw ht
          obtain ⟨j1, j2, j3⟩ := r4 hw ht
          obtain ⟨s2, q1, _, _, _, _, q6⟩ := relax_inv g0 N a b (pop_heap st.1.2).1 hg hw ht
            (by omega) v.edges _
            (after_pop_inv g0 N a b st.1 hw ht (hW hw ht).1 hlen hpop v sv).1 hedges
          have hr : (relax_log (pop_heap st.1.2).1 v.edges
              ((setv st.1.1 (pop_heap st.1.2).1 { v with visited := 1 }, (pop_heap st.1.2).2),
                event.pop (pop_heap st.1.2).1 (pop_heap st.1.2).2.len :: st.2)).map Prod.fst =
              relax (pop_heap st.1.2).1 v.edges
                (setv st.1.1 (pop_heap st.1.2).1 { v with visited := 1 }, (pop_heap st.1.2).2) :=
            relax_log_forget _ _ _
          rw [r1, q1] at hr
          have hs : s1 = s2 := Option.some.inj hr
          refine ⟨close_inv g0 N a b _ s1 j1 ?_, j2, j3⟩
          intro e he
          rw [hs]
          exact q6 e (by rw [ev]; exact he)
        · have hc1 : unvisited_count N s1.1 =
              unvisited_count N (setv st.1.1 (pop_heap st.1.2).1 { v with visited := 1 }) :=
            unvisited_count_congr N (setv st.1.1 (pop_heap st.1.2).1 { v with visited := 1 })
              s1.1 (fun i _ _ => r3 i)
          show unvisited_count N s1.1 ≤ f
          omega

/-- The state `dijkstra_log` hands to its main loop. -/
theorem dijkstra_log_start (fuel : Nat) (g : newGraph_t) (N a b : Nat) (hg : graph_ok g N)
    (ha1 : 1 ≤ a) (haN : a ≤ N) :
    ∃ g2, dijkstra_log fuel g a b =
        dijkstra_loop_log b fuel ((g2, push_heap (create_heap N) a 0),
          [event.push a (push_heap (create_heap N) a 0).len]) ∧
      (∀ k, 1 ≤ k → k ≤ N → ∃ v, slot g k = some v ∧
        slot g2 k = some { v with dist := if k = a then 0 else INT_MAX, prev := 0,
                                  visited := 0 }) := by
  obtain ⟨g1, e1, e2, e3, _, e5⟩ := init_vertices_spec N 1 g
    (fun k k1 k2 => (hg.2 k (by omega) k1).1)
  obtain ⟨va, sa, sa1⟩ := e5 a ha1 (by omega)
  have hlt : a < g1.vertices_size := slot_lt g1 a _ sa1
  refine ⟨setv g1 a { { va with dist := INT_MAX, prev := 0, visited := 0 } with dist := 0 },
    ?_, ?_⟩
  · unfold dijkstra_log
    rw [hg.1, e1]
    simp only [sa1]
    rw [e3, hg.1]
  · intro k k1 kN
    by_cases c : k = a
    · rw [c]
      refine ⟨va, sa, ?_⟩
      rw [slot_setv_same _ _ _ hlt, if_pos rfl]
    · obtain ⟨v, s1, s2⟩ := e5 k k1 (by omega)
      refine ⟨v, s1, ?_⟩
      rw [slot_setv_other _ _ _ _ c, if_neg c]
      exact s2

theorem sum_ones (f : Nat → Nat) : ∀ l : List Nat, (∀ x ∈ l, f x = 1) →
    (l.map f).sum = l.length := by
  intro l
  induction l with
  | nil => intro _; rfl
  | cons x xs ih =>
    intro h
    simp only [List.map_cons, List.sum_cons, List.length_cons]
    rw [h x (List.mem_cons_self x xs), ih (fun y hy => h y (List.mem_cons_of_mem x hy))]
    omega

/-- The invariant for arbitrary weights holds for the state `dijkstra` hands to its main
loop, with the log holding the push of the source. -/
theorem start_struct (g0 : newGraph_t) (N a b : Nat) (g2 : newGraph_t)
    (ha1 : 1 ≤ a) (haN : a ≤ N) (hb1 : 1 ≤ b) (hbN : b ≤ N)
    (h2 : ∀ k, 1 ≤ k → k ≤ N → ∃ v, slot g0 k = some v ∧
      slot g2 k = some { v with dist := if k = a then 0 else INT_MAX, prev := 0,
                                visited := 0 }) :
    dj_struct g0 N a b (g2, push_heap (create_heap N) a 0)
      [event.push a (push_heap (create_heap N) a 0).len] := by
  have hd : ∀ k, 1 ≤ k → k ≤ N → dist_of g2 k = if k = a then 0 else INT_MAX := by
    intro k k1 kN
    obtain ⟨v, _, sv⟩ := h2 k k1 kN
    rw [dist_of_slot _ _ _ sv]
  have hv : ∀ k, 1 ≤ k → k ≤ N → visited_of g2 k = 0 := by
    intro k k1 kN
    obtain ⟨v, _, sv⟩ := h2 k k1 kN
    rw [visited_of_slot _ _ _ sv]
  have hE : entries (push_heap (create_heap N) a 0) = (a, 0) ::ₘ 0 := by
    rw [(push_heap_entries_absent (create_heap N) a 0 rfl).2]
    rfl
  have hmem : ∀ e ∈ entries (push_heap (create_heap N) a 0), e = (a, 0) := by
    intro e he
    rw [hE] at he
    rcases Multiset.mem_cons.mp he with e1 | e1
    · exact e1
    · exact absurd e1 (Multiset.not_mem_zero e)
  have hcount : unvisited_count N g2 = N := by
    unfold unvisited_count
    rw [sum_ones _ _ (fun x hx => by
      have := (mem_range1 N x).mp hx
      exact if_pos (hv x this.1 this.2)), List.length_range']
  constructor
  · intro i i1 iN
    obtain ⟨v, s0, sv⟩ := h2 i i1 iN
    refine ⟨_, sv, ?_⟩
    simp only
    rw [out_edges_slot _ _ _ s0]
  · exact push_heap_wf _ _ _ (create_heap_wf N)
  · intro e he
    rw [hmem e he]
    exact ⟨ha1, haN, hv a ha1 haN⟩
  · intro y y1 yN _
    by_cases cy : y = a
    · right
      refine ⟨0, ?_⟩
      rw [cy, hE]
      exact Multiset.mem_cons_self _ _
    · left
      exact (push_heap_create N a 0).2.2.2 y cy
  · intro e he
    left
    rw [hmem e he]
  · intro y y1 yN _ ya yd
    simp only at yd
    rw [hd y y1 yN, if_neg ya] at yd
    exact absurd rfl yd
  · intro x x1 xN xv
    exact absurd (hv x x1 xN) xv
  · exact hv b hb1 hbN
  · intro v hm
    exact absurd hm (List.not_mem_nil v)
  · show 0 + unvisited_count N g2 = N
    omega
  · refine ⟨List.not_mem_nil a, ?_, trivial⟩
    rw [(push_heap_create N a 0).1]
    omega

/-- On a graph with vertex ids `1 .. N` and for source and target in `1 .. N`, the logged
`dijkstra` returns with fuel for `N` rounds, and the final facts hold of the graph and the
log. -/
theorem dijkstra_log_run (fuel : Nat) (g : newGraph_t) (N a b : Nat) (hg : graph_ok g N)
    (ha1 : 1 ≤ a) (haN : a ≤ N) (hb1 : 1 ≤ b) (hbN : b ≤ N) (hf : N ≤ fuel) :
    ∃ r, dijkstra_log fuel g a b = Run.done r ∧ dj_final g N a r.1.1 r.2 := by
  obtain ⟨g2, e1, e3⟩ := dijkstra_log_start fuel g N a b hg ha1 haN
  have inv := start_struct g N a b g2 ha1 haN hb1 hbN e3
  have hp : dj_prev g N g2 := by
    intro y y1 yN yp
    obtain ⟨v, _, sv⟩ := e3 y y1 yN
    rw [prev_of_slot _ _ _ sv] at yp
    exact absurd rfl yp
  have hs : sums_ok [event.push a (push_heap (create_heap N) a 0).len] := by
    intro d w hm
    rcases List.mem_cons.mp hm with e2 | e2
    · exact absurd e2 (by simp)
    · exact absurd e2 (List.not_mem_nil _)
  obtain ⟨r, r1, r2⟩ := dijkstra_loop_log_inv g N a b hg hb1 hbN fuel
    ((g2, push_heap (create_heap N) a 0), [event.push a (push_heap (create_heap N) a 0).len])
    inv (fun hw _ => ⟨start_inv g N a b g2 hw ha1 haN hb1 hbN e3, hp, hs⟩)
    (le_trans (unvisited_count_le N g2) hf)
  exact ⟨r, by rw [e1]; exact r1, r2⟩
/-! ## Consequences for the returned graph and for the log -/

/-- The logged run and the run of `dijkstra` return together, and the final facts hold. -/
theorem dijkstra_log_final (fuel : Nat) (g : newGraph_t) (N a b : Nat) (hg : graph_ok g N)
    (ha1 : 1 ≤ a) (haN : a ≤ N) (hb1 : 1 ≤ b) (hbN : b ≤ N) (hf : N ≤ fuel) :
    ∃ r, dijkstra_log fuel g a b = Run.done r ∧ dijkstra fuel g a b = Run.done r.1 ∧
      dj_final g N a r.1.1 r.2 := by
  obtain ⟨r, r1, r2⟩ := dijkstra_log_run fuel g N a b hg ha1 haN hb1 hbN hf
  refine ⟨r, r1, ?_, r2⟩
  rw [← dijkstra_log_forget, r1]
  rfl

theorem trace_ok_nodup (N : Nat) : ∀ tr : List event, trace_ok N tr → (popped tr).Nodup := by
  intro tr
  induction tr with
  | nil => intro _; exact List.nodup_nil
  | cons e tr ih =>
    intro h
    cases e with
    | pop v n => exact List.nodup_cons.mpr ⟨h.1, ih h.2.2⟩
    | push v n => exact ih h.2.2
    | sum d w => exact ih h

theorem trace_ok_suffix (N : Nat) : ∀ l1 l2 : List event, trace_ok N (l1 ++ l2) →
    trace_ok N l2 := by
  intro l1
  induction l1 with
  | nil => intro l2 h; exact h
  | cons e l1 ih =>
    intro l2 h
    cases e with
    | pop v n => exact ih l2 h.2.2
    | push v n => exact ih l2 h.2.2
    | sum d w => exact ih l2 h

theorem trace_ok_len (N : Nat) : ∀ tr : List event, trace_ok N tr →
    ∀ v n, (event.push v n ∈ tr ∨ event.pop v n ∈ tr) → n ≤ N := by
  intro tr
  induction tr with
  | nil =>
    intro _ v n h
    rcases h with h | h <;> exact absurd h (List.not_mem_nil _)
  | cons e tr ih =>
    intro h v n hm
    cases e with
    | pop v1 n1 =>
      rcases hm with hm | hm
      · rcases List.mem_cons.mp hm with e1 | e1
        · exact absurd e1 (by simp)
        · exact ih h.2.2 v n (Or.inl e1)
      · rcases List.mem_cons.mp hm with e1 | e1
        · injection e1 with _ e3
          rw [e3]
          exact h.2.1
        · exact ih h.2.2 v n (Or.inr e1)
    | push v1 n1 =>
      rcases hm with hm | hm
      · rcases List.mem_cons.mp hm with e1 | e1
        · injection e1 with _ e3
          rw [e3]
          exact h.2.1
        · exact ih h.2.2 v n (Or.inl e1)
      · rcases List.mem_cons.mp hm with e1 | e1
        · exact absurd e1 (by simp)
        · exact ih h.2.2 v n (Or.inr e1)
    | sum d w =>
      rcases hm with hm | hm
      · rcases List.mem_cons.mp hm with e1 | e1
        · exact absurd e1 (by simp)
        · exact ih h v n (Or.inl e1)
      · rcases List.mem_cons.mp hm with e1 | e1
        · exact absurd e1 (by simp)
        · exact ih h v n (Or.inr e1)

/-! ## The checked heap functions agree with the unchecked ones where they return -/

theorem sift_up_chk_succ (p : Int) (f : Nat) (h : heap_t) (i : Nat) :
    sift_up_chk p (f + 1) h i =
      if 1 < i then
        if i / 2 < h.prio_cells then
          if h.prio (i / 2) < p then some (h, i)
          else
            if move_ok h i (i / 2) = true then
              sift_up_chk p f (move_slot h i (i / 2)) (i / 2)
            else none
        else none
      else some (h, i) := rfl

theorem sift_up_chk_eq (p : Int) : ∀ (fuel : Nat) (h : heap_t) (i : Nat) (r : heap_t × Nat),
    sift_up_chk p fuel h i = some r → r = sift_up p fuel h i := by
  intro fuel
  induction fuel with
  | zero =>
    intro h i r hr
    exact (Option.some.inj hr).symm
  | succ f ih =>
    intro h i r hr
    rw [sift_up_chk_succ] at hr
    rw [sift_up_succ]
    by_cases c1 : 1 < i
    · rw [if_pos c1] at hr ⊢
      by_cases c2 : i / 2 < h.prio_cells
      · rw [if_pos c2] at hr
        by_cases c3 : h.prio (i / 2) < p
        · rw [if_pos c3] at hr ⊢
          exact (Option.some.inj hr).symm
        · rw [if_neg c3] at hr ⊢
          by_cases c4 : move_ok h i (i / 2) = true
          · rw [if_pos c4] at hr
            exact ih _ _ _ hr
          · rw [if_neg c4] at hr
            exact absurd hr (by simp)
      · rw [if_neg c2] at hr
        exact absurd hr (by simp)
    · rw [if_neg c1] at hr ⊢
      exact (Option.some.inj hr).symm

theorem push_heap_chk_eq (h : heap_t) (v : Nat) (p : Int) (h1 : heap_t)
    (hr : push_heap_chk h v p = some h1) : h1 = push_heap h v p := by
  unfold push_heap_chk at hr
  by_cases c1 : v < h.index_cells
  · rw [if_pos c1] at hr
    cases hs : sift_up_chk p (if h.index v = 0 then h.len + 1 else h.index v)
        (if h.index v = 0 then { h with len := h.len + 1 } else h)
        (if h.index v = 0 then h.len + 1 else h.index v) with
    | none =>
      rw [hs] at hr
      exact absurd hr (by simp)
    | some r =>
      rw [hs] at hr
      simp only at hr
      have e := sift_up_chk_eq p _ _ _ r hs
      by_cases c2 : store_ok r.1 r.2 v = true
      · rw [if_pos c2] at hr
        rw [push_heap_eq, ← e]
        exact (Option.some.inj hr).symm
      · rw [if_neg c2] at hr
        exact absurd hr (by simp)
  · rw [if_neg c1] at hr
    exact absurd hr (by simp)

theorem min_chk_eq (h : heap_t) (i j k m : Nat) (hr : min_chk h i j k = some m) :
    m = Grdb.min h i j k := by
  unfold min_chk at hr
  by_cases c1 : j ≤ h.len ∧ ¬ (j < h.prio_cells ∧ i < h.prio_cells)
  · rw [if_pos c1] at hr
    exact absurd hr (by simp)
  · rw [if_neg c1] at hr
    by_cases c2 : k ≤ h.len ∧
        ¬ (k < h.prio_cells ∧
            (if j ≤ h.len ∧ h.prio j < h.prio i then j else i) < h.prio_cells)
    · rw [if_pos c2] at hr
      exact absurd hr (by simp)
    · rw [if_neg c2] at hr
      exact (Option.some.inj hr).symm

theorem sift_down_chk_succ (f : Nat) (h : heap_t) (i : Nat) :
    sift_down_chk (f + 1) h i =
      match min_chk h h.len (2 * i) (2 * i + 1) with
      | none => none
      | some j =>
        if j = h.len then some (h, i)
        else
          if move_ok h i j = true then sift_down_chk f (move_slot h i j) j
          else none := rfl

theorem sift_down_chk_eq : ∀ (fuel : Nat) (h : heap_t) (i : Nat) (r : heap_t × Nat),
    sift_down_chk fuel h i = some r → r = sift_down fuel h i := by
  intro fuel
  induction fuel with
  | zero =>
    intro h i r hr
    exact (Option.some.inj hr).symm
  | succ f ih =>
    intro h i r hr
    rw [sift_down_chk_succ] at hr
    rw [sift_down_succ]
    cases hm : min_chk h h.len (2 * i) (2 * i + 1) with
    | none =>
      rw [hm] at hr
      exact absurd hr (by simp)
    | some j =>
      rw [hm] at hr
      simp only at hr
      have e := min_chk_eq h _ _ _ j hm
      rw [← e]
      by_cases c1 : j = h.len
      · rw [if_pos c1] at hr ⊢
        exact (Option.some.inj hr).symm
      · rw [if_neg c1] at hr ⊢
        by_cases c2 : move_ok h i j = true
        · rw [if_pos c2] at hr
          exact ih _ _ _ hr
        · rw [if_neg c2] at hr
          exact absurd hr (by simp)

theorem pop_heap_chk_eq (h : heap_t) (r : Nat × heap_t) (hr : pop_heap_chk h = some r) :
    r = pop_heap h := by
  unfold pop_heap_chk at hr
  by_cases c1 : 1 < h.data_cells
  · rw [if_pos c1] at hr
    cases hs : sift_down_chk h.len h 1 with
    | none =>
      rw [hs] at hr
      exact absurd hr (by simp)
    | some q =>
      rw [hs] at hr
      simp only at hr
      have e := sift_down_chk_eq _ _ _ q hs
      by_cases c2 : move_ok q.1 q.2 q.1.len = true
      · rw [if_pos c2] at hr
        rw [← Option.some.inj hr, e]
        rfl
      · rw [if_neg c2] at hr
        exact absurd hr (by simp)
  · rw [if_neg c1] at hr
    exact absurd hr (by simp)
/-! ## The checked run agrees with the unchecked run up to an invalid heap access -/

theorem relax_chk_nil (c : Nat) (s : (newGraph_t × heap_t) × List event) :
    relax_chk c [] s = (some s.1, s.2) := rfl

theorem relax_chk_cons (c : Nat) (e : newEdge_t) (es : List newEdge_t)
    (s : (newGraph_t × heap_t) × List event)
    (v u : newVertex_t) (hv : slot s.1.1 c = some v) (hu : slot s.1.1 e.vertex = some u) :
    relax_chk c (e :: es) s =
      if u.visited = 0 then
        if wrap32 (v.dist + e.weight) ≤ u.dist then
          match push_heap_chk s.1.2 e.vertex (wrap32 (v.dist + e.weight)) with
          | none => (none, event.sum v.dist e.weight :: s.2)
          | some h1 =>
            relax_chk c es
              ((setv s.1.1 e.vertex { u with prev := c, dist := wrap32 (v.dist + e.weight) },
                h1),
               event.push e.vertex h1.len :: event.sum v.dist e.weight :: s.2)
        else relax_chk c es (s.1, event.sum v.dist e.weight :: s.2)
      else relax_chk c es s := by
  simp only [relax_chk, hv, hu]

/-- The log of `relax_log` only grows. -/
theorem relax_log_grows (c : Nat) : ∀ (es : List newEdge_t)
    (s r : (newGraph_t × heap_t) × List event),
    relax_log c es s = some r → ∃ l, r.2 = l ++ s.2 := by
  intro es
  induction es with
  | nil =>
    intro s r h
    rw [relax_log_nil] at h
    rw [← Option.some.inj h]
    exact ⟨[], rfl⟩
  | cons e es ih =>
    intro s r h
    cases hv : slot s.1.1 c with
    | none =>
      simp only [relax_log, hv] at h
      exact absurd h (by simp)
    | some v =>
      cases hu : slot s.1.1 e.vertex with
      | none =>
        simp only [relax_log, hv, hu] at h
        exact absurd h (by simp)
      | some u =>
        rw [relax_log_cons c e es s v u hv hu] at h
        by_cases c1 : u.visited = 0
        · rw [if_pos c1] at h
          by_cases c2 : wrap32 (v.dist + e.weight) ≤ u.dist
          · rw [if_pos c2] at h
            obtain ⟨l, hl⟩ := ih _ r h
            exact ⟨l ++ [event.push e.vertex
              (push_heap s.1.2 e.vertex (wrap32 (v.dist + e.weight))).len,
              event.sum v.dist e.weight], by rw [hl]; simp⟩
          · rw [if_neg c2] at h
            obtain ⟨l, hl⟩ := ih _ r h
            exact ⟨l ++ [event.sum v.dist e.weight], by rw [hl]; simp⟩
        · rw [if_neg c1] at h
          exact ih s r h

/-- Where `relax_log` returns, `relax_chk` returns the same state and log, or it stops at
an invalid heap access with an earlier part of that log. -/
theorem relax_chk_agrees (c : Nat) : ∀ (es : List newEdge_t)
    (s r : (newGraph_t × heap_t) × List event),
    relax_log c es s = some r →
      relax_chk c es s = (some r.1, r.2) ∨
      ((relax_chk c es s).1 = none ∧ ∃ l, r.2 = l ++ (relax_chk c es s).2) := by
  intro es
  induction es with
  | nil =>
    intro s r h
    rw [relax_log_nil] at h
    rw [← Option.some.inj h]
    exact Or.inl rfl
  | cons e es ih =>
    intro s r h
    cases hv : slot s.1.1 c with
    | none =>
      simp only [relax_log, hv] at h
      exact absurd h (by simp)
    | some v =>
      cases hu : slot s.1.1 e.vertex with
      | none =>
        simp only [relax_log, hv, hu] at h
        exact absurd h (by simp)
      | some u =>
        rw [relax_log_cons c e es s v u hv hu] at h
        rw [relax_chk_cons c e es s v u hv hu]
        by_cases c1 : u.visited = 0
        · rw [if_pos c1] at h ⊢
          by_cases c2 : wrap32 (v.dist + e.weight) ≤ u.dist
          · rw [if_pos c2] at h ⊢
            cases hp : push_heap_chk s.1.2 e.vertex (wrap32 (v.dist + e.weight)) with
            | none =>
              simp only
              obtain ⟨l, hl⟩ := relax_log_grows c es _ r h
              exact Or.inr ⟨trivial, l ++ [event.push e.vertex
                (push_heap s.1.2 e.vertex (wrap32 (v.dist + e.weight))).len],
                by rw [hl]; simp⟩
            | some h1 =>
              simp only
              rw [push_heap_chk_eq _ _ _ h1 hp]
              exact ih _ r h
          · rw [if_neg c2] at h ⊢
            exact ih _ r h
        · rw [if_neg c1] at h ⊢
          exact ih s r h

theorem dijkstra_loop_chk_succ (b fuel : Nat) (s : (newGraph_t × heap_t) × List event) :
    dijkstra_loop_chk b (fuel + 1) s =
      if s.1.2.len = 0 then (Run.done s.1, s.2)
      else
        match pop_heap_chk s.1.2 with
        | none => (Run.crash, s.2)
        | some r =>
          if r.1 = b then (Run.done (s.1.1, r.2), event.pop r.1 r.2.len :: s.2)
          else
            match slot s.1.1 r.1 with
            | none => (Run.crash, event.pop r.1 r.2.len :: s.2)
            | some v =>
              match (relax_chk r.1 v.edges
                  ((setv s.1.1 r.1 { v with visited := 1 }, r.2),
                    event.pop r.1 r.2.len :: s.2)).1 with
              | none =>
                (Run.crash, (relax_chk r.1 v.edges
                  ((setv s.1.1 r.1 { v with visited := 1 }, r.2),
                    event.pop r.1 r.2.len :: s.2)).2)
              | some s2 =>
                dijkstra_loop_chk b fuel (s2, (relax_chk r.1 v.edges
                  ((setv s.1.1 r.1 { v with visited := 1 }, r.2),
                    event.pop r.1 r.2.len :: s.2)).2) := rfl

/-- The log of `dijkstra_loop_log` only grows. -/
theorem dijkstra_loop_log_grows (b : Nat) : ∀ (fuel : Nat)
    (s r : (newGraph_t × heap_t) × List event),
    dijkstra_loop_log b fuel s = Run.done r → ∃ l, r.2 = l ++ s.2 := by
  intro fuel
  induction fuel with
  | zero =>
    intro s r h
    by_cases c : s.1.2.len = 0
    · simp only [dijkstra_loop_log, c, if_true] at h
      rw [← Run.done.inj h]
      exact ⟨[], rfl⟩
    · simp only [dijkstra_loop_log, c, if_false] at h
      exact absurd h (by simp)
  | succ f ih =>
    intro s r h
    rw [dijkstra_loop_log_succ] at h
    by_cases c : s.1.2.len = 0
    · rw [if_pos c] at h
      rw [← Run.done.inj h]
      exact ⟨[], rfl⟩
    · rw [if_neg c] at h
      by_cases c2 : (pop_heap s.1.2).1 = b
      · rw [if_pos c2] at h
        rw [← Run.done.inj h]
        exact ⟨[event.pop (pop_heap s.1.2).1 (pop_heap s.1.2).2.len], rfl⟩
      · rw [if_neg c2] at h
        cases hv : slot s.1.1 (pop_heap s.1.2).1 with
        | none =>
          rw [hv] at h
          exact absurd h (by simp)
        | some v =>
          rw [hv] at h
          simp only at h
          cases hl : relax_log (pop_heap s.1.2).1 v.edges
            ((setv s.1.1 (pop_heap s.1.2).1 { v with visited := 1 }, (pop_heap s.1.2).2),
              event.pop (pop_heap s.1.2).1 (pop_heap s.1.2).2.len :: s.2) with
          | none =>
            rw [hl] at h
            exact absurd h (by simp)
          | some s2 =>
            rw [hl] at h
            simp only at h
            obtain ⟨l1, h1⟩ := relax_log_grows _ _ _ s2 hl
            obtain ⟨l2, h2⟩ := ih s2 r h
            exact ⟨l2 ++ l1 ++ [event.pop (pop_heap s.1.2).1 (pop_heap s.1.2).2.len],
              by rw [h2, h1]; simp⟩

/-- Where `dijkstra_loop_log` returns, `dijkstra_loop_chk` returns the same state and log,
or it stops at an invalid heap access with an earlier part of that log. -/
theorem dijkstra_loop_chk_agrees (b : Nat) : ∀ (fuel : Nat)
    (s r : (newGraph_t × heap_t) × List event),
    dijkstra_loop_log b fuel s = Run.done r →
      dijkstra_loop_chk b fuel s = (Run.done r.1, r.2) ∨
      ((dijkstra_loop_chk b fuel s).1 = Run.crash ∧
        ∃ l, r.2 = l ++ (dijkstra_loop_chk b fuel s).2) := by
  intro fuel
  induction fuel with
  | zero =>
    intro s r h
    by_cases c : s.1.2.len = 0
    · simp only [dijkstra_loop_log, c, if_true] at h
      rw [← Run.done.inj h]
      left
      simp only [dijkstra_loop_chk, c, if_true]
    · simp only [dijkstra_loop_log, c, if_false] at h
      exact absurd h (by simp)
  | succ f ih =>
    intro s r h
    have hgrow := dijkstra_loop_log_grows b (f + 1) s r h
    rw [dijkstra_loop_log_succ] at h
    rw [dijkstra_loop_chk_succ]
    by_cases c : s.1.2.len = 0
    · rw [if_pos c] at h ⊢
      rw [← Run.done.inj h]
      exact Or.inl rfl
    · rw [if_neg c] at h ⊢
      cases hp : pop_heap_chk s.1.2 with
      | none =>
        simp only
        exact Or.inr ⟨trivial, hgrow⟩
      | some q =>
        simp only
        rw [pop_heap_chk_eq _ q hp]
        by_cases c2 : (pop_heap s.1.2).1 = b
        · rw [if_pos c2] at h ⊢
          rw [← Run.done.inj h]
          exact Or.inl rfl
        · rw [if_neg c2] at h ⊢
          cases hv : slot s.1.1 (pop_heap s.1.2).1 with
          | none =>
            rw [hv] at h
            exact absurd h (by simp)
          | some v =>
            rw [hv] at h
            simp only at h ⊢
            cases hl : relax_log (pop_heap s.1.2).1 v.edges
              ((setv s.1.1 (pop_heap s.1.2).1 { v with visited := 1 }, (pop_heap s.1.2).2),
                event.pop (pop_heap s.1.2).1 (pop_heap s.1.2).2.len :: s.2) with
            | none =>
              rw [hl] at h
              exact absurd h (by simp)
            | some s2 =>
              rw [hl] at h
              simp only at h
              rcases relax_chk_agrees _ _ _ s2 hl with hc | ⟨hc1, l1, hc2⟩
              · rw [hc]
                simp only
                exact ih s2 r h
              · rw [hc1]
                simp only
                obtain ⟨l2, h2⟩ := dijkstra_loop_log_grows b f s2 r h
                exact Or.inr ⟨trivial, l2 ++ l1, by rw [h2, hc2]; simp⟩

/-- Where `dijkstra_log` returns, `dijkstra_chk` returns the same state and log, or it stops
at an invalid heap access with an earlier part of that log. -/
theorem dijkstra_chk_agrees (fuel : Nat) (g : newGraph_t) (a b : Nat)
    (r : (newGraph_t × heap_t) × List event) (h : dijkstra_log fuel g a b = Run.done r) :
    dijkstra_chk fuel g a b = (Run.done r.1, r.2) ∨
    ((dijkstra_chk fuel g a b).1 = Run.crash ∧ ∃ l, r.2 = l ++ (dijkstra_chk fuel g a b).2) := by
  unfold dijkstra_log at h
  unfold dijkstra_chk
  cases hi : init_vertices g.vertices_len 1 g with
  | none =>
    rw [hi] at h
    exact absurd h (by simp)
  | some g1 =>
    rw [hi] at h
    simp only at h ⊢
    cases hs : slot g1 a with
    | none =>
      rw [hs] at h
      exact absurd h (by simp)
    | some v =>
      rw [hs] at h
      simp only at h ⊢
      cases hp : push_heap_chk (create_heap g1.vertices_len) a 0 with
      | none =>
        simp only
        exact Or.inr ⟨trivial, r.2, by simp⟩
      | some h1 =>
        simp only
        rw [push_heap_chk_eq _ _ _ h1 hp]
        exact dijkstra_loop_chk_agrees b fuel _ r h
/-! ## The run with the checked heap: what holds when it returns, and of its log -/

theorem returned_done {α : Type} (x : Run α) (h : returned x = true) :
    ∃ r, x = Run.done r := by
  cases x with
  | done r => exact ⟨r, rfl⟩
  | crash => exact absurd h (by simp [returned])
  | timeout => exact absurd h (by simp [returned])

/-- With the source at the largest id the first `push_heap` reads `index[N]`, one cell past
the `N` cells `create_heap(N)` allocated for `index`. -/
theorem dijkstra_chk_source_last (fuel : Nat) (g : newGraph_t) (N b : Nat)
    (hg : graph_ok g N) (hN : 1 ≤ N) : dijkstra_chk fuel g N b = (Run.crash, []) := by
  obtain ⟨g1, e1, _, e3, _, e5⟩ := init_vertices_spec N 1 g
    (fun k k1 k2 => (hg.2 k (by omega) k1).1)
  obtain ⟨va, _, sa1⟩ := e5 N hN (by omega)
  have hp : push_heap_chk (create_heap N) N 0 = none := by
    unfold push_heap_chk
    exact if_neg (by simp [create_heap])
  unfold dijkstra_chk
  rw [hg.1, e1]
  simp only [sa1]
  rw [e3, hg.1, hp]

/-- On a graph with vertex ids `1 .. N` and with fuel for `N` rounds, the unchecked logged
run returns with the final facts, and the checked run returns the same state and log or
stops at an invalid heap access with an earlier part of that log. -/
theorem dijkstra_chk_final (fuel : Nat) (g : newGraph_t) (N a b : Nat) (hg : graph_ok g N)
    (ha1 : 1 ≤ a) (haN : a ≤ N) (hb1 : 1 ≤ b) (hbN : b ≤ N) (hf : N ≤ fuel) :
    ∃ r : (newGraph_t × heap_t) × List event, dj_final g N a r.1.1 r.2 ∧
      (dijkstra_chk fuel g a b = (Run.done r.1, r.2) ∨
        ((dijkstra_chk fuel g a b).1 = Run.crash ∧
          ∃ l, r.2 = l ++ (dijkstra_chk fuel g a b).2)) := by
  obtain ⟨r, r1, _, r2⟩ := dijkstra_log_final fuel g N a b hg ha1 haN hb1 hbN hf
  exact ⟨r, r2, dijkstra_chk_agrees fuel g a b r r1⟩

/-- The checked run with fuel for `N` rounds does not run out of fuel, and its log respects
the heap discipline whatever the outcome. -/
theorem dijkstra_chk_trace (fuel : Nat) (g : newGraph_t) (N a b : Nat) (hg : graph_ok g N)
    (ha1 : 1 ≤ a) (haN : a ≤ N) (hb1 : 1 ≤ b) (hbN : b ≤ N) (hf : N ≤ fuel) :
    (dijkstra_chk fuel g a b).1 ≠ Run.timeout ∧ trace_ok N (dijkstra_chk fuel g a b).2 := by
  obtain ⟨r, fin, h | ⟨h1, l, h2⟩⟩ := dijkstra_chk_final fuel g N a b hg ha1 haN hb1 hbN hf
  · rw [h]
    exact ⟨by simp, fin.lok⟩
  · rw [h1]
    refine ⟨by simp, ?_⟩
    have := fin.lok
    rw [h2] at this
    exact trace_ok_suffix N l _ this

/-- The `prev` chains of a final graph. -/
theorem final_prev_chain (g0 : newGraph_t) (N a : Nat) (g : newGraph_t) (tr : List event)
    (fin : dj_final g0 N a g tr) (v : Nat) (v1 : 1 ≤ v) (vN : v ≤ N) (vs : v ≠ a)
    (vd : dist_of g v ≠ INT_MAX) :
    ∃ l, prev_path g a (v :: l) ∧ 1 ≤ l.length ∧ l.length ≤ N - 1 ∧
      (v :: l).Nodup ∧ ∀ z ∈ v :: l, 1 ≤ z ∧ z ≤ N ∧ z ≠ 0 := by
  by_cases cv : visited_of g v = 0
  · obtain ⟨p1, pN, pv⟩ := fin.touched v v1 vN cv vs vd
    obtain ⟨l, h1, h2, h3, h4⟩ := fin.chain _ p1 pN pv
    have hpos := unvisited_count_pos N g v v1 vN cv
    refine ⟨prev_of g v :: l, ⟨rfl, h1⟩, ?_, ?_, ?_, ?_⟩
    · simp only [List.length_cons]
      omega
    · simp only [List.length_cons]
      omega
    · exact List.nodup_cons.mpr ⟨fun hm => (h3 v hm).2.2 cv, h2⟩
    · intro z hz
      rcases List.mem_cons.mp hz with e1 | e1
      · rw [e1]
        exact ⟨v1, vN, by omega⟩
      · exact ⟨(h3 z e1).1, (h3 z e1).2.1, by have := (h3 z e1).1; omega⟩
  · obtain ⟨l, h1, h2, h3, h4⟩ := fin.chain v v1 vN cv
    cases l with
    | nil => exact absurd h1 vs
    | cons y l =>
      refine ⟨y :: l, h1, ?_, ?_, h2, ?_⟩
      · simp only [List.length_cons]
        omega
      · simp only [List.length_cons] at h4 ⊢
        omega
      · intro z hz
        exact ⟨(h3 z hz).1, (h3 z hz).2.1, by have := (h3 z hz).1; omega⟩

/-- Failing input for C4: the chain `1 → 2 → … → 6` with source and target 6.  The heap of
`create_heap(6)` has six cells for `index` (`index[0 .. 5]`), and the first call
`push_heap(h, 6, 0)` reads `index[6]`: with checked accesses the run stops there, before the
main loop, where the claim says it returns with `dist = 0` and the path `[6]`. -/
theorem dijkstra_source_last_overrun (fuel : Nat) :
    graph_ok (graph_of chain6) 6 ∧ (create_heap 6).index_cells = 6 ∧
    push_heap_chk (create_heap 6) 6 0 = none ∧
    dijkstra_chk fuel (graph_of chain6) 6 6 = (Run.crash, []) := by
  refine ⟨by unfold graph_ok; decide, rfl, rfl, rfl⟩

/-- Claim C13.  On a graph with vertex ids `1 .. N` and for source and target in `1 .. N`,
the run of `dijkstra` with checked heap accesses and fuel for `N` rounds of the main loop
does not run out of fuel, and whenever it returns, for every vertex `v` other than the
source whose `dist` is not `INT_MAX`, following `prev` from `v` gives a list `v :: l` that
ends at the source after `l.length` steps, with `1 ≤ l.length ≤ N - 1`, whose entries are
pairwise distinct and lie in `1 .. N` (so none is the sentinel `0`).  The proof does not use
the sign of the weights. -/
theorem dijkstra_prev_chain (fuel : Nat) (g : newGraph_t) (N s t : Nat)
    (hg : graph_ok g N) (hs1 : 1 ≤ s) (hsN : s ≤ N) (ht1 : 1 ≤ t) (htN : t ≤ N)
    (hf : N ≤ fuel) :
    (dijkstra_chk fuel g s t).1 ≠ Run.timeout ∧
    ∀ r, (dijkstra_chk fuel g s t).1 = Run.done r →
      ∀ v, 1 ≤ v → v ≤ N → v ≠ s → dist_of r.1 v ≠ INT_MAX →
        ∃ l, prev_path r.1 s (v :: l) ∧ 1 ≤ l.length ∧ l.length ≤ N - 1 ∧
          (v :: l).Nodup ∧ ∀ z ∈ v :: l, 1 ≤ z ∧ z ≤ N ∧ z ≠ 0 := by
  obtain ⟨r0, fin, h | ⟨h1, _⟩⟩ := dijkstra_chk_final fuel g N s t hg hs1 hsN ht1 htN hf
  · rw [h]
    refine ⟨by simp, ?_⟩
    intro r hr v v1 vN vs vd
    have e : r0.1 = r := Run.done.inj hr
    rw [← e] at vd ⊢
    exact final_prev_chain g N s r0.1.1 r0.2 fin v v1 vN vs vd
  · rw [h1]
    exact ⟨by simp, fun r hr => absurd hr (by simp)⟩

/-- Witness for C13: the diamond `1 → 2 (1)`, `1 → 3 (4)`, `2 → 3 (2)`, `3 → 4 (1)` with the
extra edge `5 → 1 (1)`, query `(1, 4)`.  The largest id 5 is never pushed, and the checked
run returns. -/
theorem dijkstra_prev_chain_witness :
    graph_ok (graph_of fed_diamond) 5 ∧
    ∃ r, (dijkstra_chk 5 (graph_of fed_diamond) 1 4).1 = Run.done r ∧
      ∀ v, 1 ≤ v → v ≤ 5 → v ≠ 1 → dist_of r.1 v ≠ INT_MAX →
        ∃ l, prev_path r.1 1 (v :: l) ∧ 1 ≤ l.length ∧ l.length ≤ 5 - 1 ∧
          (v :: l).Nodup ∧ ∀ z ∈ v :: l, 1 ≤ z ∧ z ≤ 5 ∧ z ≠ 0 :=
  ⟨by unfold graph_ok; decide,
    (returned_done (dijkstra_chk 5 (graph_of fed_diamond) 1 4).1 rfl).imp
      (fun r hr => ⟨hr,
        (dijkstra_prev_chain 5 (graph_of fed_diamond) 5 1 4 (by unfold graph_ok; decide)
          (by decide) (by decide) (by decide) (by decide) (by decide)).2 r hr⟩)⟩

/-- Claim C14.  On a graph with vertex ids `1 .. N`, non-negative edge weights whose sum is
below `INT_MAX`, and for source and target in `1 .. N`: the run of `dijkstra` with checked
heap accesses and fuel for `N` rounds does not run out of fuel, and whenever it returns, for
every vertex `v` whose `prev` is a vertex `u ≠ 0`, the graph (as given and as returned) has an
edge `u → v` of some weight `w` with `g.vertices[u].dist + w = g.vertices[v].dist`. -/
theorem dijkstra_prev_consistent (fuel : Nat) (g : newGraph_t) (N s t : Nat)
    (hg : graph_ok g N) (hw : weights_nonneg g N) (hsum : total_weight g N < INT_MAX)
    (hs1 : 1 ≤ s) (hsN : s ≤ N) (ht1 : 1 ≤ t) (htN : t ≤ N) (hf : N ≤ fuel) :
    (dijkstra_chk fuel g s t).1 ≠ Run.timeout ∧
    ∀ r, (dijkstra_chk fuel g s t).1 = Run.done r →
      ∀ v, 1 ≤ v → v ≤ N → prev_of r.1 v ≠ 0 →
        ∃ e, e ∈ out_edges g (prev_of r.1 v) ∧ e ∈ out_edges r.1 (prev_of r.1 v) ∧
          e.vertex = v ∧ dist_of r.1 (prev_of r.1 v) + e.weight = dist_of r.1 v := by
  obtain ⟨r0, fin, h | ⟨h1, _⟩⟩ := dijkstra_chk_final fuel g N s t hg hs1 hsN ht1 htN hf
  · rw [h]
    refine ⟨by simp, ?_⟩
    intro r hr v v1 vN vp
    have e : r0.1 = r := Run.done.inj hr
    rw [← e] at vp ⊢
    obtain ⟨p1, pN, _, e, k1, k2, k3⟩ := (fin.weighted hw hsum).1 v v1 vN vp
    obtain ⟨u, su, eu⟩ := fin.valid _ p1 pN
    refine ⟨e, k1, ?_, k2, k3⟩
    rw [out_edges_slot _ _ _ su, eu]
    exact k1
  · rw [h1]
    exact ⟨by simp, fun r hr => absurd hr (by simp)⟩

/-- Witness for C14: the diamond with the extra edge `5 → 1 (1)`, query `(1, 4)`; the checked
run returns. -/
theorem dijkstra_prev_consistent_witness :
    graph_ok (graph_of fed_diamond) 5 ∧ weights_nonneg (graph_of fed_diamond) 5 ∧
    total_weight (graph_of fed_diamond) 5 < INT_MAX ∧
    ∃ r, (dijkstra_chk 5 (graph_of fed_diamond) 1 4).1 = Run.done r ∧
      ∀ v, 1 ≤ v → v ≤ 5 → prev_of r.1 v ≠ 0 →
        ∃ e, e ∈ out_edges (graph_of fed_diamond) (prev_of r.1 v) ∧
          e ∈ out_edges r.1 (prev_of r.1 v) ∧
          e.vertex = v ∧ dist_of r.1 (prev_of r.1 v) + e.weight = dist_of r.1 v :=
  ⟨by unfold graph_ok; decide, by unfold weights_nonneg; decide, by decide,
    (returned_done (dijkstra_chk 5 (graph_of fed_diamond) 1 4).1 rfl).imp
      (fun r hr => ⟨hr,
        (dijkstra_prev_consistent 5 (graph_of fed_diamond) 5 1 4 (by unfold graph_ok; decide)
          (by unfold weights_nonneg; decide) (by decide) (by decide) (by decide) (by decide)
          (by decide) (by decide)).2 r hr⟩)⟩

/-- Failing input for C18: the chain `1 → 2 → … → 6` (weights 1), query `(1, 6)`.  The heap
of `create_heap(6)` has six cells for `index`; in the round of the fifth pop (vertex 5) the
relaxation of the edge `5 → 6` calls `push_heap(h, 6, 5)`, which reads `index[6]`: with
checked accesses the run stops there, whatever the fuel, where the claim says the main loop
terminates. -/
theorem dijkstra_chain_overrun (fuel : Nat) :
    graph_ok (graph_of chain6) 6 ∧ (create_heap 6).index_cells = 6 ∧
    (dijkstra_chk (fuel + 5) (graph_of chain6) 1 6).1 = Run.crash ∧
    popped (dijkstra_chk (fuel + 5) (graph_of chain6) 1 6).2 = [5, 4, 3, 2, 1] := by
  refine ⟨by unfold graph_ok; decide, rfl, rfl, rfl⟩

/-- Claim C19.  On a graph with vertex ids `1 .. N` and for source and target in `1 .. N`,
the run of `dijkstra` with checked heap accesses and fuel for `N` rounds does not run out of
fuel; the heap `create_heap` makes has `len ≤ N`, and the heap has `len ≤ N` after every
`push_heap` and every `pop_heap` of the run, whether the run returns or stops at an invalid
access (the log records `len` after each of them, and `len` changes nowhere else). -/
theorem dijkstra_heap_len_bounded (fuel : Nat) (g : newGraph_t) (N s t : Nat)
    (hg : graph_ok g N) (hs1 : 1 ≤ s) (hsN : s ≤ N) (ht1 : 1 ≤ t) (htN : t ≤ N)
    (hf : N ≤ fuel) :
    (dijkstra_chk fuel g s t).1 ≠ Run.timeout ∧ (create_heap N).len ≤ N ∧
    ∀ v n, (event.push v n ∈ (dijkstra_chk fuel g s t).2 ∨
      event.pop v n ∈ (dijkstra_chk fuel g s t).2) → n ≤ N := by
  obtain ⟨h1, h2⟩ := dijkstra_chk_trace fuel g N s t hg hs1 hsN ht1 htN hf
  exact ⟨h1, Nat.zero_le N, trace_ok_len N _ h2⟩

/-- Witness for C19: the diamond with the extra edge `5 → 1 (1)`, query `(1, 4)`; the checked
run returns. -/
theorem dijkstra_heap_len_bounded_witness :
    graph_ok (graph_of fed_diamond) 5 ∧
    returned (dijkstra_chk 5 (graph_of fed_diamond) 1 4).1 = true ∧
    (dijkstra_chk 5 (graph_of fed_diamond) 1 4).1 ≠ Run.timeout ∧ (create_heap 5).len ≤ 5 ∧
    ∀ v n, (event.push v n ∈ (dijkstra_chk 5 (graph_of fed_diamond) 1 4).2 ∨
      event.pop v n ∈ (dijkstra_chk 5 (graph_of fed_diamond) 1 4).2) → n ≤ 5 :=
  ⟨by unfold graph_ok; decide, rfl,
    dijkstra_heap_len_bounded 5 (graph_of fed_diamond) 5 1 4 (by unfold graph_ok; decide)
      (by decide) (by decide) (by decide) (by decide) (by decide)⟩

/-- Claim C20.  On a graph with vertex ids `1 .. N`, non-negative edge weights whose sum is
below `INT_MAX`, and for source and target in `1 .. N`: the run of `dijkstra` with checked
heap accesses and fuel for `N` rounds does not run out of fuel, and every sum
`v->dist + e->weight` its relaxation test evaluated, whether the run returns or stops at an
invalid access, has a left operand other than `INT_MAX` and a mathematical value within
`INT_MIN .. INT_MAX`, so that the 32-bit sum equals the mathematical one. -/
theorem dijkstra_sums_no_wrap (fuel : Nat) (g : newGraph_t) (N s t : Nat)
    (hg : graph_ok g N) (hw : weights_nonneg g N) (hsum : total_weight g N < INT_MAX)
    (hs1 : 1 ≤ s) (hsN : s ≤ N) (ht1 : 1 ≤ t) (htN : t ≤ N) (hf : N ≤ fuel) :
    (dijkstra_chk fuel g s t).1 ≠ Run.timeout ∧
    ∀ d w, event.sum d w ∈ (dijkstra_chk fuel g s t).2 →
      d ≠ INT_MAX ∧ -2147483648 ≤ d + w ∧ d + w ≤ INT_MAX ∧ wrap32 (d + w) = d + w := by
  obtain ⟨r0, fin, h | ⟨h1, l, h2⟩⟩ := dijkstra_chk_final fuel g N s t hg hs1 hsN ht1 htN hf
  · rw [h]
    exact ⟨by simp, (fin.weighted hw hsum).2⟩
  · rw [h1]
    refine ⟨by simp, ?_⟩
    intro d w hm
    apply (fin.weighted hw hsum).2 d w
    rw [h2]
    exact List.mem_append_right l hm

/-- Witness for C20: the diamond with the extra edge `5 → 1 (1)`, query `(1, 4)`; the checked
run returns. -/
theorem dijkstra_sums_no_wrap_witness :
    graph_ok (graph_of fed_diamond) 5 ∧ weights_nonneg (graph_of fed_diamond) 5 ∧
    total_weight (graph_of fed_diamond) 5 < INT_MAX ∧
    returned (dijkstra_chk 5 (graph_of fed_diamond) 1 4).1 = true ∧
    (dijkstra_chk 5 (graph_of fed_diamond) 1 4).1 ≠ Run.timeout ∧
    ∀ d w, event.sum d w ∈ (dijkstra_chk 5 (graph_of fed_diamond) 1 4).2 →
      d ≠ INT_MAX ∧ -2147483648 ≤ d + w ∧ d + w ≤ INT_MAX ∧ wrap32 (d + w) = d + w :=
  ⟨by unfold graph_ok; decide, by unfold weights_nonneg; decide, by decide, rfl,
    dijkstra_sums_no_wrap 5 (graph_of fed_diamond) 5 1 4 (by unfold graph_ok; decide)
      (by unfold weights_nonneg; decide) (by decide) (by decide) (by decide) (by decide)
      (by decide) (by decide)⟩
end Grdb
